import Mathlib

/-!
Verification of the dialogue-graph core of the VTMB DLG editor
(`model.py`, `layout.py`, the graph-mutation part of `mainwindow.py`,
`io_dlg.py`, `json_conv.py`) against its natural-language specification.

The Python code is shallowly embedded: every mutating Python function is
translated to a pure Lean function that returns the updated state, Python
dicts become association lists with last-write-wins lookup, Python sets
that are only used for membership become lists, and the two `while` loops
(the component BFS and the layering BFS) are written with an explicit fuel
parameter; the canonical entry points instantiate the fuel with a bound
that is provably sufficient, and stabilization theorems show the result
does not depend on the fuel once it is large enough.
-/

namespace Dlg

/-- Embedding of `model.DlgRow` (`model.py`): one row of a `.dlg` table. -/
structure DlgRow where
  index : Int
  male : String
  female : String
  next : Option Int
  condition : String
  action : String
  unknown01 : String
  unknown02 : String
  unknown03 : String
  unknown04 : String
  unknown05 : String
  unknown06 : String
  malkavian : String
  parent_npc : Option Int := none
deriving DecidableEq, Repr

/-- `DlgRow.is_pc_reply` (`model.py`): true iff `next` is not `None`. -/
def DlgRow.is_pc_reply (r : DlgRow) : Bool :=
  r.next.isSome

/-- `s.strip()` on a character list (whitespace off both ends). -/
def stripChars (cs : List Char) : List Char :=
  ((cs.dropWhile (fun c => c.isWhitespace)).reverse.dropWhile
    (fun c => c.isWhitespace)).reverse

/-- Python's `s.strip()` being empty / falsy, used by `is_empty_separator`. -/
def strippedEmpty (s : String) : Bool :=
  stripChars s.toList = []

/-- `DlgRow.is_empty_separator` (`model.py`): NPC row with all text fields blank. -/
def DlgRow.is_empty_separator (r : DlgRow) : Bool :=
  if r.is_pc_reply then false
  else if ¬ strippedEmpty r.unknown01 ∨ ¬ strippedEmpty r.unknown02 ∨
          ¬ strippedEmpty r.unknown03 ∨ ¬ strippedEmpty r.unknown04 ∨
          ¬ strippedEmpty r.unknown05 ∨ ¬ strippedEmpty r.unknown06 ∨
          ¬ strippedEmpty r.malkavian then false
  else if ¬ strippedEmpty r.male ∨ ¬ strippedEmpty r.female ∨
          ¬ strippedEmpty r.condition ∨ ¬ strippedEmpty r.action then false
  else true

/-- `{r.index: r for r in rows}` with Python dict semantics: the last row
with a given index wins. -/
def lookupRow : List DlgRow → Int → Option DlgRow
  | [], _ => none
  | r :: rs, i =>
    match lookupRow rs i with
    | some x => some x
    | none => if r.index = i then some r else none

/-- `i in nodes_map` for the dict built from `rows`. -/
def hasIndex (rows : List DlgRow) (i : Int) : Bool :=
  rows.any (fun r => r.index = i)

theorem lookupRow_isSome_iff (rows : List DlgRow) (i : Int) :
    (lookupRow rows i).isSome = hasIndex rows i := by
  induction rows with
  | nil => rfl
  | cons r rs ih =>
    simp only [lookupRow, hasIndex, List.any_cons]
    cases h : lookupRow rs i with
    | some x =>
      have : rs.any (fun r => decide (r.index = i)) = true := by
        have := ih
        simp only [hasIndex] at this
        rw [h] at this
        exact this.symm
      simp [this]
    | none =>
      have : rs.any (fun r => decide (r.index = i)) = false := by
        have := ih
        simp only [hasIndex] at this
        rw [h] at this
        exact this.symm
      by_cases hi : r.index = i <;> simp [hi, this]

theorem lookupRow_mem {rows : List DlgRow} {i : Int} {r : DlgRow}
    (h : lookupRow rows i = some r) : r ∈ rows ∧ r.index = i := by
  induction rows with
  | nil => simp [lookupRow] at h
  | cons x xs ih =>
    simp only [lookupRow] at h
    cases hx : lookupRow xs i with
    | some y =>
      rw [hx] at h
      simp only [Option.some.injEq] at h
      obtain ⟨hm, hi⟩ := ih (hx.trans (by rw [h]))
      exact ⟨List.mem_cons_of_mem _ hm, hi⟩
    | none =>
      rw [hx] at h
      by_cases hxi : x.index = i
      · simp [hxi] at h
        exact ⟨by simp [← h], by rw [← h]; exact hxi⟩
      · simp [hxi] at h

/-! ### `layout._ensure_parents`

`_ensure_parents` (`layout.py`, lines 29–37) walks the rows in order,
remembering the most recent NPC row; a reply row whose `parent_npc` is
`None` is mutated in place to point at that NPC. The embedding returns
the updated row list. -/

@[simp] theorem is_pc_reply_set_parent (r : DlgRow) (p : Option Int) :
    ({ r with parent_npc := p } : DlgRow).is_pc_reply = r.is_pc_reply := rfl

def ensureParentsGo : Option Int → List DlgRow → List DlgRow
  | _, [] => []
  | cur, r :: rs =>
    if r.is_pc_reply then
      (if r.parent_npc = none then { r with parent_npc := cur } else r) ::
        ensureParentsGo cur rs
    else
      r :: ensureParentsGo (some r.index) rs

/-- The row list as it stands after `_ensure_parents(rows)` ran. -/
def ensureParents (rows : List DlgRow) : List DlgRow :=
  ensureParentsGo none rows

theorem ensureParentsGo_idem (cur : Option Int) (rows : List DlgRow) :
    ensureParentsGo cur (ensureParentsGo cur rows) = ensureParentsGo cur rows := by
  induction rows generalizing cur with
  | nil => rfl
  | cons r rs ih =>
    by_cases hpc : r.is_pc_reply
    · by_cases hp : r.parent_npc = none
      · cases cur with
        | none => simp [ensureParentsGo, hpc, hp, ih]
        | some c => simp [ensureParentsGo, hpc, hp, ih]
      · simp [ensureParentsGo, hpc, hp, ih]
    · simp only [ensureParentsGo, hpc]
      simp [ensureParentsGo, hpc, ih]

theorem ensureParents_idem (rows : List DlgRow) :
    ensureParents (ensureParents rows) = ensureParents rows :=
  ensureParentsGo_idem none rows

/-! ### `layout._build_components`

`_build_components` (`layout.py`, lines 40–70): global `visited` set,
one BFS per still-unvisited row in input order; from an index the
traversal follows answer edges forward (`x.parent_npc == idx`) and, for
a reply, its `next` edge forward when the target index exists.

The `while dq:` loop is embedded with a fuel parameter; the canonical
entry point runs it with fuel `rows.length + 1`, which the adequacy
lemmas below prove sufficient. Python sets that are used only for
membership (`visited`, `comp`) become lists in insertion order. -/

/-- `[x.index for x in rows if x.parent_npc == idx]`. -/
def childIndices (rows : List DlgRow) (idx : Int) : List Int :=
  (rows.filter (fun x => x.parent_npc = some idx)).map (fun x => x.index)

/-- `for ch in children: if ch not in visited: visited.add(ch); dq.append(ch)`.
Returns the updated `(dq, visited)`. -/
def enqueueAll : List Int → List Int → List Int → List Int × List Int
  | [], dq, vis => (dq, vis)
  | c :: cs, dq, vis =>
    if c ∈ vis then enqueueAll cs dq vis
    else enqueueAll cs (dq ++ [c]) (vis ++ [c])

/-- Body of the `while dq:` loop of `_build_components`, with fuel.
Returns `(comp, visited)`. A queue entry whose index is not a key of
`nodes_map` would raise `KeyError` in Python; that case is unreachable
(every enqueued index is a key) and is embedded as a skip. -/
def bfsGo (rows : List DlgRow) : Nat → List Int → List Int → List Int →
    List Int × List Int
  | 0, _, vis, comp => (comp, vis)
  | _ + 1, [], vis, comp => (comp, vis)
  | fuel + 1, idx :: dq, vis, comp =>
    let comp := comp ++ [idx]
    match lookupRow rows idx with
    | none => bfsGo rows fuel dq vis comp
    | some node =>
      let p := enqueueAll (childIndices rows idx) dq vis
      -- `if node.is_pc_reply() and node.next in nodes_map:` — a reply is
      -- exactly a row with `next = some n`.
      match node.next with
      | none => bfsGo rows fuel p.1 p.2 comp
      | some n =>
        if hasIndex rows n ∧ n ∉ p.2 then
          bfsGo rows fuel (p.1 ++ [n]) (p.2 ++ [n]) comp
        else
          bfsGo rows fuel p.1 p.2 comp

/-- The `for r in rows:` loop of `_build_components`: seed a BFS at every
row whose index is still unvisited. Returns `(components, visited)`. -/
def buildComponentsGo (rows : List DlgRow) :
    List DlgRow → List Int → List (List Int) → List (List Int) × List Int
  | [], vis, acc => (acc, vis)
  | r :: rs, vis, acc =>
    if r.index ∈ vis then buildComponentsGo rows rs vis acc
    else
      let p := bfsGo rows (rows.length + 1) [r.index] (vis ++ [r.index]) []
      buildComponentsGo rows rs p.2 (acc ++ [p.1])

/-- `_build_components(rows)`: the returned list of components. The
function first runs `_ensure_parents` on its argument, so the traversal
works on the updated rows. -/
def buildComponents (rows : List DlgRow) : List (List Int) :=
  (buildComponentsGo (ensureParents rows) (ensureParents rows) [] []).1

/-- The row list as it stands after `_build_components(rows)` returned:
the only mutation is the in-place `_ensure_parents`. -/
def buildComponentsPost (rows : List DlgRow) : List DlgRow :=
  ensureParents rows

/-! ### `layout.calculate_layout`

The layered (Sugiyama-style) layout, `layout.py` lines 73–155. Gap and
node-size keyword arguments become a configuration record whose defaults
are the module constants `NODE_W_BASE = 300`, `NODE_H_BASE = 90`,
`H_GAP_BASE = 60`, `V_GAP_BASE = 110`. Coordinates are embedded as `ℚ`
(the Python floats here are sums, integer products and halvings of
machine integers; only the barycenter sort keys involve general division,
and they are only ever compared). -/

structure LayoutCfg where
  node_w : Int := 300
  node_h : Int := 90
  h_gap : Int := 60
  v_gap : Int := 110
deriving DecidableEq, Repr

/-- `BARYCENTER_ITERATIONS = 5` (`layout.py`). -/
def baryIterationCount : Nat := 5

/-- Step 1 of `calculate_layout`: the layering `while q:` loop, with fuel.
The state is `node_to_layer` as an association list in insertion order
(Python dicts preserve it); `layers[level]` is recovered from it by
filtering, which yields the same per-level order. Note the Python
condition `if node.next and node.next in nodes_map:` tests the
*truthiness* of `node.next`, so a reply whose `next` is `0` is never
enqueued. A queue entry that is not a `nodes_map` key would raise
`KeyError`; that case is unreachable and embedded as a skip. -/
def layerGo (rows : List DlgRow) : Nat → List (Int × Int) → List (Int × Int) →
    List (Int × Int)
  | 0, _, ntl => ntl
  | _ + 1, [], ntl => ntl
  | fuel + 1, (idx, lvl) :: q, ntl =>
    if ntl.any (fun p => p.1 = idx) then layerGo rows fuel q ntl
    else
      let ntl := ntl ++ [(idx, lvl)]
      match lookupRow rows idx with
      | none => layerGo rows fuel q ntl
      | some node =>
        if node.is_pc_reply then
          match node.next with
          | some n =>
            if n ≠ 0 ∧ hasIndex rows n then
              layerGo rows fuel (q ++ [(n, lvl + 1)]) ntl
            else layerGo rows fuel q ntl
          | none => layerGo rows fuel q ntl
        else
          layerGo rows fuel
            (q ++ (childIndices rows idx).map (fun c => (c, lvl + 1))) ntl

/-- Initial queue: `(r.index, 0)` for every NPC row with no `parent_npc`. -/
def layerSeeds (rows : List DlgRow) : List (Int × Int) :=
  (rows.filter (fun r => r.parent_npc = none ∧ ¬ r.is_pc_reply)).map
    (fun r => (r.index, 0))

/-- Fuel that provably suffices for the layering loop (each of at most
`n` assignments enqueues at most `n` entries on top of at most `n`
seeds). -/
def layerFuel (rows : List DlgRow) : Nat :=
  rows.length + (rows.length + 1) * rows.length + 1

/-- `node_to_layer` as computed by `calculate_layout` (after the in-place
`_ensure_parents`). -/
def nodeToLayer (rows : List DlgRow) : List (Int × Int) :=
  let erows := ensureParents rows
  layerGo erows (layerFuel erows) (layerSeeds erows) []

/-- The `layers` defaultdict recovered from `node_to_layer`: keys in
first-assignment order, each level list in assignment order. -/
def layersInit (ntl : List (Int × Int)) : List (Int × List Int) :=
  ((ntl.map (fun p => p.2)).dedup).map
    (fun lvl => (lvl, (ntl.filter (fun p => p.2 = lvl)).map (fun p => p.1)))

/-- `layers.get(lvl, [])`. -/
def layersGet (ls : List (Int × List Int)) (lvl : Int) : List Int :=
  match ls.find? (fun p => decide (p.1 = lvl)) with
  | some p => p.2
  | none => []

/-- In-place update of the list stored at an existing level key. -/
def layersSet (ls : List (Int × List Int)) (lvl : Int) (v : List Int) :
    List (Int × List Int) :=
  ls.map (fun p => if p.1 = lvl then (p.1, v) else p)

/-- Ascending insertion sort for `sorted(layers.keys())`. -/
def insertAsc (x : Int) : List Int → List Int
  | [] => [x]
  | y :: ys => if x ≤ y then x :: y :: ys else y :: insertAsc x ys

def sortAsc (l : List Int) : List Int := l.foldr insertAsc []

/-- Stable insertion sort by a `ℚ` key: the exact order Python's stable
`list.sort(key=...)` produces. -/
def insertStable (key : Int → ℚ) (x : Int) : List Int → List Int
  | [] => [x]
  | y :: ys => if key x ≤ key y then x :: y :: ys else y :: insertStable key x ys

def stableSortBy (key : Int → ℚ) : List Int → List Int
  | [] => []
  | x :: xs => insertStable key x (stableSortBy key xs)

/-- Neighbor list of step 2 of `calculate_layout`: for a reply with a
known parent, that parent; otherwise every row whose `next` equals the
node (`r.next == node_idx` is false when `next` is `None`). -/
def baryNeighbors (rows : List DlgRow) (node : DlgRow) (idx : Int) : List Int :=
  if node.is_pc_reply then
    match node.parent_npc with
    | some p => [p]
    | none => (rows.filter (fun r => r.next = some idx)).map (fun r => r.index)
  else (rows.filter (fun r => r.next = some idx)).map (fun r => r.index)

/-- `barycenters[node_idx]` for one node of one layer. Python computes
`sum(pos)/len(pos)` in floating point; the values are only used as sort
keys and are embedded as exact rationals. -/
def baryValue (rows : List DlgRow) (prev : List Int) (idx : Int) : ℚ :=
  match lookupRow rows idx with
  | none => 0
  | some node =>
    let neighbors := baryNeighbors rows node idx
    if neighbors = [] then 0
    else
      let pos := (neighbors.filter (fun n => n ∈ prev)).map
        (fun n => ((prev.indexOf n : Nat) : ℚ))
      if pos = [] then 0 else pos.sum / (pos.length : ℚ)

/-- Simple association-list lookup with default, for `barycenters.get(i, 0)`. -/
def lookupQ (l : List (Int × ℚ)) (i : Int) : ℚ :=
  match l.find? (fun p => decide (p.1 = i)) with
  | some p => p.2
  | none => 0

/-- One `layers[level].sort(key=...)` pass of the barycenter step. -/
def baryLevelPass (rows : List DlgRow) (ls : List (Int × List Int)) (lvl : Int) :
    List (Int × List Int) :=
  let nodes := layersGet ls lvl
  let prev := layersGet ls (lvl - 1)
  let barys := nodes.map (fun idx => (idx, baryValue rows prev idx))
  layersSet ls lvl (stableSortBy (fun i => lookupQ barys i) nodes)

/-- One iteration of the barycenter loop: all levels in ascending order. -/
def baryIteration (rows : List DlgRow) (ls : List (Int × List Int)) :
    List (Int × List Int) :=
  (sortAsc (ls.map (fun p => p.1))).foldl (baryLevelPass rows) ls

/-- Step 2 of `calculate_layout` / step 3 of `calculate_tree_layout`:
five barycenter iterations. -/
def baryPhase (rows : List DlgRow) (ls : List (Int × List Int)) :
    List (Int × List Int) :=
  (List.range baryIterationCount).foldl (fun acc _ => baryIteration rows acc) ls

/-- `min_level` of one component (`10 ** 9` sentinel as in the source). -/
def compMinLevel (ntl : List (Int × Int)) (comp : List Int) : Int :=
  (ntl.filter (fun p => p.1 ∈ comp)).foldl (fun m p => min m p.2) (10 ^ 9)

/-- `comp_layers[lvl]`: the component's nodes at one level, in
`node_to_layer` insertion order. -/
def compLayerNodes (ntl : List (Int × Int)) (comp : List Int) (lvl : Int) :
    List Int :=
  ((ntl.filter (fun p => p.1 ∈ comp ∧ p.2 = lvl)).map (fun p => p.1))

/-- The levels of one component, ascending (`sorted(comp_layers.keys())`). -/
def compLevels (ntl : List (Int × Int)) (comp : List Int) : List Int :=
  sortAsc (((ntl.filter (fun p => p.1 ∈ comp)).map (fun p => p.2)).dedup)

/-- Step 3 of `calculate_layout` for one component: returns the new
position entries and the component's `max_width`. -/
def placeComp (cfg : LayoutCfg) (finalLayers : List (Int × List Int))
    (ntl : List (Int × Int)) (off : ℚ) (comp : List Int) :
    List (Int × ℚ × ℚ) × Int :=
  let minL := compMinLevel ntl comp
  (compLevels ntl comp).foldl
    (fun acc lvl =>
      let ordered := (layersGet finalLayers lvl).filter
        (fun n => n ∈ compLayerNodes ntl comp lvl)
      let width : Int := (ordered.length : Int) * (cfg.node_w + cfg.h_gap)
      let y : ℚ := (((lvl - minL) * (cfg.node_h + cfg.v_gap) : Int) : ℚ)
      let startX : ℚ := off - (width : ℚ) / 2
      (acc.1 ++ ordered.enum.map
          (fun p => (p.2, startX + (p.1 : ℚ) * ((cfg.node_w + cfg.h_gap : Int) : ℚ), y)),
        max acc.2 width))
    ([], 0)

/-- The per-component loop of step 3, threading `component_offset_x`. -/
def coordGo (cfg : LayoutCfg) (finalLayers : List (Int × List Int))
    (ntl : List (Int × Int)) :
    List (List Int) → ℚ → List (Int × ℚ × ℚ) → List (Int × ℚ × ℚ)
  | [], _, pos => pos
  | comp :: cs, off, pos =>
    if comp = [] then coordGo cfg finalLayers ntl cs off pos
    else
      let placed := placeComp cfg finalLayers ntl off comp
      coordGo cfg finalLayers ntl cs
        (off + ((placed.2 + cfg.h_gap * 4 : Int) : ℚ)) (pos ++ placed.1)

/-- `calculate_layout(rows, node_w=…, node_h=…, h_gap=…, v_gap=…)`:
the returned `positions` dict as an association list (its keys are
pairwise distinct, so last-write-wins lookup agrees with the dict). -/
def calculateLayout (cfg : LayoutCfg) (rows : List DlgRow) :
    List (Int × ℚ × ℚ) :=
  if rows = [] then []
  else
    let erows := ensureParents rows
    let comps := buildComponents erows
    let ntl := nodeToLayer rows
    let finalLayers := baryPhase erows (layersInit ntl)
    coordGo cfg finalLayers ntl comps 0 []

/-- The row list as it stands after `calculate_layout` returned: the only
mutation is the in-place `_ensure_parents` (run once at line 88 and again,
idempotently, inside `_build_components`). -/
def calculateLayoutPost (rows : List DlgRow) : List DlgRow :=
  if rows = [] then rows else ensureParents rows

/-! ### `layout.calculate_tree_layout`

The forest layout, `layout.py` lines 158–314. Its nested
`_ensure_parents` ends in `pass` and never writes anything, so unlike
the layered path this function does not mutate the rows. -/

/-- NPC indices in row order, deduplicated as the dict comprehension
`{r.index: 0 for r in rows if not r.is_pc_reply()}` does. -/
def npcIndices (rows : List DlgRow) : List Int :=
  ((rows.filter (fun r => ¬ r.is_pc_reply)).map (fun r => r.index)).dedup

/-- `incoming_to_npc[i]` after the counting loop: the number of replies
whose `next` equals the NPC index `i`. -/
def incomingCount (rows : List DlgRow) (i : Int) : Nat :=
  (rows.filter (fun r => r.is_pc_reply ∧ r.next = some i)).length

/-- Roots: NPC lines with in-degree 0, falling back to the first NPC row
when there is none. -/
def treeRoots (rows : List DlgRow) : List Int :=
  let roots := (npcIndices rows).filter (fun i => incomingCount rows i = 0)
  if roots = [] then
    match rows.find? (fun r => ¬ r.is_pc_reply) with
    | some r => [r.index]
    | none => []
  else roots

/-- `layers[lvl].append(idx)` on the per-component defaultdict. -/
def layersAdd (ls : List (Int × List Int)) (lvl : Int) (idx : Int) :
    List (Int × List Int) :=
  if ls.any (fun p => p.1 = lvl) then
    ls.map (fun p => if p.1 = lvl then (p.1, p.2 ++ [idx]) else p)
  else ls ++ [(lvl, [idx])]

/-- The children-enqueueing loop of `_bfs_layers`, carrying the level. -/
def enqueueAllLvl : List Int → Int → List (Int × Int) → List Int →
    List (Int × Int) × List Int
  | [], _, dq, vis => (dq, vis)
  | c :: cs, lvl, dq, vis =>
    if c ∈ vis then enqueueAllLvl cs lvl dq vis
    else enqueueAllLvl cs lvl (dq ++ [(c, lvl)]) (vis ++ [c])

/-- Body of `_bfs_layers`' `while dq:` loop, with fuel. Returns
`(comp_nodes in pop order, layers, visited)`. `comp_nodes` is a Python
set that the caller only measures, so its iteration order is irrelevant;
we keep pop order. -/
def treeBfsGo (rows : List DlgRow) : Nat → List (Int × Int) → List Int →
    List Int → List (Int × List Int) →
    List Int × List (Int × List Int) × List Int
  | 0, _, vis, comp, ls => (comp, ls, vis)
  | _ + 1, [], vis, comp, ls => (comp, ls, vis)
  | fuel + 1, (idx, lvl) :: dq, vis, comp, ls =>
    let comp := comp ++ [idx]
    let ls := layersAdd ls lvl idx
    match lookupRow rows idx with
    | none => treeBfsGo rows fuel dq vis comp ls
    | some node =>
      if node.is_pc_reply then
        match node.next with
        | some n =>
          if hasIndex rows n ∧ n ∉ vis then
            treeBfsGo rows fuel (dq ++ [(n, lvl + 1)]) (vis ++ [n]) comp ls
          else treeBfsGo rows fuel dq vis comp ls
        | none => treeBfsGo rows fuel dq vis comp ls
      else
        let p := enqueueAllLvl (childIndices rows idx) (lvl + 1) dq vis
        treeBfsGo rows fuel p.1 p.2 comp ls

/-- `_bfs_layers(root)`: seed the queue with `(root, 0)`, mark the root
visited, and run the loop (fuel `rows.length + 1` is provably enough). -/
def treeBfs (rows : List DlgRow) (vis : List Int) (root : Int) :
    List Int × List (Int × List Int) × List Int :=
  treeBfsGo rows (rows.length + 1) [(root, 0)] (vis ++ [root]) [] []

/-- The two component-collection loops: one BFS per unvisited root, then
one per unvisited row (`«отвалившиеся» куски`). Returns the
per-component `(comp_nodes, layers)` list and the final visited list. -/
def treeCompsGo (rows : List DlgRow) :
    List Int → List Int → List (List Int × List (Int × List Int)) →
    List (List Int × List (Int × List Int)) × List Int
  | [], vis, acc => (acc, vis)
  | root :: rest, vis, acc =>
    if root ∈ vis then treeCompsGo rows rest vis acc
    else
      let p := treeBfs rows vis root
      treeCompsGo rows rest p.2.2 (acc ++ [(p.1, p.2.1)])

def treeComponents (rows : List DlgRow) :
    List (List Int × List (Int × List Int)) × List Int :=
  let fromRoots := treeCompsGo rows (treeRoots rows) [] []
  treeCompsGo rows (rows.map (fun r => r.index)) fromRoots.2 fromRoots.1

/-- Tree-layout neighbor list: a reply contributes its parent (or nothing
when it has none); an NPC line collects the replies pointing at it. -/
def treeBaryNeighbors (rows : List DlgRow) (node : DlgRow) (idx : Int) :
    List Int :=
  if node.is_pc_reply then
    match node.parent_npc with
    | some p => [p]
    | none => []
  else
    (rows.filter (fun r => r.is_pc_reply ∧ r.next = some idx)).map
      (fun r => r.index)

def treeBaryValue (rows : List DlgRow) (prev : List Int) (idx : Int) : ℚ :=
  match lookupRow rows idx with
  | none => 0
  | some node =>
    let pos := ((treeBaryNeighbors rows node idx).filter
      (fun n => n ∈ prev)).map (fun n => ((prev.indexOf n : Nat) : ℚ))
    if pos = [] then 0 else pos.sum / (pos.length : ℚ)

def treeBaryLevelPass (rows : List DlgRow) (ls : List (Int × List Int))
    (lvl : Int) : List (Int × List Int) :=
  let nodes := layersGet ls lvl
  let prev := layersGet ls (lvl - 1)
  let barys := nodes.map (fun idx => (idx, treeBaryValue rows prev idx))
  layersSet ls lvl (stableSortBy (fun i => lookupQ barys i) nodes)

def treeBaryPhase (rows : List DlgRow) (ls : List (Int × List Int)) :
    List (Int × List Int) :=
  (List.range baryIterationCount).foldl
    (fun acc _ =>
      (sortAsc (acc.map (fun p => p.1))).foldl (treeBaryLevelPass rows) acc)
    ls

/-- One `comp_infos` entry: the (reordered) layers dict with the
estimated width and height in pixels. -/
structure CompInfo where
  layersA : List (Int × List Int)
  w : Int
  h : Int
deriving DecidableEq, Repr

/-- `max(...)` over a list with a default for the empty case. -/
def maxList (l : List Int) (dflt : Int) : Int :=
  match l with
  | [] => dflt
  | x :: xs => xs.foldl max x

/-- `min(...)` over a list with a default for the empty case. -/
def minList (l : List Int) (dflt : Int) : Int :=
  match l with
  | [] => dflt
  | x :: xs => xs.foldl min x

def calcCompInfo (cfg : LayoutCfg) (ls : List (Int × List Int)) : CompInfo :=
  if ls = [] then
    { layersA := ls, w := cfg.node_w + cfg.h_gap, h := cfg.node_h + cfg.v_gap }
  else
    let keys := ls.map (fun p => p.1)
    let maxNodes : Int := maxList (ls.map (fun p => (p.2.length : Int))) 0
    let numLayers : Int := maxList keys 0 - minList keys 0 + 1
    { layersA := ls,
      w := maxNodes * (cfg.node_w + cfg.h_gap),
      h := numLayers * (cfg.node_h + cfg.v_gap) }

/-- `int(round(ncomps ** 0.5))`: the nearest integer to `√n` (for every
feasible component count the IEEE-double computation rounds to exactly
this value, since `√n` can never fall within one ulp of a half-integer). -/
def roundSqrt (n : Nat) : Nat :=
  let r := Nat.sqrt n
  if n ≤ r * r + r then r else r + 1

/-- Placement of one component inside a grid row: all of its layer lists,
centered in its `comp_w`-wide slot at secondary offset `cur`. -/
def placeTreeComp (cfg : LayoutCfg) (orientation : String) (off : ℚ)
    (cur : ℚ) (info : CompInfo) : List (Int × ℚ × ℚ) :=
  let minLvl : Int :=
    if info.layersA = [] then 0
    else minList (info.layersA.map (fun p => p.1)) 0
  (sortAsc (info.layersA.map (fun p => p.1))).foldl
    (fun acc lvl =>
      let indices := layersGet info.layersA lvl
      let span : Int := (indices.length : Int) * (cfg.node_w + cfg.h_gap)
      let start : ℚ := cur + (((info.w - span : Int) : ℚ)) / 2
      acc ++ indices.enum.map (fun p =>
        let secondary : ℚ :=
          start + (p.1 : ℚ) * ((cfg.node_w + cfg.h_gap : Int) : ℚ)
        let primary : ℚ :=
          off + (((lvl - minLvl) * (cfg.node_h + cfg.v_gap) : Int) : ℚ)
        if orientation = "vertical" then (p.2, secondary, primary)
        else (p.2, primary, secondary)))
    []

/-- The grid-packing `while i < ncomps:` loop, one fuel unit per grid
row (`fuel = ncomps + 1` suffices since `cols ≥ 1`). -/
def packGo (cfg : LayoutCfg) (orientation : String) (cols : Nat) :
    Nat → List CompInfo → ℚ → List (Int × ℚ × ℚ) → List (Int × ℚ × ℚ)
  | _, [], _, pos => pos
  | 0, _ :: _, _, pos => pos
  | fuel + 1, l, off, pos =>
    let row := l.take cols
    let rowHeight : Int := maxList (row.map (fun i => i.h)) (cfg.node_h + cfg.v_gap)
    let inner := row.foldl
      (fun (acc : ℚ × List (Int × ℚ × ℚ)) info =>
        (acc.1 + ((info.w + cfg.h_gap * 4 : Int) : ℚ),
         acc.2 ++ placeTreeComp cfg orientation off acc.1 info))
      (0, pos)
    packGo cfg orientation cols fuel (l.drop cols)
      (off + ((rowHeight + cfg.v_gap * 3 : Int) : ℚ)) inner.2

/-- `calculate_tree_layout(rows, orientation=…, …)`. -/
def calculateTreeLayout (cfg : LayoutCfg) (orientation : String)
    (rows : List DlgRow) : List (Int × ℚ × ℚ) :=
  if rows = [] then []
  else
    let comps := treeComponents rows
    let reordered := comps.1.map (fun c => treeBaryPhase rows c.2)
    let infos := reordered.map (fun ls => calcCompInfo cfg ls)
    let cols := max 1 (roundSqrt infos.length)
    packGo cfg orientation cols (infos.length + 1) infos 0 []

/-- The row list after `calculate_tree_layout` returned: unchanged (the
nested `_ensure_parents` only computes a dead local and `pass`es). -/
def calculateTreeLayoutPost (rows : List DlgRow) : List DlgRow :=
  rows

/-! ### The graph-mutation part of `mainwindow.MainWindow`

The state the verified claims speak about is the row list `dlg_data`
and the scene positions of the per-index `GraphNode` items (`self.nodes`;
the node items also carry rendering data — edges, selection — outside the
claims' scope, so only their position survives the embedding). -/

structure EditorState where
  dlg_data : List DlgRow
  nodes : List (Int × ℚ × ℚ)
  show_empty_nodes : Bool
deriving DecidableEq, Repr

/-- `_visible_rows` (`mainwindow.py`). -/
def visibleRows (st : EditorState) : List DlgRow :=
  if st.show_empty_nodes then st.dlg_data
  else st.dlg_data.filter (fun r => ¬ r.is_empty_separator)

/-- Last-write-wins association lookup, the dict semantics of both the
`positions` arguments and `self.nodes`. -/
def posFind : List (Int × ℚ × ℚ) → Int → Option (ℚ × ℚ)
  | [], _ => none
  | p :: ps, k =>
    match posFind ps k with
    | some v => some v
    | none => if p.1 = k then some p.2 else none

/-- `positions.get(k, (0.0, 0.0))`. -/
def posGetD (m : List (Int × ℚ × ℚ)) (k : Int) : ℚ × ℚ :=
  (posFind m k).getD (0, 0)

/-- `_add_one_node_item(row, pos)`: creates the scene item unless one
with that index already exists (`if not row or row.index in self.nodes`;
a dataclass instance is always truthy). -/
def addOneNodeItem (nodes : List (Int × ℚ × ℚ)) (idx : Int) (pos : ℚ × ℚ) :
    List (Int × ℚ × ℚ) :=
  if nodes.any (fun p => p.1 = idx) then nodes
  else nodes ++ [(idx, pos.1, pos.2)]

/-- The first loop of `_add_rows_and_items`: append each incoming row,
raising `ValueError` at the first duplicate index. Rows appended before
the raise stay appended. Returns `(dlg_data, raised)`. -/
def addRowsData : List DlgRow → List DlgRow → List DlgRow × Bool
  | data, [] => (data, false)
  | data, r :: rs =>
    if data.any (fun x => x.index = r.index) then (data, true)
    else addRowsData (data ++ [r]) rs

/-- `_add_rows_and_items(rows, positions)`. On the success path the item
loop adds a `GraphNode` for every incoming row visible under the current
filter, at `positions.get(r.index, (0.0, 0.0))`; when `ValueError` is
raised the item loop is never reached. Returns the state left behind and
whether the call raised. -/
def addRowsAndItems (st : EditorState) (rows : List DlgRow)
    (positions : List (Int × ℚ × ℚ)) : EditorState × Bool :=
  let d := addRowsData st.dlg_data rows
  if d.2 then ({ st with dlg_data := d.1 }, true)
  else
    let st1 : EditorState := { st with dlg_data := d.1 }
    let visibleIds : List Int := (visibleRows st1).map (fun r => r.index)
    let nodes := rows.foldl
      (fun acc r =>
        if r.index ∈ visibleIds then
          addOneNodeItem acc r.index (posGetD positions r.index)
        else acc)
      st.nodes
    ({ st1 with nodes := nodes }, false)

/-- `_remove_rows_and_items(indices)`: drop the scene items, then filter
the rows. -/
def removeRowsAndItems (st : EditorState) (indices : List Int) : EditorState :=
  { st with
    nodes := st.nodes.filter (fun p => p.1 ∉ indices),
    dlg_data := st.dlg_data.filter (fun r => r.index ∉ indices) }

/-- `AddNodesCommand.redo` (the stored rows are field-for-field copies of
the rows given at construction). -/
def addNodesRedo (st : EditorState) (rows : List DlgRow)
    (positions : List (Int × ℚ × ℚ)) : EditorState × Bool :=
  addRowsAndItems st rows positions

/-- `AddNodesCommand.undo`. -/
def addNodesUndo (st : EditorState) (rows : List DlgRow) : EditorState :=
  removeRowsAndItems st (rows.map (fun r => r.index))

/-- `DeleteNodesCommand.redo`. -/
def deleteNodesRedo (st : EditorState) (rows : List DlgRow) : EditorState :=
  removeRowsAndItems st (rows.map (fun r => r.index))

/-- `DeleteNodesCommand.undo`. -/
def deleteNodesUndo (st : EditorState) (rows : List DlgRow)
    (positions : List (Int × ℚ × ℚ)) : EditorState × Bool :=
  addRowsAndItems st rows positions

/-- The row capture of `delete_selection`: for each selected index the
first `dlg_data` row carrying it. -/
def captureRows (data : List DlgRow) (ids : List Int) : List DlgRow :=
  ids.filterMap (fun idx => data.find? (fun r => decide (r.index = idx)))

/-- The position capture of `delete_selection`: current scene positions
for the ids that have an item. -/
def capturePositions (nodes : List (Int × ℚ × ℚ)) (ids : List Int) :
    List (Int × ℚ × ℚ) :=
  ids.filterMap (fun idx => (posFind nodes idx).map (fun v => (idx, v.1, v.2)))

/-! ### `mainwindow._shift_indices_from` -/

/-- The per-row mutation of `_shift_indices_from(start_id, delta)`:
`index`, then `next` (only on replies), then `parent_npc` are bumped by
`delta` when `≥ start_id`. -/
def shiftRow (start delta : Int) (r : DlgRow) : DlgRow :=
  let r1 := if r.index ≥ start then { r with index := r.index + delta } else r
  let r2 :=
    match r1.next with
    | some n => if n ≥ start then { r1 with next := some (n + delta) } else r1
    | none => r1
  match r2.parent_npc with
  | some p => if p ≥ start then { r2 with parent_npc := some (p + delta) } else r2
  | none => r2

/-- `_shift_indices_from` restricted to the dataset (`self.dlg_data`);
the claims about renumbering are claims about the rows. -/
def shiftIndicesFrom (start delta : Int) (rows : List DlgRow) : List DlgRow :=
  rows.map (shiftRow start delta)

/-- How an index value is renamed by the shift. -/
def shiftVal (start delta v : Int) : Int :=
  if v ≥ start then v + delta else v

/-! ### `io_dlg.py`: the `.dlg` text format

File handles and encodings are IO plumbing; the embedding works on the
file content as the list of its lines: `write_dlg` runs
`f.write(line + '\n')` once per row and `read_dlg` starts from
`f.readlines()`, so as long as no field text contains a line break the
two line lists coincide, and the theorems below carry that as an
explicit hypothesis. Python string primitives are embedded at character
level: `str.strip()` drops whitespace from both ends, the two
`str.replace` calls have single-character patterns and become character
maps, and `str(int)` is standard decimal notation. `read_dlg` matches
each stripped line against `\{(.*?)\}` thirteen times with `\s*` in
between; on any line whose text between braces contains no closing
brace — every line `write_dlg` emits, since it maps `'\x7d'` to `']'`
first — the lazy groups stop at the first closing brace, which is how
the parser below reads them. -/

def lbrace : Char := Char.ofNat 123
def rbrace : Char := Char.ofNat 125

/-- Single-character `str.replace`. -/
def replaceChar (a b : Char) (s : String) : String :=
  String.mk (s.toList.map (fun c => if c = a then b else c))

/-- The decimal digit characters. -/
def digitChar : Nat → Char
  | 0 => '0' | 1 => '1' | 2 => '2' | 3 => '3' | 4 => '4'
  | 5 => '5' | 6 => '6' | 7 => '7' | 8 => '8' | _ => '9'

/-- `str(n)` for a natural number, with fuel (one digit per fuel unit;
`natDec` supplies enough). -/
def natDecGo : Nat → Nat → List Char
  | 0, _ => []
  | fuel + 1, n =>
    if n < 10 then [digitChar n]
    else natDecGo fuel (n / 10) ++ [digitChar (n % 10)]

def natDec (n : Nat) : List Char := natDecGo (n + 1) n

/-- `str(i)` for a Python integer. -/
def intDec (i : Int) : String :=
  if i < 0 then String.mk ('-' :: natDec i.natAbs)
  else String.mk (natDec i.toNat)

/-- `str(v).replace('\x7d', ']')` applied to each value before writing. -/
def sanitizeField (s : String) : String :=
  replaceChar rbrace ']' s

def writeNext : Option Int → String
  | none => "#"
  | some n => intDec n

/-- The 13 column values of one row, in file order. -/
def rowValues (r : DlgRow) : List String :=
  [intDec r.index, r.male, r.female, writeNext r.next, r.condition,
   r.action, r.unknown01, r.unknown02, r.unknown03, r.unknown04,
   r.unknown05, r.unknown06, r.malkavian]

/-- `''.join(f'\x7b\x7b\x7bv\x7d\x7d\x7d' for v in values)`: each value
wrapped in braces, concatenated. -/
def wrapAll : List String → String
  | [] => ""
  | v :: vs => "\x7b" ++ v ++ "\x7d" ++ wrapAll vs

/-- One output line of `write_dlg` (without the terminating newline). -/
def writeDlgLine (r : DlgRow) : String :=
  wrapAll ((rowValues r).map sanitizeField)

/-- The lines `write_dlg` writes, in order. -/
def writeDlgLines (rows : List DlgRow) : List String :=
  rows.map writeDlgLine

def parseBracedCore : List Char → Option (String × List Char)
  | [] => none
  | c :: rest =>
    if c = lbrace then
      match rest.dropWhile (fun c => ¬ c = rbrace) with
      | c2 :: rest2 =>
        if c2 = rbrace then
          some (String.mk (rest.takeWhile (fun c => ¬ c = rbrace)), rest2)
        else none
      | [] => none
    else none

/-- Parse one `\{(.*?)\}` group preceded by `\s*`: skip whitespace, expect
an opening brace, take the (lazy) group up to the first closing brace. -/
def parseBraced (cs : List Char) : Option (String × List Char) :=
  parseBracedCore (cs.dropWhile (fun c => c.isWhitespace))

/-- Parse `k` consecutive brace groups; trailing characters are ignored,
as `re.match` only anchors the start. -/
def parseGroups : Nat → List Char → Option (List String)
  | 0, _ => some []
  | k + 1, cs =>
    match parseBraced cs with
    | none => none
    | some p => (parseGroups k p.2).map (fun gs => p.1 :: gs)

def digitsToNat : List Char → Option Nat
  | [] => none
  | cs =>
    if cs.all (fun c => c.isDigit) then
      some (cs.foldl (fun n c => n * 10 + (c.toNat - 48)) 0)
    else none

def parseSigned : List Char → Option Int
  | [] => none
  | c :: cs =>
    if c = '-' then (digitsToNat cs).map (fun n => -(n : Int))
    else if c = '+' then (digitsToNat cs).map (fun n => (n : Int))
    else (digitsToNat (c :: cs)).map (fun n => (n : Int))

/-- `int(s)` on a decimal literal: surrounding whitespace and a single
sign are accepted (Python's other spellings — underscores, unicode
digits — never occur in round-tripped content). -/
def parseIntStr (s : String) : Option Int :=
  parseSigned (stripChars s.toList)

/-- One loop iteration of `read_dlg`: `none` means the line is skipped
(`continue`), either for not matching the regex or for a `ValueError`. -/
def parseDlgLine (line : String) : Option DlgRow :=
  match parseGroups 13 (stripChars line.toList) with
  | none => none
  | some groups =>
    let groups := groups.map (fun g => replaceChar ']' rbrace g)
    match groups with
    | [indexStr, male, female, nextStr, condition, action,
       u1, u2, u3, u4, u5, u6, mal] =>
      match parseIntStr indexStr with
      | none => none
      | some idx =>
        let nextVal : Option (Option Int) :=
          if stripChars nextStr.toList = ['#'] ∨ stripChars nextStr.toList = [] then
            some none
          else (parseIntStr nextStr).map some
        match nextVal with
        | none => none
        | some nx =>
          some { index := idx, male := male, female := female, next := nx,
                 condition := condition, action := action,
                 unknown01 := u1, unknown02 := u2, unknown03 := u3,
                 unknown04 := u4, unknown05 := u5, unknown06 := u6,
                 malkavian := mal, parent_npc := none }
    | _ => none

/-- `read_dlg` on the file's line list: parse every line, skipping the
ones that do not match. -/
def readDlgLines (lines : List String) : List DlgRow :=
  lines.filterMap parseDlgLine

/-! ### `json_conv.py`

The JSON dictionaries exchanged by `to_json_data` / `from_json_data` are
embedded as records with optional fields for the keys the reader accesses
via `.get`; `variants` and `clan` are string-to-string tables. The
`metadata` block is written but never read, so it is not part of the
record. -/

structure NodeJson where
  index : Int
  male : Option String := none
  female : Option String := none
  next : Option Int := none
  condition : Option String := none
  action : Option String := none
  variants : Option (List (String × String)) := none
  clan : Option (List (String × String)) := none
  parent : Option Int := none
deriving DecidableEq, Repr

structure JsonDoc where
  nodes : Option (List NodeJson) := none
deriving DecidableEq, Repr

/-- `d.get(k, "")` on a string table. -/
def vget (l : List (String × String)) (k : String) : String :=
  match l.find? (fun p => p.1 = k) with
  | some p => p.2
  | none => ""

def vhas (l : List (String × String)) (k : String) : Bool :=
  (l.find? (fun p => p.1 = k)).isSome

/-- `to_json_data` for one row: every key is written; `"parent"` only
when `parent_npc` is set (which the `Option` models). -/
def toJsonNode (r : DlgRow) : NodeJson :=
  { index := r.index, male := some r.male, female := some r.female,
    next := r.next, condition := some r.condition, action := some r.action,
    variants := some
      [("unknown01", r.unknown01), ("unknown02", r.unknown02),
       ("unknown03", r.unknown03), ("unknown04", r.unknown04),
       ("unknown05", r.unknown05), ("unknown06", r.unknown06),
       ("malkavian", r.malkavian)],
    clan := none, parent := r.parent_npc }

def toJsonData (rows : List DlgRow) : JsonDoc :=
  { nodes := some (rows.map toJsonNode) }

/-- `from_json_data` for one node dictionary. In the typed embedding the
`try` block cannot raise, so every node yields a row. -/
def fromJsonNode (n : NodeJson) : DlgRow :=
  let variants := n.variants.getD []
  -- backward compatibility: `clan["malkavian"]` fills an empty variant
  let malk :=
    if vget variants "malkavian" = "" then
      match n.clan with
      | some c => if vhas c "malkavian" then vget c "malkavian"
                  else vget variants "malkavian"
      | none => vget variants "malkavian"
    else vget variants "malkavian"
  { index := n.index, male := n.male.getD "", female := n.female.getD "",
    next := n.next, condition := n.condition.getD "",
    action := n.action.getD "",
    unknown01 := vget variants "unknown01",
    unknown02 := vget variants "unknown02",
    unknown03 := vget variants "unknown03",
    unknown04 := vget variants "unknown04",
    unknown05 := vget variants "unknown05",
    unknown06 := vget variants "unknown06",
    malkavian := malk, parent_npc := n.parent }

def fromJsonData (d : JsonDoc) : Option (List DlgRow) :=
  match d.nodes with
  | none => none
  | some ns => some (ns.map fromJsonNode)

/-! ## Round-trip lemmas for the `.dlg` writer/reader -/

theorem toList_append (a b : String) : (a ++ b).toList = a.toList ++ b.toList := by
  cases a with
  | mk da => cases b with
    | mk db => rfl

theorem mk_toList (s : String) : String.mk s.toList = s := by
  cases s with
  | mk d => rfl

/-- The ten decimal digit characters. -/
def digitList : List Char :=
  ['0', '1', '2', '3', '4', '5', '6', '7', '8', '9']

theorem digitChar_mem (d : Nat) : digitChar d ∈ digitList := by
  unfold digitChar
  (repeat' split) <;> decide

theorem digitList_facts :
    ∀ c ∈ digitList, c.isDigit = true ∧ c.isWhitespace = false ∧
      ¬ c = rbrace ∧ ¬ c = ']' ∧ ¬ c = '#' ∧ ¬ c = '-' ∧ ¬ c = '+' := by
  decide

theorem digitChar_toNat {d : Nat} (h : d < 10) :
    (digitChar d).toNat - 48 = d := by
  interval_cases d <;> decide

theorem digitsToNat_cons (c : Char) (cs : List Char) :
    digitsToNat (c :: cs) =
      if (c :: cs).all (fun c => c.isDigit) then
        some ((c :: cs).foldl (fun n c => n * 10 + (c.toNat - 48)) 0)
      else none := rfl

theorem digitsToNat_single {d : Nat} (h : d < 10) :
    digitsToNat [digitChar d] = some d := by
  have h1 := (digitList_facts _ (digitChar_mem d)).1
  rw [digitsToNat_cons, if_pos (by simp [h1])]
  simp [digitChar_toNat h]

theorem digitsToNat_append_digit {l : List Char} {m : Nat}
    (h : digitsToNat l = some m) {d : Nat} (hd : d < 10) :
    digitsToNat (l ++ [digitChar d]) = some (10 * m + d) := by
  cases l with
  | nil => simp [digitsToNat] at h
  | cons c cs =>
    rw [digitsToNat_cons] at h
    by_cases hall : (c :: cs).all (fun c => c.isDigit)
    · rw [if_pos hall] at h
      have hd2 : (digitChar d).isDigit = true :=
        (digitList_facts _ (digitChar_mem d)).1
      have hall2 : ((c :: cs) ++ [digitChar d]).all (fun c => c.isDigit) := by
        rw [List.all_append]
        simp [hall, hd2]
      have hdn : digitsToNat ((c :: cs) ++ [digitChar d]) =
          some (((c :: cs) ++ [digitChar d]).foldl
            (fun n c => n * 10 + (c.toNat - 48)) 0) := by
        rw [List.cons_append, digitsToNat_cons, ← List.cons_append,
          if_pos hall2]
      rw [Option.some.injEq] at h
      rw [hdn, List.foldl_append, h]
      simp only [List.foldl_cons, List.foldl_nil]
      rw [digitChar_toNat hd, Nat.mul_comm]
  -- a list that fails the digit check parses to `none`, contradicting `h`
    · rw [if_neg hall] at h
      simp at h

theorem natDecGo_correct :
    ∀ (fuel n : Nat), n < 10 ^ (fuel + 1) →
      digitsToNat (natDecGo (fuel + 1) n) = some n := by
  intro fuel
  induction fuel with
  | zero =>
    intro n hn
    norm_num at hn
    rw [show natDecGo 1 n =
        (if n < 10 then [digitChar n]
         else natDecGo 0 (n / 10) ++ [digitChar (n % 10)]) from rfl,
      if_pos hn]
    exact digitsToNat_single hn
  | succ fuel ih =>
    intro n hn
    rw [show natDecGo (fuel + 1 + 1) n =
        (if n < 10 then [digitChar n]
         else natDecGo (fuel + 1) (n / 10) ++ [digitChar (n % 10)]) from rfl]
    by_cases h10 : n < 10
    · rw [if_pos h10]
      exact digitsToNat_single h10
    · rw [if_neg h10]
      have hdiv : n / 10 < 10 ^ (fuel + 1) := by
        rw [Nat.div_lt_iff_lt_mul (by norm_num)]
        calc n < 10 ^ (fuel + 1 + 1) := hn
        _ = 10 ^ (fuel + 1) * 10 := by ring
      rw [digitsToNat_append_digit (ih (n / 10) hdiv) (Nat.mod_lt n (by norm_num))]
      congr 1
      omega

theorem digitsToNat_natDec (n : Nat) : digitsToNat (natDec n) = some n :=
  natDecGo_correct n n (lt_of_lt_of_le (Nat.lt_pow_self (by norm_num) n)
    (Nat.pow_le_pow_right (by norm_num) (Nat.le_succ n)))

theorem natDecGo_mem :
    ∀ (fuel n : Nat), ∀ c ∈ natDecGo fuel n, c ∈ digitList := by
  intro fuel
  induction fuel with
  | zero => intro n c hc; simp [natDecGo] at hc
  | succ fuel ih =>
    intro n c hc
    simp only [natDecGo] at hc
    by_cases h10 : n < 10
    · rw [if_pos h10] at hc
      rcases List.mem_singleton.mp hc with rfl
      exact digitChar_mem n
    · rw [if_neg h10] at hc
      rcases List.mem_append.mp hc with hc | hc
      · exact ih (n / 10) c hc
      · rcases List.mem_singleton.mp hc with rfl
        exact digitChar_mem _

theorem natDec_ne_nil (n : Nat) : natDec n ≠ [] := by
  unfold natDec natDecGo
  by_cases h10 : n < 10 <;> simp [h10]

/-- `stripChars` is the identity on a list with no whitespace anywhere. -/
theorem stripChars_eq_self {l : List Char}
    (h : ∀ c ∈ l, c.isWhitespace = false) : stripChars l = l := by
  have hdrop : ∀ (m : List Char), (∀ c ∈ m, c.isWhitespace = false) →
      m.dropWhile (fun c => c.isWhitespace) = m := by
    intro m hm
    cases m with
    | nil => rfl
    | cons c cs =>
      rw [List.dropWhile_cons_of_neg]
      simp [hm c (List.mem_cons_self c cs)]
  unfold stripChars
  rw [hdrop l h, hdrop l.reverse (fun c hc => h c (List.mem_reverse.mp hc)),
    List.reverse_reverse]

theorem natDec_mem (n : Nat) : ∀ c ∈ natDec n, c ∈ digitList :=
  fun c hc => natDecGo_mem (n + 1) n c hc

theorem intDec_toList_neg {i : Int} (h : i < 0) :
    (intDec i).toList = '-' :: natDec i.natAbs := by
  unfold intDec
  rw [if_pos h]
  rfl

theorem intDec_toList_nonneg {i : Int} (h : ¬ i < 0) :
    (intDec i).toList = natDec i.toNat := by
  unfold intDec
  rw [if_neg h]
  rfl

theorem intDec_toList_facts (i : Int) :
    (∀ c ∈ (intDec i).toList, c.isWhitespace = false ∧ ¬ c = rbrace ∧
      ¬ c = ']') ∧ (intDec i).toList ≠ ['#'] ∧ (intDec i).toList ≠ [] := by
  by_cases hneg : i < 0
  · rw [intDec_toList_neg hneg]
    refine ⟨?_, ?_, ?_⟩
    · intro c hc
      rcases List.mem_cons.mp hc with rfl | hc
      · exact ⟨by decide, by decide, by decide⟩
      · have := digitList_facts c (natDec_mem _ c hc)
        exact ⟨this.2.1, this.2.2.1, this.2.2.2.1⟩
    · intro h
      have hh : '-' = '#' := by injection h
      exact absurd hh (by decide)
    · intro h
      simp at h
  · rw [intDec_toList_nonneg hneg]
    refine ⟨?_, ?_, ?_⟩
    · intro c hc
      have := digitList_facts c (natDec_mem _ c hc)
      exact ⟨this.2.1, this.2.2.1, this.2.2.2.1⟩
    · intro h
      have : ('#' : Char) ∈ natDec i.toNat := by
        rw [h]
        exact List.mem_singleton.mpr rfl
      exact (digitList_facts _ (natDec_mem _ _ this)).2.2.2.2.1 rfl
    · exact natDec_ne_nil i.toNat

theorem parseIntStr_intDec (i : Int) : parseIntStr (intDec i) = some i := by
  have hstrip : stripChars (intDec i).toList = (intDec i).toList :=
    stripChars_eq_self (fun c hc => ((intDec_toList_facts i).1 c hc).1)
  unfold parseIntStr
  rw [hstrip]
  by_cases hneg : i < 0
  · rw [intDec_toList_neg hneg]
    simp only [parseSigned, if_pos rfl]
    rw [digitsToNat_natDec]
    simp
    rw [abs_of_nonpos (le_of_lt hneg)]
    ring
  · rw [intDec_toList_nonneg hneg]
    obtain ⟨c, cs, hd⟩ : ∃ c cs, natDec i.toNat = c :: cs := by
      cases hx : natDec i.toNat with
      | nil => exact absurd hx (natDec_ne_nil _)
      | cons c cs => exact ⟨c, cs, rfl⟩
    rw [hd]
    have hcmem : c ∈ digitList :=
      natDec_mem _ c (by rw [hd]; exact List.mem_cons_self c cs)
    have hfacts := digitList_facts c hcmem
    simp only [parseSigned]
    rw [if_neg hfacts.2.2.2.2.2.1, if_neg hfacts.2.2.2.2.2.2]
    rw [← hd, digitsToNat_natDec]
    simp
    omega

theorem takeWhile_middle (p : Char → Bool) :
    ∀ (l : List Char), (∀ c ∈ l, p c = true) → ∀ (x : Char), p x = false →
      ∀ (r : List Char), (l ++ x :: r).takeWhile p = l := by
  intro l
  induction l with
  | nil =>
    intro _ x hx r
    simp [List.takeWhile_cons, hx]
  | cons c cs ih =>
    intro h x hx r
    have hc := h c (List.mem_cons_self c cs)
    have ht := ih (fun a ha => h a (List.mem_cons_of_mem c ha)) x hx r
    simp [List.takeWhile_cons, hc, ht]

theorem dropWhile_middle (p : Char → Bool) :
    ∀ (l : List Char), (∀ c ∈ l, p c = true) → ∀ (x : Char), p x = false →
      ∀ (r : List Char), (l ++ x :: r).dropWhile p = x :: r := by
  intro l
  induction l with
  | nil =>
    intro _ x hx r
    simp [List.dropWhile_cons, hx]
  | cons c cs ih =>
    intro h x hx r
    have hc := h c (List.mem_cons_self c cs)
    have ht := ih (fun a ha => h a (List.mem_cons_of_mem c ha)) x hx r
    simp [List.dropWhile_cons, hc, ht]

theorem parseBraced_wrapped {g : List Char} (hg : ∀ c ∈ g, ¬ c = rbrace)
    (rest : List Char) :
    parseBraced (lbrace :: (g ++ rbrace :: rest)) = some (String.mk g, rest) := by
  unfold parseBraced
  rw [List.dropWhile_cons_of_neg (by decide)]
  simp only [parseBracedCore, if_pos rfl]
  rw [takeWhile_middle _ g (fun c hc => by
      simp only [decide_eq_true_eq]
      exact hg c hc) rbrace (by simp) rest]
  rw [dropWhile_middle _ g (fun c hc => by
      simp only [decide_eq_true_eq]
      exact hg c hc) rbrace (by simp) rest]
  simp

theorem lbrace_toList : ("\x7b" : String).toList = [lbrace] := rfl

theorem rbrace_toList : ("\x7d" : String).toList = [rbrace] := rfl

theorem wrapAll_toList (v : String) (vs : List String) :
    (wrapAll (v :: vs)).toList =
      lbrace :: (v.toList ++ rbrace :: (wrapAll vs).toList) := by
  show ("\x7b" ++ v ++ "\x7d" ++ wrapAll vs).toList = _
  rw [toList_append, toList_append, toList_append, lbrace_toList, rbrace_toList]
  simp

theorem parseGroups_wrapAll :
    ∀ (vs : List String), (∀ v ∈ vs, ∀ c ∈ v.toList, ¬ c = rbrace) →
      parseGroups vs.length (wrapAll vs).toList = some vs := by
  intro vs
  induction vs with
  | nil => intro; rfl
  | cons v vs ih =>
    intro h
    rw [wrapAll_toList, List.length_cons]
    simp only [parseGroups,
      parseBraced_wrapped (h v (List.mem_cons_self v vs)),
      ih (fun w hw => h w (List.mem_cons_of_mem v hw)), mk_toList,
      Option.map_some']

/-- A brace-wrapped nonempty value list starts with `\x7b` and ends with
`\x7d`. -/
theorem wrapAll_shape (v : String) (vs : List String) :
    ∃ m, (wrapAll (v :: vs)).toList = lbrace :: (m ++ [rbrace]) := by
  induction vs generalizing v with
  | nil =>
    refine ⟨v.toList, ?_⟩
    rw [wrapAll_toList]
    rfl
  | cons w ws ih =>
    obtain ⟨m, hm⟩ := ih w
    refine ⟨v.toList ++ rbrace :: lbrace :: m, ?_⟩
    rw [wrapAll_toList, hm]
    simp

theorem stripChars_brace_ends (m : List Char) :
    stripChars (lbrace :: (m ++ [rbrace])) = lbrace :: (m ++ [rbrace]) := by
  unfold stripChars
  rw [List.dropWhile_cons_of_neg (by decide)]
  have hrev : (lbrace :: (m ++ [rbrace])).reverse =
      rbrace :: (m.reverse ++ [lbrace]) := by
    simp
  rw [hrev, List.dropWhile_cons_of_neg (by decide), ← hrev,
    List.reverse_reverse]

/-- No output of `sanitizeField` contains a closing brace. -/
theorem sanitizeField_no_rbrace (s : String) :
    ∀ c ∈ (sanitizeField s).toList, ¬ c = rbrace := by
  intro c hc
  have : c ∈ (s.toList.map (fun c => if c = rbrace then ']' else c)) := hc
  obtain ⟨a, _, rfl⟩ := List.mem_map.mp this
  by_cases ha : a = rbrace
  · rw [if_pos ha]
    decide
  · rw [if_neg ha]
    exact ha

/-- Reading a written field restores it when it contained no `']'`
(a `'\x7d'` in the field survives: it is written as `']'` and read back
as `'\x7d'`). -/
theorem replace_sanitizeField {s : String} (h : ∀ c ∈ s.toList, ¬ c = ']') :
    replaceChar ']' rbrace (sanitizeField s) = s := by
  unfold replaceChar sanitizeField replaceChar
  rw [show (String.mk (s.toList.map fun c => if c = rbrace then ']' else c)).toList
      = s.toList.map (fun c => if c = rbrace then ']' else c) from rfl]
  rw [List.map_map]
  have : ∀ c ∈ s.toList,
      ((fun c => if c = ']' then rbrace else c) ∘
        (fun c => if c = rbrace then ']' else c)) c = c := by
    intro c hc
    by_cases hb : c = rbrace
    · simp [Function.comp, hb]
    · simp only [Function.comp, if_neg hb]
      rw [if_neg (h c hc)]
  rw [List.map_congr_left this]
  simp [mk_toList]

/-- The text payload of a row (everything written verbatim except
`index` and `next`). -/
def textFields (r : DlgRow) : List String :=
  [r.male, r.female, r.condition, r.action, r.unknown01, r.unknown02,
   r.unknown03, r.unknown04, r.unknown05, r.unknown06, r.malkavian]

/-- The text fields survive the `.dlg` format: no `']'` (which the reader
turns into `'\x7d'`) and no line break (which would split the written
line in the file). -/
def dlgWritable (r : DlgRow) : Prop :=
  ∀ s ∈ textFields r, ∀ c ∈ s.toList,
    ¬ c = ']' ∧ ¬ c = '\n' ∧ ¬ c = '\r'

theorem replace_sanitize_intDec (i : Int) :
    replaceChar ']' rbrace (sanitizeField (intDec i)) = intDec i :=
  replace_sanitizeField (fun c hc => ((intDec_toList_facts i).1 c hc).2.2)

set_option maxHeartbeats 2000000 in
theorem parseDlgLine_write {r : DlgRow} (h : dlgWritable r) :
    parseDlgLine (writeDlgLine r) = some { r with parent_npc := none } := by
  obtain ⟨m, hshape⟩ :
      ∃ m, (writeDlgLine r).toList = lbrace :: (m ++ [rbrace]) :=
    wrapAll_shape _ _
  have hstrip : stripChars (writeDlgLine r).toList = (writeDlgLine r).toList := by
    rw [hshape, stripChars_brace_ends]
  have hnorb : ∀ v ∈ (rowValues r).map sanitizeField, ∀ c ∈ v.toList,
      ¬ c = rbrace := by
    intro v hv
    obtain ⟨s, _, rfl⟩ := List.mem_map.mp hv
    exact sanitizeField_no_rbrace s
  have hgroups : parseGroups 13 (stripChars (writeDlgLine r).toList) =
      some ((rowValues r).map sanitizeField) := by
    rw [hstrip]
    have hlen : ((rowValues r).map sanitizeField).length = 13 := by
      simp [rowValues]
    rw [show (13 : Nat) = ((rowValues r).map sanitizeField).length from hlen.symm]
    exact parseGroups_wrapAll _ hnorb
  obtain ⟨ri, rma, rfe, rnx, rco, rac, ru1, ru2, ru3, ru4, ru5, ru6, rmk, rpa⟩ := r
  have erma : replaceChar ']' rbrace (sanitizeField rma) = rma :=
    replace_sanitizeField (fun c hc => (h rma (by simp [textFields]) c hc).1)
  have erfe : replaceChar ']' rbrace (sanitizeField rfe) = rfe :=
    replace_sanitizeField (fun c hc => (h rfe (by simp [textFields]) c hc).1)
  have erco : replaceChar ']' rbrace (sanitizeField rco) = rco :=
    replace_sanitizeField (fun c hc => (h rco (by simp [textFields]) c hc).1)
  have erac : replaceChar ']' rbrace (sanitizeField rac) = rac :=
    replace_sanitizeField (fun c hc => (h rac (by simp [textFields]) c hc).1)
  have eru1 : replaceChar ']' rbrace (sanitizeField ru1) = ru1 :=
    replace_sanitizeField (fun c hc => (h ru1 (by simp [textFields]) c hc).1)
  have eru2 : replaceChar ']' rbrace (sanitizeField ru2) = ru2 :=
    replace_sanitizeField (fun c hc => (h ru2 (by simp [textFields]) c hc).1)
  have eru3 : replaceChar ']' rbrace (sanitizeField ru3) = ru3 :=
    replace_sanitizeField (fun c hc => (h ru3 (by simp [textFields]) c hc).1)
  have eru4 : replaceChar ']' rbrace (sanitizeField ru4) = ru4 :=
    replace_sanitizeField (fun c hc => (h ru4 (by simp [textFields]) c hc).1)
  have eru5 : replaceChar ']' rbrace (sanitizeField ru5) = ru5 :=
    replace_sanitizeField (fun c hc => (h ru5 (by simp [textFields]) c hc).1)
  have eru6 : replaceChar ']' rbrace (sanitizeField ru6) = ru6 :=
    replace_sanitizeField (fun c hc => (h ru6 (by simp [textFields]) c hc).1)
  have ermk : replaceChar ']' rbrace (sanitizeField rmk) = rmk :=
    replace_sanitizeField (fun c hc => (h rmk (by simp [textFields]) c hc).1)
  unfold parseDlgLine
  rw [hgroups]
  simp only [rowValues, List.map_cons, List.map_nil]
  rw [replace_sanitize_intDec ri, parseIntStr_intDec ri]
  rw [erma, erfe, erco, erac, eru1, eru2, eru3, eru4, eru5, eru6, ermk]
  cases rnx with
  | none =>
    rw [show replaceChar ']' rbrace (sanitizeField (writeNext none)) = "#"
      from by decide]
    rw [if_pos (Or.inl (by decide))]
  | some n =>
    rw [show writeNext (some n) = intDec n from rfl, replace_sanitize_intDec n]
    have hfacts := intDec_toList_facts n
    have hstripn : stripChars (intDec n).toList = (intDec n).toList :=
      stripChars_eq_self (fun c hc => (hfacts.1 c hc).1)
    rw [if_neg (by
      rw [hstripn]
      push_neg
      exact ⟨hfacts.2.1, hfacts.2.2⟩)]
    rw [parseIntStr_intDec n]
    rfl

theorem fromJson_toJson_node (r : DlgRow) : fromJsonNode (toJsonNode r) = r := by
  unfold fromJsonNode toJsonNode
  by_cases hmk : r.malkavian = ""
  · simp [vget, vhas, hmk]
    rw [← hmk]
  · simp [vget, vhas, hmk]

end Dlg

namespace Dlg

/-! ## Shared material for the claim theorems -/

/-- A bare row with the given index and `next`, all text fields blank
except `male` (so the row is never an empty separator). -/
def mkRow (i : Int) (nx : Option Int) : DlgRow :=
  { index := i, male := "m", female := "", next := nx, condition := "",
    action := "", unknown01 := "", unknown02 := "", unknown03 := "",
    unknown04 := "", unknown05 := "", unknown06 := "", malkavian := "",
    parent_npc := none }

/-- `node_to_layer[idx]` (keys are assigned at most once, so the first
match is the dict entry). -/
def lookupLayer (ntl : List (Int × Int)) (idx : Int) : Option Int :=
  (ntl.find? (fun p => decide (p.1 = idx))).map (fun p => p.2)

/-- The concrete 4-node scenario of spec §8: root NPC line 1 with replies
2 (`next = 1`) and 3 (`next = 4`), and NPC line 4 with no replies. -/
def scenarioRows : List DlgRow :=
  [mkRow 1 none, mkRow 2 (some 1), mkRow 3 (some 4), mkRow 4 none]

/-! ## C1 — `_build_components` as a partition

The BFS maintains a literal decomposition of `visited`: popping moves the
queue head to the end of `comp`, and every enqueue appends the same index
to both the queue and `visited`, so `visited = X ++ comp ++ dq` at every
step, `X` being the part visited before this BFS started. A counting
measure over the de-duplicated index universe bounds the number of
remaining pops and shows the canonical fuel drains the queue. -/

/-- The distinct index values of the rows, in first-occurrence order. -/
def idxUniverse (rows : List DlgRow) : List Int :=
  (rows.map (fun r => r.index)).dedup

/-- Upper bound on the number of pops the BFS loop still performs. -/
def bfsMeasure (rows : List DlgRow) (dq vis : List Int) : Nat :=
  dq.length + (idxUniverse rows).countP (fun i => decide (i ∉ vis))

theorem countP_snoc_le (vis : List Int) (c : Int) (U : List Int) :
    U.countP (fun i => decide (i ∉ vis ++ [c])) ≤
      U.countP (fun i => decide (i ∉ vis)) :=
  List.countP_mono_left (fun x _ h => by
    simp only [decide_eq_true_eq, List.mem_append] at h ⊢
    exact fun hx => h (Or.inl hx))

theorem countP_snoc_lt {U vis : List Int} {c : Int}
    (hU : c ∈ U) (hc : c ∉ vis) :
    U.countP (fun i => decide (i ∉ vis ++ [c])) + 1 ≤
      U.countP (fun i => decide (i ∉ vis)) := by
  obtain ⟨l1, l2, rfl⟩ := List.append_of_mem hU
  rw [List.countP_append, List.countP_append, List.countP_cons,
    List.countP_cons]
  have h1 := countP_snoc_le vis c l1
  have h2 := countP_snoc_le vis c l2
  have hcf : (decide (c ∉ vis ++ [c])) = false := by simp
  have hct : (decide (c ∉ vis)) = true := by simp [hc]
  simp only [hcf, hct, Bool.false_eq_true, if_false, if_true]
  omega

theorem nodup_snoc {l : List Int} {a : Int} (h : l.Nodup) (ha : a ∉ l) :
    (l ++ [a]).Nodup := by
  rw [List.nodup_append]
  exact ⟨h, List.nodup_singleton a,
    fun x hx hxa => ha ((List.mem_singleton.mp hxa) ▸ hx)⟩

/-- Every enqueue appends the same index to both the queue and `visited`,
so a decomposition `vis = X ++ dq` survives `enqueueAll`. -/
theorem enqueueAll_eq (cs : List Int) : ∀ dq vis X, vis = X ++ dq →
    (enqueueAll cs dq vis).2 = X ++ (enqueueAll cs dq vis).1 := by
  induction cs with
  | nil => intro dq vis X h; exact h
  | cons c cs ih =>
    intro dq vis X h
    by_cases hc : c ∈ vis
    · simp only [enqueueAll, if_pos hc]
      exact ih dq vis X h
    · simp only [enqueueAll, if_neg hc]
      exact ih (dq ++ [c]) (vis ++ [c]) X (by rw [h, List.append_assoc])

theorem enqueueAll_measure (rows : List DlgRow) (cs : List Int) :
    ∀ dq vis, (∀ c ∈ cs, c ∈ idxUniverse rows) →
    bfsMeasure rows (enqueueAll cs dq vis).1 (enqueueAll cs dq vis).2 ≤
      bfsMeasure rows dq vis := by
  induction cs with
  | nil => intro dq vis _; exact le_rfl
  | cons c cs ih =>
    intro dq vis hcs
    by_cases hc : c ∈ vis
    · simp only [enqueueAll, if_pos hc]
      exact ih dq vis (fun x hx => hcs x (List.mem_cons_of_mem c hx))
    · simp only [enqueueAll, if_neg hc]
      refine le_trans (ih (dq ++ [c]) (vis ++ [c])
        (fun x hx => hcs x (List.mem_cons_of_mem c hx))) ?_
      unfold bfsMeasure
      have hlt := countP_snoc_lt (hcs c (List.mem_cons_self c cs)) hc
      simp only [List.length_append, List.length_cons, List.length_nil]
      omega

theorem enqueueAll_vis_mono (cs : List Int) : ∀ dq vis,
    vis ⊆ (enqueueAll cs dq vis).2 := by
  induction cs with
  | nil => intro dq vis x hx; exact hx
  | cons c cs ih =>
    intro dq vis
    by_cases hc : c ∈ vis
    · simp only [enqueueAll, if_pos hc]; exact ih dq vis
    · simp only [enqueueAll, if_neg hc]
      exact fun x hx => ih (dq ++ [c]) (vis ++ [c])
        (List.mem_append.mpr (Or.inl hx))

theorem enqueueAll_vis_sub (cs : List Int) : ∀ dq vis x,
    x ∈ (enqueueAll cs dq vis).2 → x ∈ vis ∨ x ∈ cs := by
  induction cs with
  | nil => intro dq vis x hx; exact Or.inl hx
  | cons c cs ih =>
    intro dq vis x hx
    by_cases hc : c ∈ vis
    · simp only [enqueueAll, if_pos hc] at hx
      rcases ih dq vis x hx with h | h
      · exact Or.inl h
      · exact Or.inr (List.mem_cons_of_mem c h)
    · simp only [enqueueAll, if_neg hc] at hx
      rcases ih (dq ++ [c]) (vis ++ [c]) x hx with h | h
      · rcases List.mem_append.mp h with h | h
        · exact Or.inl h
        · have hxc : x = c := List.mem_singleton.mp h
          exact Or.inr (by rw [hxc]; exact List.mem_cons_self c cs)
      · exact Or.inr (List.mem_cons_of_mem c h)

theorem enqueueAll_nodup (cs : List Int) : ∀ dq vis, vis.Nodup →
    (enqueueAll cs dq vis).2.Nodup := by
  induction cs with
  | nil => intro dq vis h; exact h
  | cons c cs ih =>
    intro dq vis h
    by_cases hc : c ∈ vis
    · simp only [enqueueAll, if_pos hc]; exact ih dq vis h
    · simp only [enqueueAll, if_neg hc]
      exact ih (dq ++ [c]) (vis ++ [c]) (nodup_snoc h hc)

theorem childIndices_sub (rows : List DlgRow) (idx : Int) :
    ∀ c ∈ childIndices rows idx, c ∈ idxUniverse rows := by
  intro c hc
  rw [idxUniverse, List.mem_dedup]
  obtain ⟨x, hx, rfl⟩ := List.mem_map.mp hc
  exact List.mem_map_of_mem _ (List.mem_of_mem_filter hx)

theorem hasIndex_universe {rows : List DlgRow} {n : Int}
    (h : hasIndex rows n = true) : n ∈ idxUniverse rows := by
  rw [idxUniverse, List.mem_dedup]
  simp only [hasIndex, List.any_eq_true, decide_eq_true_eq] at h
  obtain ⟨r, hr, hrn⟩ := h
  exact List.mem_map.mpr ⟨r, hr, hrn⟩

theorem bfsMeasure_le (rows : List DlgRow) (dq vis : List Int) :
    bfsMeasure rows dq vis ≤ dq.length + rows.length := by
  unfold bfsMeasure
  have h1 : (idxUniverse rows).countP (fun i => decide (i ∉ vis)) ≤
      (idxUniverse rows).length := List.countP_le_length _
  have h2 : (idxUniverse rows).length ≤ rows.length := by
    have h3 := (List.dedup_sublist (rows.map (fun r => r.index))).length_le
    simpa using h3
  omega

/-! Step equations for `bfsGo`, one per branch of the loop body. -/

theorem bfsGo_base {rows : List DlgRow} {fuel : Nat} {vis comp : List Int} :
    bfsGo rows fuel [] vis comp = (comp, vis) := by
  cases fuel with
  | zero => rfl
  | succ f => rfl

theorem bfsGo_step_none {rows : List DlgRow} {fuel : Nat} {idx : Int}
    {dq vis comp : List Int} (h : lookupRow rows idx = none) :
    bfsGo rows (fuel + 1) (idx :: dq) vis comp =
      bfsGo rows fuel dq vis (comp ++ [idx]) := by
  simp only [bfsGo, h]

theorem bfsGo_step_npc {rows : List DlgRow} {fuel : Nat} {idx : Int}
    {dq vis comp : List Int} {node : DlgRow}
    (h : lookupRow rows idx = some node) (hn : node.next = none) :
    bfsGo rows (fuel + 1) (idx :: dq) vis comp =
      bfsGo rows fuel (enqueueAll (childIndices rows idx) dq vis).1
        (enqueueAll (childIndices rows idx) dq vis).2 (comp ++ [idx]) := by
  simp only [bfsGo, h, hn]

theorem bfsGo_step_pc_new {rows : List DlgRow} {fuel : Nat} {idx n : Int}
    {dq vis comp : List Int} {node : DlgRow}
    (h : lookupRow rows idx = some node) (hn : node.next = some n)
    (hc : hasIndex rows n = true ∧
      n ∉ (enqueueAll (childIndices rows idx) dq vis).2) :
    bfsGo rows (fuel + 1) (idx :: dq) vis comp =
      bfsGo rows fuel ((enqueueAll (childIndices rows idx) dq vis).1 ++ [n])
        ((enqueueAll (childIndices rows idx) dq vis).2 ++ [n])
        (comp ++ [idx]) := by
  simp only [bfsGo, h, hn, if_pos hc]

theorem bfsGo_step_pc_old {rows : List DlgRow} {fuel : Nat} {idx n : Int}
    {dq vis comp : List Int} {node : DlgRow}
    (h : lookupRow rows idx = some node) (hn : node.next = some n)
    (hc : ¬(hasIndex rows n = true ∧
      n ∉ (enqueueAll (childIndices rows idx) dq vis).2)) :
    bfsGo rows (fuel + 1) (idx :: dq) vis comp =
      bfsGo rows fuel (enqueueAll (childIndices rows idx) dq vis).1
        (enqueueAll (childIndices rows idx) dq vis).2 (comp ++ [idx]) := by
  simp only [bfsGo, h, hn, if_neg hc]

/-- With enough fuel the BFS drains its queue completely, and `visited`
ends as the pre-existing prefix followed by exactly the component. -/
theorem bfsGo_drain (rows : List DlgRow) : ∀ fuel dq vis comp X,
    vis = X ++ comp ++ dq → bfsMeasure rows dq vis ≤ fuel →
    (bfsGo rows fuel dq vis comp).2 = X ++ (bfsGo rows fuel dq vis comp).1 := by
  intro fuel
  induction fuel with
  | zero =>
    intro dq vis comp X hinv hm
    have hlen : dq.length = 0 := by
      unfold bfsMeasure at hm; omega
    have hdq : dq = [] := List.length_eq_zero.mp hlen
    subst hdq
    show vis = X ++ comp
    simpa using hinv
  | succ fuel ih =>
    intro dq vis comp X hinv hm
    cases dq with
    | nil =>
      show vis = X ++ comp
      simpa using hinv
    | cons idx dq2 =>
      have hinv2 : vis = X ++ (comp ++ [idx]) ++ dq2 := by
        rw [hinv]; simp
      have hm2 : bfsMeasure rows dq2 vis ≤ fuel := by
        unfold bfsMeasure at hm ⊢
        simp only [List.length_cons] at hm
        omega
      cases hlook : lookupRow rows idx with
      | none =>
        rw [bfsGo_step_none hlook]
        exact ih dq2 vis (comp ++ [idx]) X hinv2 hm2
      | some node =>
        have hq := enqueueAll_eq (childIndices rows idx) dq2 vis
          (X ++ (comp ++ [idx])) (by rw [hinv2, List.append_assoc])
        have hqm := le_trans (enqueueAll_measure rows (childIndices rows idx)
          dq2 vis (childIndices_sub rows idx)) hm2
        cases hnext : node.next with
        | none =>
          rw [bfsGo_step_npc hlook hnext]
          exact ih _ _ (comp ++ [idx]) X (by rw [hq, List.append_assoc]) hqm
        | some n =>
          by_cases hcond : hasIndex rows n = true ∧
              n ∉ (enqueueAll (childIndices rows idx) dq2 vis).2
          · rw [bfsGo_step_pc_new hlook hnext hcond]
            refine ih _ _ (comp ++ [idx]) X ?_ ?_
            · rw [hq]; simp
            · unfold bfsMeasure at hqm ⊢
              have hlt := countP_snoc_lt (hasIndex_universe hcond.1) hcond.2
              simp only [List.length_append, List.length_cons,
                List.length_nil] at hqm ⊢
              omega
          · rw [bfsGo_step_pc_old hlook hnext hcond]
            exact ih _ _ (comp ++ [idx]) X
              (by rw [hq, List.append_assoc]) hqm

theorem bfsGo_vis_mono (rows : List DlgRow) : ∀ fuel dq vis comp,
    vis ⊆ (bfsGo rows fuel dq vis comp).2 := by
  intro fuel
  induction fuel with
  | zero => intro dq vis comp x hx; exact hx
  | succ fuel ih =>
    intro dq vis comp
    cases dq with
    | nil => intro x hx; exact hx
    | cons idx dq2 =>
      cases hlook : lookupRow rows idx with
      | none =>
        rw [bfsGo_step_none hlook]
        exact ih dq2 vis (comp ++ [idx])
      | some node =>
        cases hnext : node.next with
        | none =>
          rw [bfsGo_step_npc hlook hnext]
          exact fun x hx => ih _ _ (comp ++ [idx])
            (enqueueAll_vis_mono (childIndices rows idx) dq2 vis hx)
        | some n =>
          by_cases hcond : hasIndex rows n = true ∧
              n ∉ (enqueueAll (childIndices rows idx) dq2 vis).2
          · rw [bfsGo_step_pc_new hlook hnext hcond]
            exact fun x hx => ih _ _ (comp ++ [idx])
              (List.mem_append.mpr (Or.inl
                (enqueueAll_vis_mono (childIndices rows idx) dq2 vis hx)))
          · rw [bfsGo_step_pc_old hlook hnext hcond]
            exact fun x hx => ih _ _ (comp ++ [idx])
              (enqueueAll_vis_mono (childIndices rows idx) dq2 vis hx)

theorem bfsGo_nodup (rows : List DlgRow) : ∀ fuel dq vis comp,
    vis.Nodup → (bfsGo rows fuel dq vis comp).2.Nodup := by
  intro fuel
  induction fuel with
  | zero => intro dq vis comp h; exact h
  | succ fuel ih =>
    intro dq vis comp h
    cases dq with
    | nil => exact h
    | cons idx dq2 =>
      cases hlook : lookupRow rows idx with
      | none =>
        rw [bfsGo_step_none hlook]
        exact ih dq2 vis (comp ++ [idx]) h
      | some node =>
        have hq := enqueueAll_nodup (childIndices rows idx) dq2 vis h
        cases hnext : node.next with
        | none =>
          rw [bfsGo_step_npc hlook hnext]
          exact ih _ _ (comp ++ [idx]) hq
        | some n =>
          by_cases hcond : hasIndex rows n = true ∧
              n ∉ (enqueueAll (childIndices rows idx) dq2 vis).2
          · rw [bfsGo_step_pc_new hlook hnext hcond]
            exact ih _ _ (comp ++ [idx]) (nodup_snoc hq hcond.2)
          · rw [bfsGo_step_pc_old hlook hnext hcond]
            exact ih _ _ (comp ++ [idx]) hq

theorem bfsGo_vis_sub (rows : List DlgRow) : ∀ fuel dq vis comp,
    (∀ i ∈ vis, i ∈ idxUniverse rows) →
    ∀ i ∈ (bfsGo rows fuel dq vis comp).2, i ∈ idxUniverse rows := by
  intro fuel
  induction fuel with
  | zero => intro dq vis comp h i hi; exact h i hi
  | succ fuel ih =>
    intro dq vis comp h
    cases dq with
    | nil => exact h
    | cons idx dq2 =>
      have hq : ∀ i ∈ (enqueueAll (childIndices rows idx) dq2 vis).2,
          i ∈ idxUniverse rows := by
        intro i hi
        rcases enqueueAll_vis_sub (childIndices rows idx) dq2 vis i hi with
          hv | hcs
        · exact h i hv
        · exact childIndices_sub rows idx i hcs
      cases hlook : lookupRow rows idx with
      | none =>
        rw [bfsGo_step_none hlook]
        exact ih dq2 vis (comp ++ [idx]) h
      | some node =>
        cases hnext : node.next with
        | none =>
          rw [bfsGo_step_npc hlook hnext]
          exact ih _ _ (comp ++ [idx]) hq
        | some n =>
          by_cases hcond : hasIndex rows n = true ∧
              n ∉ (enqueueAll (childIndices rows idx) dq2 vis).2
          · rw [bfsGo_step_pc_new hlook hnext hcond]
            refine ih _ _ (comp ++ [idx]) ?_
            intro i hi
            rcases List.mem_append.mp hi with hi | hi
            · exact hq i hi
            · rw [List.mem_singleton] at hi
              exact hi ▸ hasIndex_universe hcond.1
          · rw [bfsGo_step_pc_old hlook hnext hcond]
            exact ih _ _ (comp ++ [idx]) hq

/-! Step equations and invariants for the outer `for r in rows:` loop. -/

theorem buildComponentsGo_skip {rows r rs vis acc} (h : r.index ∈ vis) :
    buildComponentsGo rows (r :: rs) vis acc =
      buildComponentsGo rows rs vis acc := by
  simp only [buildComponentsGo, if_pos h]

theorem buildComponentsGo_seed {rows r rs vis acc} (h : r.index ∉ vis) :
    buildComponentsGo rows (r :: rs) vis acc =
      buildComponentsGo rows rs
        (bfsGo rows (rows.length + 1) [r.index] (vis ++ [r.index]) []).2
        (acc ++
          [(bfsGo rows (rows.length + 1) [r.index] (vis ++ [r.index]) []).1]) := by
  simp only [buildComponentsGo, if_neg h]

theorem buildComponentsGo_vis_mono (rows : List DlgRow) : ∀ rs vis acc,
    vis ⊆ (buildComponentsGo rows rs vis acc).2 := by
  intro rs
  induction rs with
  | nil => intro vis acc x hx; exact hx
  | cons r0 rs ih =>
    intro vis acc
    by_cases h0 : r0.index ∈ vis
    · rw [buildComponentsGo_skip h0]; exact ih vis acc
    · rw [buildComponentsGo_seed h0]
      intro x hx
      refine ih _ _ ?_
      exact bfsGo_vis_mono rows (rows.length + 1) [r0.index]
        (vis ++ [r0.index]) [] (List.mem_append.mpr (Or.inl hx))

theorem buildComponentsGo_covers (rows : List DlgRow) : ∀ rs vis acc,
    ∀ r ∈ rs, r.index ∈ (buildComponentsGo rows rs vis acc).2 := by
  intro rs
  induction rs with
  | nil => intro vis acc r hr; exact absurd hr (List.not_mem_nil r)
  | cons r0 rs ih =>
    intro vis acc r hr
    by_cases h0 : r0.index ∈ vis
    · rw [buildComponentsGo_skip h0]
      rcases List.mem_cons.mp hr with rfl | hr2
      · exact buildComponentsGo_vis_mono rows rs vis acc h0
      · exact ih vis acc r hr2
    · rw [buildComponentsGo_seed h0]
      rcases List.mem_cons.mp hr with rfl | hr2
      · refine buildComponentsGo_vis_mono rows rs _ _ ?_
        refine bfsGo_vis_mono rows (rows.length + 1) [r.index]
          (vis ++ [r.index]) [] ?_
        exact List.mem_append.mpr (Or.inr (List.mem_singleton.mpr rfl))
      · exact ih _ _ r hr2

theorem buildComponentsGo_nodup (rows : List DlgRow) : ∀ rs vis acc,
    vis.Nodup → (buildComponentsGo rows rs vis acc).2.Nodup := by
  intro rs
  induction rs with
  | nil => intro vis acc h; exact h
  | cons r0 rs ih =>
    intro vis acc h
    by_cases h0 : r0.index ∈ vis
    · rw [buildComponentsGo_skip h0]; exact ih vis acc h
    · rw [buildComponentsGo_seed h0]
      exact ih _ _ (bfsGo_nodup rows _ _ _ _ (nodup_snoc h h0))

theorem buildComponentsGo_sub (rows : List DlgRow) : ∀ rs vis acc,
    (∀ r ∈ rs, r.index ∈ idxUniverse rows) →
    (∀ i ∈ vis, i ∈ idxUniverse rows) →
    ∀ i ∈ (buildComponentsGo rows rs vis acc).2, i ∈ idxUniverse rows := by
  intro rs
  induction rs with
  | nil => intro vis acc _ hv i hi; exact hv i hi
  | cons r0 rs ih =>
    intro vis acc hrs hv i hi
    by_cases h0 : r0.index ∈ vis
    · rw [buildComponentsGo_skip h0] at hi
      exact ih vis acc (fun r hr => hrs r (List.mem_cons_of_mem r0 hr))
        hv i hi
    · rw [buildComponentsGo_seed h0] at hi
      refine ih _ _ (fun r hr => hrs r (List.mem_cons_of_mem r0 hr)) ?_ i hi
      refine bfsGo_vis_sub rows (rows.length + 1) [r0.index] _ [] ?_
      intro j hj
      rcases List.mem_append.mp hj with hj | hj
      · exact hv j hj
      · rw [List.mem_singleton] at hj
        exact hj ▸ hrs r0 (List.mem_cons_self r0 rs)

/-- The accumulated components always flatten to the visited list. -/
theorem buildComponentsGo_flatten (rows : List DlgRow) : ∀ rs vis acc,
    vis = acc.flatten →
    (buildComponentsGo rows rs vis acc).2 =
      (buildComponentsGo rows rs vis acc).1.flatten := by
  intro rs
  induction rs with
  | nil => intro vis acc h; exact h
  | cons r0 rs ih =>
    intro vis acc h
    by_cases h0 : r0.index ∈ vis
    · rw [buildComponentsGo_skip h0]; exact ih vis acc h
    · rw [buildComponentsGo_seed h0]
      refine ih _ _ ?_
      have hmB : bfsMeasure rows [r0.index] (vis ++ [r0.index]) ≤
          rows.length + 1 := by
        have h2 := bfsMeasure_le rows [r0.index] (vis ++ [r0.index])
        simp only [List.length_cons, List.length_nil] at h2
        omega
      have hdrain := bfsGo_drain rows (rows.length + 1) [r0.index]
        (vis ++ [r0.index]) [] vis (by simp) hmB
      rw [hdrain, List.flatten_append, h]
      simp

theorem ensureParentsGo_map_index (cur : Option Int) (rows : List DlgRow) :
    (ensureParentsGo cur rows).map (fun r => r.index) =
      rows.map (fun r => r.index) := by
  induction rows generalizing cur with
  | nil => rfl
  | cons r rs ih =>
    by_cases hpc : r.is_pc_reply
    · by_cases hp : r.parent_npc = none
      · simp [ensureParentsGo, hpc, hp, ih]
      · simp [ensureParentsGo, hpc, hp, ih]
    · simp [ensureParentsGo, hpc, ih]

theorem ensureParents_map_index (rows : List DlgRow) :
    (ensureParents rows).map (fun r => r.index) =
      rows.map (fun r => r.index) :=
  ensureParentsGo_map_index none rows

/-- C1, counterexample. In the row list `[NPC 4, NPC 1, PC 5 → 4]` reply 5
shares a leads-to edge with NPC 4 (`next = 4`), so 4 and 5 are connected
when the edge is traversed as undirected; yet `_build_components` returns
`[{4}, {1, 5}]` — no returned set contains both 4 and 5, because the
traversal walks the `next` edge forward only. -/
theorem C1_counterexample :
    buildComponents [mkRow 4 none, mkRow 1 none, mkRow 5 (some 4)] =
      [[4], [1, 5]] ∧
    (mkRow 5 (some 4)).next = some 4 ∧
    ∀ c ∈ buildComponents [mkRow 4 none, mkRow 1 none, mkRow 5 (some 4)],
      ¬((4 : Int) ∈ c ∧ (5 : Int) ∈ c) := by
  refine ⟨by decide, rfl, by decide⟩

/-- C1, amended. `_build_components` does return a partition of the index
set — the union of the returned components is exactly the set of row
indices and the components are pairwise disjoint — but connectivity is
traversed along the answer and leads-to edges *forward only*, not as
undirected edges, so undirected-connected indices can land in different
sets (see the counterexample). -/
theorem C1_amended_partition (rows : List DlgRow) :
    (∀ i : Int, i ∈ (buildComponents rows).flatten ↔
      i ∈ rows.map (fun r => r.index)) ∧
    (buildComponents rows).flatten.Nodup ∧
    List.Pairwise List.Disjoint (buildComponents rows) := by
  have hBC : buildComponents rows =
      (buildComponentsGo (ensureParents rows) (ensureParents rows) [] []).1 :=
    rfl
  have hflat := buildComponentsGo_flatten (ensureParents rows)
    (ensureParents rows) [] [] rfl
  have hnodup := buildComponentsGo_nodup (ensureParents rows)
    (ensureParents rows) [] [] List.nodup_nil
  have hN : (buildComponents rows).flatten.Nodup := by
    rw [hBC, ← hflat]; exact hnodup
  refine ⟨?_, hN, (List.nodup_flatten.mp hN).2⟩
  intro i
  constructor
  · intro hi
    rw [hBC, ← hflat] at hi
    have hsub := buildComponentsGo_sub (ensureParents rows)
      (ensureParents rows) [] []
      (fun r hr => by
        rw [idxUniverse, List.mem_dedup]
        exact List.mem_map_of_mem _ hr)
      (fun j hj => absurd hj (List.not_mem_nil j))
      i hi
    rw [idxUniverse, List.mem_dedup, ensureParents_map_index] at hsub
    exact hsub
  · intro hi
    rw [← ensureParents_map_index] at hi
    obtain ⟨r, hr, hri⟩ := List.mem_map.mp hi
    rw [hBC, ← hflat]
    exact hri ▸ buildComponentsGo_covers (ensureParents rows)
      (ensureParents rows) [] [] r hr

/-! ## C2 — the concrete 4-node scenario -/

/-- C2, counterexample. The spec expects the layering to put node 4 on
layer 2; `calculate_layout` seeds *every* NPC line whose `parent_npc` is
`None` at layer 0 — including node 4, which therefore gets layer 0. -/
theorem C2_counterexample :
    lookupLayer (nodeToLayer scenarioRows) 4 = some 0 ∧
      lookupLayer (nodeToLayer scenarioRows) 4 ≠ some 2 := by
  constructor
  · decide
  · decide

/-- C2, amended. On the 4-node scenario `_build_components` returns the
single component `{1, 2, 3, 4}`, and the layering assigns layer 0 to
nodes 1 *and 4* (both are parentless NPC seeds) and layer 1 to nodes 2
and 3; no node gets layer 2. -/
theorem C2_amended_scenario :
    buildComponents scenarioRows = [[1, 2, 3, 4]] ∧
      nodeToLayer scenarioRows = [(1, 0), (4, 0), (2, 1), (3, 1)] := by
  constructor
  · decide
  · decide

/-! ## C5 — termination of the layering loops

Stabilization of `layerGo`: with the canonical fuel the queue is fully
drained, so any extra fuel leaves the result unchanged. The measure
counts one unit per queue entry plus `rows.length + 1` units per
still-unassigned index of the universe: popping an assigned index costs
one queue unit; assigning an index enqueues at most `rows.length`
entries but retires one universe slot. -/

theorem childIndices_length_le (rows : List DlgRow) (idx : Int) :
    (childIndices rows idx).length ≤ rows.length := by
  unfold childIndices
  rw [List.length_map]
  exact List.length_filter_le _ _

theorem countP_assign_le (ntl : List (Int × Int)) (e : Int × Int)
    (U : List Int) :
    U.countP (fun i => !((ntl ++ [e]).any (fun p => p.1 = i))) ≤
      U.countP (fun i => !(ntl.any (fun p => p.1 = i))) :=
  List.countP_mono_left (fun x _ h => by
    simp only [Bool.not_eq_true', List.any_append, Bool.or_eq_false_iff] at h ⊢
    exact h.1)

theorem countP_assign_lt {U : List Int} {ntl : List (Int × Int)}
    {idx lvl : Int} (hU : idx ∈ U)
    (h : ¬ ntl.any (fun p => p.1 = idx) = true) :
    U.countP (fun i => !((ntl ++ [(idx, lvl)]).any (fun p => p.1 = i))) + 1 ≤
      U.countP (fun i => !(ntl.any (fun p => p.1 = i))) := by
  obtain ⟨l1, l2, rfl⟩ := List.append_of_mem hU
  rw [List.countP_append, List.countP_append, List.countP_cons,
    List.countP_cons]
  have h1 := countP_assign_le ntl (idx, lvl) l1
  have h2 := countP_assign_le ntl (idx, lvl) l2
  have hcf2 : (!((ntl ++ [(idx, lvl)]).any (fun p => p.1 = idx))) = false := by
    simp [List.any_append]
  have hct : (!(ntl.any (fun p => p.1 = idx))) = true := by
    simp only [Bool.not_eq_true']
    exact Bool.eq_false_iff.mpr h
  simp only [hcf2, hct, Bool.false_eq_true, if_false, if_true]
  omega

/-- The termination measure of the layering loop. -/
def layerMeasure (rows : List DlgRow) (q ntl : List (Int × Int)) : Nat :=
  q.length + (idxUniverse rows).countP
      (fun i => !(ntl.any (fun p => p.1 = i))) * (rows.length + 1)

theorem layer_measure_arith {len k n fuel A B : Nat}
    (hk : k ≤ n) (hAB : A + (n + 1) ≤ B)
    (hm : len + 1 + B ≤ fuel + 1) :
    len + k + A ≤ fuel := by omega

theorem layerGo_base {rows : List DlgRow} {fuel : Nat}
    {ntl : List (Int × Int)} :
    layerGo rows fuel [] ntl = ntl := by
  cases fuel with
  | zero => rfl
  | succ f => rfl

theorem layerGo_step_skip {rows : List DlgRow} {fuel : Nat} {idx lvl : Int}
    {q ntl : List (Int × Int)} (hA : ntl.any (fun p => p.1 = idx) = true) :
    layerGo rows (fuel + 1) ((idx, lvl) :: q) ntl =
      layerGo rows fuel q ntl := by
  simp only [layerGo, hA, if_true]

theorem layerGo_step_none {rows : List DlgRow} {fuel : Nat} {idx lvl : Int}
    {q ntl : List (Int × Int)}
    (hA : ¬ ntl.any (fun p => p.1 = idx) = true)
    (h : lookupRow rows idx = none) :
    layerGo rows (fuel + 1) ((idx, lvl) :: q) ntl =
      layerGo rows fuel q (ntl ++ [(idx, lvl)]) := by
  simp only [layerGo, h, if_neg hA]

theorem layerGo_step_pc_ok {rows : List DlgRow} {fuel : Nat} {idx lvl n : Int}
    {q ntl : List (Int × Int)} {node : DlgRow}
    (hA : ¬ ntl.any (fun p => p.1 = idx) = true)
    (h : lookupRow rows idx = some node)
    (hpc : node.is_pc_reply = true) (hnext : node.next = some n)
    (hc : n ≠ 0 ∧ hasIndex rows n = true) :
    layerGo rows (fuel + 1) ((idx, lvl) :: q) ntl =
      layerGo rows fuel (q ++ [(n, lvl + 1)]) (ntl ++ [(idx, lvl)]) := by
  simp only [layerGo, h, hpc, hnext, if_neg hA, if_pos hc, if_true]

theorem layerGo_step_pc_bad {rows : List DlgRow} {fuel : Nat} {idx lvl n : Int}
    {q ntl : List (Int × Int)} {node : DlgRow}
    (hA : ¬ ntl.any (fun p => p.1 = idx) = true)
    (h : lookupRow rows idx = some node)
    (hpc : node.is_pc_reply = true) (hnext : node.next = some n)
    (hc : ¬(n ≠ 0 ∧ hasIndex rows n = true)) :
    layerGo rows (fuel + 1) ((idx, lvl) :: q) ntl =
      layerGo rows fuel q (ntl ++ [(idx, lvl)]) := by
  simp only [layerGo, h, hpc, hnext, if_neg hA, if_neg hc, if_true]

theorem layerGo_step_pc_none {rows : List DlgRow} {fuel : Nat} {idx lvl : Int}
    {q ntl : List (Int × Int)} {node : DlgRow}
    (hA : ¬ ntl.any (fun p => p.1 = idx) = true)
    (h : lookupRow rows idx = some node)
    (hpc : node.is_pc_reply = true) (hnext : node.next = none) :
    layerGo rows (fuel + 1) ((idx, lvl) :: q) ntl =
      layerGo rows fuel q (ntl ++ [(idx, lvl)]) := by
  simp only [layerGo, h, hpc, hnext, if_neg hA, if_true]

theorem layerGo_step_npc {rows : List DlgRow} {fuel : Nat} {idx lvl : Int}
    {q ntl : List (Int × Int)} {node : DlgRow}
    (hA : ¬ ntl.any (fun p => p.1 = idx) = true)
    (h : lookupRow rows idx = some node)
    (hpc : node.is_pc_reply = false) :
    layerGo rows (fuel + 1) ((idx, lvl) :: q) ntl =
      layerGo rows fuel
        (q ++ (childIndices rows idx).map (fun c => (c, lvl + 1)))
        (ntl ++ [(idx, lvl)]) := by
  simp only [layerGo, h, hpc, if_neg hA, Bool.false_eq_true, if_false]

/-- With fuel at least the measure, extra fuel changes nothing: the
loop has already drained its queue. -/
theorem layerGo_stab (rows : List DlgRow) : ∀ fuel extra q ntl,
    (∀ p ∈ q, p.1 ∈ idxUniverse rows) →
    layerMeasure rows q ntl ≤ fuel →
    layerGo rows (fuel + extra) q ntl = layerGo rows fuel q ntl := by
  intro fuel
  induction fuel with
  | zero =>
    intro extra q ntl hq hm
    have hlen : q.length = 0 := by
      unfold layerMeasure at hm; omega
    have hq0 : q = [] := List.length_eq_zero.mp hlen
    subst hq0
    rw [layerGo_base, layerGo_base]
  | succ fuel ih =>
    intro extra q ntl hq hm
    have hfe : fuel + 1 + extra = (fuel + extra) + 1 := by omega
    cases q with
    | nil => rw [layerGo_base, layerGo_base]
    | cons e q2 =>
      obtain ⟨idx, lvl⟩ := e
      have hq2 : ∀ p ∈ q2, p.1 ∈ idxUniverse rows :=
        fun p hp => hq p (List.mem_cons_of_mem _ hp)
      have hidxU : idx ∈ idxUniverse rows :=
        hq (idx, lvl) (List.mem_cons_self _ _)
      by_cases hA : ntl.any (fun p => p.1 = idx) = true
      · rw [hfe, layerGo_step_skip hA, layerGo_step_skip hA]
        refine ih extra q2 ntl hq2 ?_
        unfold layerMeasure at hm ⊢
        simp only [List.length_cons] at hm
        omega
      · have hmono := countP_assign_le ntl (idx, lvl) (idxUniverse rows)
        have hlt := @countP_assign_lt (idxUniverse rows) ntl idx lvl hidxU hA
        cases hlook : lookupRow rows idx with
        | none =>
          rw [hfe, layerGo_step_none hA hlook, layerGo_step_none hA hlook]
          refine ih extra q2 _ hq2 ?_
          unfold layerMeasure at hm ⊢
          simp only [List.length_cons] at hm
          have := Nat.mul_le_mul_right (rows.length + 1) hmono
          omega
        | some node =>
          cases hpc : node.is_pc_reply with
          | false =>
            rw [hfe, layerGo_step_npc hA hlook hpc,
              layerGo_step_npc hA hlook hpc]
            refine ih extra _ _ ?_ ?_
            · intro p hp
              rcases List.mem_append.mp hp with hp | hp
              · exact hq2 p hp
              · obtain ⟨c, hc, rfl⟩ := List.mem_map.mp hp
                exact childIndices_sub rows idx c hc
            · unfold layerMeasure at hm ⊢
              simp only [List.length_cons, List.length_append,
                List.length_map] at hm ⊢
              have hAB := Nat.mul_le_mul_right (rows.length + 1) hlt
              rw [Nat.add_mul, Nat.one_mul] at hAB
              exact layer_measure_arith (childIndices_length_le rows idx)
                hAB hm
          | true =>
            cases hnext : node.next with
            | none =>
              rw [hfe, layerGo_step_pc_none hA hlook hpc hnext,
                layerGo_step_pc_none hA hlook hpc hnext]
              refine ih extra q2 _ hq2 ?_
              unfold layerMeasure at hm ⊢
              simp only [List.length_cons] at hm
              have := Nat.mul_le_mul_right (rows.length + 1) hmono
              omega
            | some n =>
              by_cases hc : n ≠ 0 ∧ hasIndex rows n = true
              · rw [hfe, layerGo_step_pc_ok hA hlook hpc hnext hc,
                  layerGo_step_pc_ok hA hlook hpc hnext hc]
                refine ih extra _ _ ?_ ?_
                · intro p hp
                  rcases List.mem_append.mp hp with hp | hp
                  · exact hq2 p hp
                  · rw [List.mem_singleton] at hp
                    rw [hp]
                    exact hasIndex_universe hc.2
                · unfold layerMeasure at hm ⊢
                  simp only [List.length_cons, List.length_append,
                    List.length_nil] at hm ⊢
                  have hAB := Nat.mul_le_mul_right (rows.length + 1) hlt
                  rw [Nat.add_mul, Nat.one_mul] at hAB
                  have hn1 : 1 ≤ rows.length := by
                    simp only [hasIndex, List.any_eq_true] at hc
                    obtain ⟨r, hr, _⟩ := hc.2
                    calc 1 ≤ 1 := le_rfl
                      _ ≤ rows.length := List.length_pos.mpr
                        (List.ne_nil_of_mem hr)
                  exact layer_measure_arith hn1 hAB hm
              · rw [hfe, layerGo_step_pc_bad hA hlook hpc hnext hc,
                  layerGo_step_pc_bad hA hlook hpc hnext hc]
                refine ih extra q2 _ hq2 ?_
                unfold layerMeasure at hm ⊢
                simp only [List.length_cons] at hm
                have := Nat.mul_le_mul_right (rows.length + 1) hmono
                omega

/-- An index already in `node_to_layer` is never assigned again: the keys
of the final association list are pairwise distinct. -/
theorem layerGo_keys_nodup (rows : List DlgRow) : ∀ fuel q ntl,
    (ntl.map (fun p => p.1)).Nodup →
    ((layerGo rows fuel q ntl).map (fun p => p.1)).Nodup := by
  intro fuel
  induction fuel with
  | zero => intro q ntl h; exact h
  | succ fuel ih =>
    intro q ntl h
    cases q with
    | nil => rw [layerGo_base]; exact h
    | cons e q2 =>
      obtain ⟨idx, lvl⟩ := e
      by_cases hA : ntl.any (fun p => p.1 = idx) = true
      · rw [layerGo_step_skip hA]; exact ih q2 ntl h
      · have hnew : idx ∉ ntl.map (fun p => p.1) := by
          intro hmem
          obtain ⟨p, hp, hpi⟩ := List.mem_map.mp hmem
          exact hA (List.any_eq_true.mpr ⟨p, hp, by simp [hpi]⟩)
        have h2 : ((ntl ++ [(idx, lvl)]).map (fun p => p.1)).Nodup := by
          rw [List.map_append]
          exact nodup_snoc h hnew
        cases hlook : lookupRow rows idx with
        | none => rw [layerGo_step_none hA hlook]; exact ih q2 _ h2
        | some node =>
          cases hpc : node.is_pc_reply with
          | false => rw [layerGo_step_npc hA hlook hpc]; exact ih _ _ h2
          | true =>
            cases hnext : node.next with
            | none =>
              rw [layerGo_step_pc_none hA hlook hpc hnext]
              exact ih q2 _ h2
            | some n =>
              by_cases hc : n ≠ 0 ∧ hasIndex rows n = true
              · rw [layerGo_step_pc_ok hA hlook hpc hnext hc]
                exact ih _ _ h2
              · rw [layerGo_step_pc_bad hA hlook hpc hnext hc]
                exact ih q2 _ h2

/-! The per-root BFS of `calculate_tree_layout`: the same visited-list
decomposition and counting measure as for `_build_components`, plus the
bookkeeping that ties the per-level buckets to the component list. -/

/-- All indices stored in a `layers` defaultdict, bucket order. -/
def lsEntries (ls : List (Int × List Int)) : List Int :=
  (ls.map (fun p => p.2)).flatten

/-- The termination measure of `_bfs_layers`' loop. -/
def treeMeasure (rows : List DlgRow) (dq : List (Int × Int))
    (vis : List Int) : Nat :=
  dq.length + (idxUniverse rows).countP (fun i => decide (i ∉ vis))

theorem enqueueAllLvl_eq (cs : List Int) (lvl : Int) : ∀ dq vis X,
    vis = X ++ dq.map (fun p => p.1) →
    (enqueueAllLvl cs lvl dq vis).2 =
      X ++ (enqueueAllLvl cs lvl dq vis).1.map (fun p => p.1) := by
  induction cs with
  | nil => intro dq vis X h; exact h
  | cons c cs ih =>
    intro dq vis X h
    by_cases hc : c ∈ vis
    · simp only [enqueueAllLvl, if_pos hc]
      exact ih dq vis X h
    · simp only [enqueueAllLvl, if_neg hc]
      refine ih (dq ++ [(c, lvl)]) (vis ++ [c]) X ?_
      rw [h, List.map_append, List.append_assoc]
      rfl

theorem enqueueAllLvl_measure (rows : List DlgRow) (cs : List Int)
    (lvl : Int) : ∀ dq vis, (∀ c ∈ cs, c ∈ idxUniverse rows) →
    treeMeasure rows (enqueueAllLvl cs lvl dq vis).1
        (enqueueAllLvl cs lvl dq vis).2 ≤ treeMeasure rows dq vis := by
  induction cs with
  | nil => intro dq vis _; exact le_rfl
  | cons c cs ih =>
    intro dq vis hcs
    by_cases hc : c ∈ vis
    · simp only [enqueueAllLvl, if_pos hc]
      exact ih dq vis (fun x hx => hcs x (List.mem_cons_of_mem c hx))
    · simp only [enqueueAllLvl, if_neg hc]
      refine le_trans (ih (dq ++ [(c, lvl)]) (vis ++ [c])
        (fun x hx => hcs x (List.mem_cons_of_mem c hx))) ?_
      unfold treeMeasure
      have hlt := countP_snoc_lt (hcs c (List.mem_cons_self c cs)) hc
      simp only [List.length_append, List.length_cons, List.length_nil]
      omega

theorem enqueueAllLvl_vis_mono (cs : List Int) (lvl : Int) : ∀ dq vis,
    vis ⊆ (enqueueAllLvl cs lvl dq vis).2 := by
  induction cs with
  | nil => intro dq vis x hx; exact hx
  | cons c cs ih =>
    intro dq vis
    by_cases hc : c ∈ vis
    · simp only [enqueueAllLvl, if_pos hc]; exact ih dq vis
    · simp only [enqueueAllLvl, if_neg hc]
      exact fun x hx => ih (dq ++ [(c, lvl)]) (vis ++ [c])
        (List.mem_append.mpr (Or.inl hx))

theorem enqueueAllLvl_vis_sub (cs : List Int) (lvl : Int) : ∀ dq vis x,
    x ∈ (enqueueAllLvl cs lvl dq vis).2 → x ∈ vis ∨ x ∈ cs := by
  induction cs with
  | nil => intro dq vis x hx; exact Or.inl hx
  | cons c cs ih =>
    intro dq vis x hx
    by_cases hc : c ∈ vis
    · simp only [enqueueAllLvl, if_pos hc] at hx
      rcases ih dq vis x hx with h | h
      · exact Or.inl h
      · exact Or.inr (List.mem_cons_of_mem c h)
    · simp only [enqueueAllLvl, if_neg hc] at hx
      rcases ih (dq ++ [(c, lvl)]) (vis ++ [c]) x hx with h | h
      · rcases List.mem_append.mp h with h | h
        · exact Or.inl h
        · have hxc : x = c := List.mem_singleton.mp h
          exact Or.inr (by rw [hxc]; exact List.mem_cons_self c cs)
      · exact Or.inr (List.mem_cons_of_mem c h)

theorem enqueueAllLvl_nodup (cs : List Int) (lvl : Int) : ∀ dq vis,
    vis.Nodup → (enqueueAllLvl cs lvl dq vis).2.Nodup := by
  induction cs with
  | nil => intro dq vis h; exact h
  | cons c cs ih =>
    intro dq vis h
    by_cases hc : c ∈ vis
    · simp only [enqueueAllLvl, if_pos hc]; exact ih dq vis h
    · simp only [enqueueAllLvl, if_neg hc]
      exact ih (dq ++ [(c, lvl)]) (vis ++ [c]) (nodup_snoc h hc)

/-! Step equations for `treeBfsGo`. -/

theorem treeBfsGo_base {rows : List DlgRow} {fuel : Nat} {vis comp : List Int}
    {ls : List (Int × List Int)} :
    treeBfsGo rows fuel [] vis comp ls = (comp, ls, vis) := by
  cases fuel with
  | zero => rfl
  | succ f => rfl

theorem treeBfsGo_step_none {rows : List DlgRow} {fuel : Nat} {idx lvl : Int}
    {dq : List (Int × Int)} {vis comp : List Int}
    {ls : List (Int × List Int)} (h : lookupRow rows idx = none) :
    treeBfsGo rows (fuel + 1) ((idx, lvl) :: dq) vis comp ls =
      treeBfsGo rows fuel dq vis (comp ++ [idx]) (layersAdd ls lvl idx) := by
  simp only [treeBfsGo, h]

theorem treeBfsGo_step_pc_new {rows : List DlgRow} {fuel : Nat}
    {idx lvl n : Int} {dq : List (Int × Int)} {vis comp : List Int}
    {ls : List (Int × List Int)} {node : DlgRow}
    (h : lookupRow rows idx = some node) (hpc : node.is_pc_reply = true)
    (hnext : node.next = some n)
    (hc : hasIndex rows n = true ∧ n ∉ vis) :
    treeBfsGo rows (fuel + 1) ((idx, lvl) :: dq) vis comp ls =
      treeBfsGo rows fuel (dq ++ [(n, lvl + 1)]) (vis ++ [n])
        (comp ++ [idx]) (layersAdd ls lvl idx) := by
  simp only [treeBfsGo, h, hpc, hnext, if_pos hc, if_true]

theorem treeBfsGo_step_pc_old {rows : List DlgRow} {fuel : Nat}
    {idx lvl n : Int} {dq : List (Int × Int)} {vis comp : List Int}
    {ls : List (Int × List Int)} {node : DlgRow}
    (h : lookupRow rows idx = some node) (hpc : node.is_pc_reply = true)
    (hnext : node.next = some n)
    (hc : ¬(hasIndex rows n = true ∧ n ∉ vis)) :
    treeBfsGo rows (fuel + 1) ((idx, lvl) :: dq) vis comp ls =
      treeBfsGo rows fuel dq vis (comp ++ [idx]) (layersAdd ls lvl idx) := by
  simp only [treeBfsGo, h, hpc, hnext, if_neg hc, if_true]

theorem treeBfsGo_step_pc_none {rows : List DlgRow} {fuel : Nat}
    {idx lvl : Int} {dq : List (Int × Int)} {vis comp : List Int}
    {ls : List (Int × List Int)} {node : DlgRow}
    (h : lookupRow rows idx = some node) (hpc : node.is_pc_reply = true)
    (hnext : node.next = none) :
    treeBfsGo rows (fuel + 1) ((idx, lvl) :: dq) vis comp ls =
      treeBfsGo rows fuel dq vis (comp ++ [idx]) (layersAdd ls lvl idx) := by
  simp only [treeBfsGo, h, hpc, hnext, if_true]

theorem treeBfsGo_step_npc {rows : List DlgRow} {fuel : Nat} {idx lvl : Int}
    {dq : List (Int × Int)} {vis comp : List Int}
    {ls : List (Int × List Int)} {node : DlgRow}
    (h : lookupRow rows idx = some node) (hpc : node.is_pc_reply = false) :
    treeBfsGo rows (fuel + 1) ((idx, lvl) :: dq) vis comp ls =
      treeBfsGo rows fuel
        (enqueueAllLvl (childIndices rows idx) (lvl + 1) dq vis).1
        (enqueueAllLvl (childIndices rows idx) (lvl + 1) dq vis).2
        (comp ++ [idx]) (layersAdd ls lvl idx) := by
  simp only [treeBfsGo, h, hpc, Bool.false_eq_true, if_false]

/-- With fuel at least the measure, extra fuel changes nothing. -/
theorem treeBfsGo_stab (rows : List DlgRow) : ∀ fuel extra dq vis comp ls,
    treeMeasure rows dq vis ≤ fuel →
    treeBfsGo rows (fuel + extra) dq vis comp ls =
      treeBfsGo rows fuel dq vis comp ls := by
  intro fuel
  induction fuel with
  | zero =>
    intro extra dq vis comp ls hm
    have hlen : dq.length = 0 := by
      unfold treeMeasure at hm; omega
    have hdq : dq = [] := List.length_eq_zero.mp hlen
    subst hdq
    rw [treeBfsGo_base, treeBfsGo_base]
  | succ fuel ih =>
    intro extra dq vis comp ls hm
    have hfe : fuel + 1 + extra = (fuel + extra) + 1 := by omega
    cases dq with
    | nil => rw [treeBfsGo_base, treeBfsGo_base]
    | cons e dq2 =>
      obtain ⟨idx, lvl⟩ := e
      have hm2 : treeMeasure rows dq2 vis ≤ fuel := by
        unfold treeMeasure at hm ⊢
        simp only [List.length_cons] at hm
        omega
      cases hlook : lookupRow rows idx with
      | none =>
        rw [hfe, treeBfsGo_step_none hlook, treeBfsGo_step_none hlook]
        exact ih extra dq2 vis _ _ hm2
      | some node =>
        cases hpc : node.is_pc_reply with
        | false =>
          rw [hfe, treeBfsGo_step_npc hlook hpc,
            treeBfsGo_step_npc hlook hpc]
          refine ih extra _ _ _ _ ?_
          exact le_trans (enqueueAllLvl_measure rows (childIndices rows idx)
            (lvl + 1) dq2 vis (childIndices_sub rows idx)) hm2
        | true =>
          cases hnext : node.next with
          | none =>
            rw [hfe, treeBfsGo_step_pc_none hlook hpc hnext,
              treeBfsGo_step_pc_none hlook hpc hnext]
            exact ih extra dq2 vis _ _ hm2
          | some n =>
            by_cases hc : hasIndex rows n = true ∧ n ∉ vis
            · rw [hfe, treeBfsGo_step_pc_new hlook hpc hnext hc,
                treeBfsGo_step_pc_new hlook hpc hnext hc]
              refine ih extra _ _ _ _ ?_
              unfold treeMeasure at hm2 ⊢
              have hlt := countP_snoc_lt (hasIndex_universe hc.1) hc.2
              simp only [List.length_append, List.length_cons,
                List.length_nil] at hm2 ⊢
              omega
            · rw [hfe, treeBfsGo_step_pc_old hlook hpc hnext hc,
                treeBfsGo_step_pc_old hlook hpc hnext hc]
              exact ih extra dq2 vis _ _ hm2

/-- With enough fuel the BFS drains its queue, and `visited` ends as the
pre-existing prefix followed by exactly the component. -/
theorem treeBfsGo_drain (rows : List DlgRow) : ∀ fuel dq vis comp ls X,
    vis = X ++ comp ++ dq.map (fun p => p.1) →
    treeMeasure rows dq vis ≤ fuel →
    (treeBfsGo rows fuel dq vis comp ls).2.2 =
      X ++ (treeBfsGo rows fuel dq vis comp ls).1 := by
  intro fuel
  induction fuel with
  | zero =>
    intro dq vis comp ls X hinv hm
    have hlen : dq.length = 0 := by
      unfold treeMeasure at hm; omega
    have hdq : dq = [] := List.length_eq_zero.mp hlen
    subst hdq
    show vis = X ++ comp
    simpa using hinv
  | succ fuel ih =>
    intro dq vis comp ls X hinv hm
    cases dq with
    | nil =>
      show vis = X ++ comp
      simpa using hinv
    | cons e dq2 =>
      obtain ⟨idx, lvl⟩ := e
      have hinv2 : vis = X ++ (comp ++ [idx]) ++ dq2.map (fun p => p.1) := by
        rw [hinv]; simp
      have hm2 : treeMeasure rows dq2 vis ≤ fuel := by
        unfold treeMeasure at hm ⊢
        simp only [List.length_cons] at hm
        omega
      cases hlook : lookupRow rows idx with
      | none =>
        rw [treeBfsGo_step_none hlook]
        exact ih dq2 vis _ _ X hinv2 hm2
      | some node =>
        cases hpc : node.is_pc_reply with
        | false =>
          rw [treeBfsGo_step_npc hlook hpc]
          refine ih _ _ _ _ X ?_ ?_
          · exact enqueueAllLvl_eq (childIndices rows idx) (lvl + 1) dq2 vis
              (X ++ (comp ++ [idx])) (by rw [hinv2, List.append_assoc])
          · exact le_trans (enqueueAllLvl_measure rows (childIndices rows idx)
              (lvl + 1) dq2 vis (childIndices_sub rows idx)) hm2
        | true =>
          cases hnext : node.next with
          | none =>
            rw [treeBfsGo_step_pc_none hlook hpc hnext]
            exact ih dq2 vis _ _ X hinv2 hm2
          | some n =>
            by_cases hc : hasIndex rows n = true ∧ n ∉ vis
            · rw [treeBfsGo_step_pc_new hlook hpc hnext hc]
              refine ih _ _ _ _ X ?_ ?_
              · rw [hinv2]
                simp [List.append_assoc]
              · unfold treeMeasure at hm2 ⊢
                have hlt := countP_snoc_lt (hasIndex_universe hc.1) hc.2
                simp only [List.length_append, List.length_cons,
                  List.length_nil] at hm2 ⊢
                omega
            · rw [treeBfsGo_step_pc_old hlook hpc hnext hc]
              exact ih dq2 vis _ _ X hinv2 hm2

theorem treeBfsGo_vis_mono (rows : List DlgRow) : ∀ fuel dq vis comp ls,
    vis ⊆ (treeBfsGo rows fuel dq vis comp ls).2.2 := by
  intro fuel
  induction fuel with
  | zero => intro dq vis comp ls x hx; exact hx
  | succ fuel ih =>
    intro dq vis comp ls
    cases dq with
    | nil => intro x hx; exact hx
    | cons e dq2 =>
      obtain ⟨idx, lvl⟩ := e
      cases hlook : lookupRow rows idx with
      | none =>
        rw [treeBfsGo_step_none hlook]
        exact ih dq2 vis _ _
      | some node =>
        cases hpc : node.is_pc_reply with
        | false =>
          rw [treeBfsGo_step_npc hlook hpc]
          exact fun x hx => ih _ _ _ _
            (enqueueAllLvl_vis_mono (childIndices rows idx) (lvl + 1)
              dq2 vis hx)
        | true =>
          cases hnext : node.next with
          | none =>
            rw [treeBfsGo_step_pc_none hlook hpc hnext]
            exact ih dq2 vis _ _
          | some n =>
            by_cases hc : hasIndex rows n = true ∧ n ∉ vis
            · rw [treeBfsGo_step_pc_new hlook hpc hnext hc]
              exact fun x hx => ih _ _ _ _
                (List.mem_append.mpr (Or.inl hx))
            · rw [treeBfsGo_step_pc_old hlook hpc hnext hc]
              exact ih dq2 vis _ _

theorem treeBfsGo_nodup (rows : List DlgRow) : ∀ fuel dq vis comp ls,
    vis.Nodup → (treeBfsGo rows fuel dq vis comp ls).2.2.Nodup := by
  intro fuel
  induction fuel with
  | zero => intro dq vis comp ls h; exact h
  | succ fuel ih =>
    intro dq vis comp ls h
    cases dq with
    | nil => exact h
    | cons e dq2 =>
      obtain ⟨idx, lvl⟩ := e
      cases hlook : lookupRow rows idx with
      | none =>
        rw [treeBfsGo_step_none hlook]
        exact ih dq2 vis _ _ h
      | some node =>
        cases hpc : node.is_pc_reply with
        | false =>
          rw [treeBfsGo_step_npc hlook hpc]
          exact ih _ _ _ _
            (enqueueAllLvl_nodup (childIndices rows idx) (lvl + 1) dq2 vis h)
        | true =>
          cases hnext : node.next with
          | none =>
            rw [treeBfsGo_step_pc_none hlook hpc hnext]
            exact ih dq2 vis _ _ h
          | some n =>
            by_cases hc : hasIndex rows n = true ∧ n ∉ vis
            · rw [treeBfsGo_step_pc_new hlook hpc hnext hc]
              exact ih _ _ _ _ (nodup_snoc h hc.2)
            · rw [treeBfsGo_step_pc_old hlook hpc hnext hc]
              exact ih dq2 vis _ _ h

theorem treeBfsGo_vis_sub (rows : List DlgRow) : ∀ fuel dq vis comp ls,
    (∀ i ∈ vis, i ∈ idxUniverse rows) →
    ∀ i ∈ (treeBfsGo rows fuel dq vis comp ls).2.2,
      i ∈ idxUniverse rows := by
  intro fuel
  induction fuel with
  | zero => intro dq vis comp ls h i hi; exact h i hi
  | succ fuel ih =>
    intro dq vis comp ls h
    cases dq with
    | nil => exact h
    | cons e dq2 =>
      obtain ⟨idx, lvl⟩ := e
      cases hlook : lookupRow rows idx with
      | none =>
        rw [treeBfsGo_step_none hlook]
        exact ih dq2 vis _ _ h
      | some node =>
        cases hpc : node.is_pc_reply with
        | false =>
          rw [treeBfsGo_step_npc hlook hpc]
          refine ih _ _ _ _ ?_
          intro i hi
          rcases enqueueAllLvl_vis_sub (childIndices rows idx) (lvl + 1)
            dq2 vis i hi with hv | hcs
          · exact h i hv
          · exact childIndices_sub rows idx i hcs
        | true =>
          cases hnext : node.next with
          | none =>
            rw [treeBfsGo_step_pc_none hlook hpc hnext]
            exact ih dq2 vis _ _ h
          | some n =>
            by_cases hc : hasIndex rows n = true ∧ n ∉ vis
            · rw [treeBfsGo_step_pc_new hlook hpc hnext hc]
              refine ih _ _ _ _ ?_
              intro i hi
              rcases List.mem_append.mp hi with hi | hi
              · exact h i hi
              · rw [List.mem_singleton] at hi
                exact hi ▸ hasIndex_universe hc.1
            · rw [treeBfsGo_step_pc_old hlook hpc hnext hc]
              exact ih dq2 vis _ _ h

/-! The `layers` buckets collect exactly the component's nodes. -/

theorem map_fst_update (ls : List (Int × List Int)) (lvl idx : Int) :
    (ls.map (fun p => if p.1 = lvl then (p.1, p.2 ++ [idx]) else p)).map
      (fun p => p.1) = ls.map (fun p => p.1) := by
  induction ls with
  | nil => rfl
  | cons p ps ih =>
    by_cases hp : p.1 = lvl
    · simp only [List.map_cons, if_pos hp, ih]
    · simp only [List.map_cons, if_neg hp, ih]

theorem layersAdd_keys (ls : List (Int × List Int)) (lvl idx : Int) :
    (layersAdd ls lvl idx).map (fun p => p.1) =
      if ls.any (fun p => p.1 = lvl) then ls.map (fun p => p.1)
      else ls.map (fun p => p.1) ++ [lvl] := by
  unfold layersAdd
  by_cases hA : ls.any (fun p => p.1 = lvl) = true
  · rw [if_pos hA, if_pos hA]
    exact map_fst_update ls lvl idx
  · rw [if_neg hA, if_neg hA, List.map_append]
    rfl

theorem map_update_id (ps : List (Int × List Int)) (lvl idx : Int)
    (h : ∀ q ∈ ps, ¬ q.1 = lvl) :
    ps.map (fun p => if p.1 = lvl then (p.1, p.2 ++ [idx]) else p) = ps := by
  induction ps with
  | nil => rfl
  | cons q qs ih =>
    rw [List.map_cons, if_neg (h q (List.mem_cons_self q qs)),
      ih (fun x hx => h x (List.mem_cons_of_mem q hx))]

theorem lsEntries_update_perm (lvl idx : Int) : ∀ ls : List (Int × List Int),
    (ls.map (fun p => p.1)).Nodup →
    ls.any (fun p => p.1 = lvl) = true →
    (lsEntries (ls.map
        (fun p => if p.1 = lvl then (p.1, p.2 ++ [idx]) else p))).Perm
      (lsEntries ls ++ [idx]) := by
  intro ls
  induction ls with
  | nil => intro _ hA; simp at hA
  | cons p ps ih =>
    intro h hA
    have hh : p.1 ∉ ps.map (fun q => q.1) ∧
        (ps.map (fun q => q.1)).Nodup := by
      rw [List.map_cons] at h
      exact List.nodup_cons.mp h
    by_cases hp : p.1 = lvl
    · have htail : ps.map
          (fun q => if q.1 = lvl then (q.1, q.2 ++ [idx]) else q) = ps := by
        refine map_update_id ps lvl idx ?_
        intro q hq hql
        refine hh.1 ?_
        rw [hp, ← hql]
        exact List.mem_map_of_mem _ hq
      rw [List.map_cons, if_pos hp, htail]
      show ((p.2 ++ [idx]) ++ lsEntries ps).Perm
        ((p.2 ++ lsEntries ps) ++ [idx])
      rw [List.append_assoc, List.append_assoc]
      exact List.Perm.append_left p.2 List.perm_append_comm
    · have hA2 : ps.any (fun q => q.1 = lvl) = true := by
        simp only [List.any_cons, Bool.or_eq_true] at hA
        rcases hA with h1 | h1
        · exact absurd (by simpa using h1) hp
        · exact h1
      rw [List.map_cons, if_neg hp]
      show (p.2 ++ lsEntries (ps.map
          (fun q => if q.1 = lvl then (q.1, q.2 ++ [idx]) else q))).Perm
        ((p.2 ++ lsEntries ps) ++ [idx])
      rw [List.append_assoc]
      exact List.Perm.append_left p.2 (ih hh.2 hA2)

theorem lsEntries_layersAdd (ls : List (Int × List Int)) (lvl idx : Int)
    (h : (ls.map (fun p => p.1)).Nodup) :
    (lsEntries (layersAdd ls lvl idx)).Perm (lsEntries ls ++ [idx]) := by
  unfold layersAdd
  by_cases hA : ls.any (fun p => p.1 = lvl) = true
  · rw [if_pos hA]
    exact lsEntries_update_perm lvl idx ls h hA
  · rw [if_neg hA]
    unfold lsEntries
    rw [List.map_append, List.flatten_append]
    simp

theorem treeBfsGo_ls (rows : List DlgRow) : ∀ fuel dq vis comp ls,
    (ls.map (fun p => p.1)).Nodup →
    (lsEntries ls).Perm comp →
    ((treeBfsGo rows fuel dq vis comp ls).2.1.map (fun p => p.1)).Nodup ∧
    (lsEntries (treeBfsGo rows fuel dq vis comp ls).2.1).Perm
      (treeBfsGo rows fuel dq vis comp ls).1 := by
  intro fuel
  induction fuel with
  | zero => intro dq vis comp ls hk hperm; exact ⟨hk, hperm⟩
  | succ fuel ih =>
    intro dq vis comp ls hk hperm
    cases dq with
    | nil => exact ⟨hk, hperm⟩
    | cons e dq2 =>
      obtain ⟨idx, lvl⟩ := e
      have hk2 : ((layersAdd ls lvl idx).map (fun p => p.1)).Nodup := by
        rw [layersAdd_keys]
        by_cases hA : ls.any (fun p => p.1 = lvl) = true
        · rw [if_pos hA]; exact hk
        · rw [if_neg hA]
          refine nodup_snoc hk ?_
          intro hmem
          obtain ⟨p, hp, hpi⟩ := List.mem_map.mp hmem
          exact hA (List.any_eq_true.mpr ⟨p, hp, by simp [hpi]⟩)
      have hperm2 : (lsEntries (layersAdd ls lvl idx)).Perm (comp ++ [idx]) :=
        (lsEntries_layersAdd ls lvl idx hk).trans (hperm.append_right [idx])
      cases hlook : lookupRow rows idx with
      | none =>
        rw [treeBfsGo_step_none hlook]
        exact ih dq2 vis _ _ hk2 hperm2
      | some node =>
        cases hpc : node.is_pc_reply with
        | false =>
          rw [treeBfsGo_step_npc hlook hpc]
          exact ih _ _ _ _ hk2 hperm2
        | true =>
          cases hnext : node.next with
          | none =>
            rw [treeBfsGo_step_pc_none hlook hpc hnext]
            exact ih dq2 vis _ _ hk2 hperm2
          | some n =>
            by_cases hc : hasIndex rows n = true ∧ n ∉ vis
            · rw [treeBfsGo_step_pc_new hlook hpc hnext hc]
              exact ih _ _ _ _ hk2 hperm2
            · rw [treeBfsGo_step_pc_old hlook hpc hnext hc]
              exact ih dq2 vis _ _ hk2 hperm2

/-! The outer component loops of `calculate_tree_layout`. -/

theorem treeBfs_drain (rows : List DlgRow) (vis : List Int) (root : Int) :
    (treeBfs rows vis root).2.2 = vis ++ (treeBfs rows vis root).1 := by
  unfold treeBfs
  refine treeBfsGo_drain rows (rows.length + 1) [(root, 0)] (vis ++ [root])
    [] [] vis (by simp) ?_
  unfold treeMeasure
  have h1 : (idxUniverse rows).countP
      (fun i => decide (i ∉ vis ++ [root])) ≤ (idxUniverse rows).length :=
    List.countP_le_length _
  have h2 : (idxUniverse rows).length ≤ rows.length := by
    have h3 := (List.dedup_sublist (rows.map (fun r => r.index))).length_le
    simpa using h3
  simp only [List.length_cons, List.length_nil]
  omega

theorem treeBfs_vis_mono (rows : List DlgRow) (vis : List Int) (root : Int) :
    vis ⊆ (treeBfs rows vis root).2.2 :=
  fun _ hx => treeBfsGo_vis_mono rows (rows.length + 1) [(root, 0)]
    (vis ++ [root]) [] [] (List.mem_append.mpr (Or.inl hx))

theorem treeBfs_root_mem (rows : List DlgRow) (vis : List Int) (root : Int) :
    root ∈ (treeBfs rows vis root).2.2 :=
  treeBfsGo_vis_mono rows (rows.length + 1) [(root, 0)] (vis ++ [root]) [] []
    (List.mem_append.mpr (Or.inr (List.mem_singleton.mpr rfl)))

theorem treeBfs_nodup (rows : List DlgRow) {vis : List Int} {root : Int}
    (h : vis.Nodup) (hr : root ∉ vis) :
    (treeBfs rows vis root).2.2.Nodup :=
  treeBfsGo_nodup rows (rows.length + 1) [(root, 0)] (vis ++ [root]) [] []
    (nodup_snoc h hr)

theorem treeBfs_sub (rows : List DlgRow) {vis : List Int} {root : Int}
    (h : ∀ i ∈ vis, i ∈ idxUniverse rows) (hr : root ∈ idxUniverse rows) :
    ∀ i ∈ (treeBfs rows vis root).2.2, i ∈ idxUniverse rows := by
  refine treeBfsGo_vis_sub rows (rows.length + 1) [(root, 0)]
    (vis ++ [root]) [] [] ?_
  intro j hj
  rcases List.mem_append.mp hj with hj | hj
  · exact h j hj
  · rw [List.mem_singleton] at hj
    exact hj ▸ hr

theorem treeBfs_ls (rows : List DlgRow) (vis : List Int) (root : Int) :
    ((treeBfs rows vis root).2.1.map (fun p => p.1)).Nodup ∧
    (lsEntries (treeBfs rows vis root).2.1).Perm (treeBfs rows vis root).1 :=
  treeBfsGo_ls rows (rows.length + 1) [(root, 0)] (vis ++ [root]) [] []
    List.nodup_nil (List.Perm.refl [])

theorem treeCompsGo_skip {rows : List DlgRow} {root : Int} {rest vis : List Int}
    {acc : List (List Int × List (Int × List Int))} (h : root ∈ vis) :
    treeCompsGo rows (root :: rest) vis acc =
      treeCompsGo rows rest vis acc := by
  simp only [treeCompsGo, if_pos h]

theorem treeCompsGo_seed {rows : List DlgRow} {root : Int} {rest vis : List Int}
    {acc : List (List Int × List (Int × List Int))} (h : root ∉ vis) :
    treeCompsGo rows (root :: rest) vis acc =
      treeCompsGo rows rest (treeBfs rows vis root).2.2
        (acc ++ [((treeBfs rows vis root).1,
          (treeBfs rows vis root).2.1)]) := by
  simp only [treeCompsGo, if_neg h]

theorem treeCompsGo_vis_mono (rows : List DlgRow) : ∀ roots vis acc,
    vis ⊆ (treeCompsGo rows roots vis acc).2 := by
  intro roots
  induction roots with
  | nil => intro vis acc x hx; exact hx
  | cons root rest ih =>
    intro vis acc
    by_cases h0 : root ∈ vis
    · rw [treeCompsGo_skip h0]; exact ih vis acc
    · rw [treeCompsGo_seed h0]
      exact fun x hx => ih _ _ (treeBfs_vis_mono rows vis root hx)

theorem treeCompsGo_covers (rows : List DlgRow) : ∀ roots vis acc,
    ∀ root ∈ roots, root ∈ (treeCompsGo rows roots vis acc).2 := by
  intro roots
  induction roots with
  | nil => intro vis acc root hr; exact absurd hr (List.not_mem_nil root)
  | cons r0 rest ih =>
    intro vis acc root hr
    by_cases h0 : r0 ∈ vis
    · rw [treeCompsGo_skip h0]
      rcases List.mem_cons.mp hr with rfl | hr2
      · exact treeCompsGo_vis_mono rows rest vis acc h0
      · exact ih vis acc root hr2
    · rw [treeCompsGo_seed h0]
      rcases List.mem_cons.mp hr with rfl | hr2
      · exact treeCompsGo_vis_mono rows rest _ _
          (treeBfs_root_mem rows vis root)
      · exact ih _ _ root hr2

theorem treeCompsGo_nodup (rows : List DlgRow) : ∀ roots vis acc,
    vis.Nodup → (treeCompsGo rows roots vis acc).2.Nodup := by
  intro roots
  induction roots with
  | nil => intro vis acc h; exact h
  | cons r0 rest ih =>
    intro vis acc h
    by_cases h0 : r0 ∈ vis
    · rw [treeCompsGo_skip h0]; exact ih vis acc h
    · rw [treeCompsGo_seed h0]
      exact ih _ _ (treeBfs_nodup rows h h0)

theorem treeCompsGo_sub (rows : List DlgRow) : ∀ roots vis acc,
    (∀ r ∈ roots, r ∈ idxUniverse rows) →
    (∀ i ∈ vis, i ∈ idxUniverse rows) →
    ∀ i ∈ (treeCompsGo rows roots vis acc).2, i ∈ idxUniverse rows := by
  intro roots
  induction roots with
  | nil => intro vis acc _ hv i hi; exact hv i hi
  | cons r0 rest ih =>
    intro vis acc hrs hv i hi
    by_cases h0 : r0 ∈ vis
    · rw [treeCompsGo_skip h0] at hi
      exact ih vis acc (fun r hr => hrs r (List.mem_cons_of_mem r0 hr))
        hv i hi
    · rw [treeCompsGo_seed h0] at hi
      exact ih _ _ (fun r hr => hrs r (List.mem_cons_of_mem r0 hr))
        (treeBfs_sub rows hv (hrs r0 (List.mem_cons_self r0 rest))) i hi

theorem treeCompsGo_flatten (rows : List DlgRow) : ∀ roots vis acc,
    vis = (acc.map (fun c => c.1)).flatten →
    (treeCompsGo rows roots vis acc).2 =
      ((treeCompsGo rows roots vis acc).1.map (fun c => c.1)).flatten := by
  intro roots
  induction roots with
  | nil => intro vis acc h; exact h
  | cons r0 rest ih =>
    intro vis acc h
    by_cases h0 : r0 ∈ vis
    · rw [treeCompsGo_skip h0]; exact ih vis acc h
    · rw [treeCompsGo_seed h0]
      refine ih _ _ ?_
      rw [treeBfs_drain rows vis r0, List.map_append, List.flatten_append, h]
      simp

theorem treeCompsGo_ls (rows : List DlgRow) : ∀ roots vis acc,
    (∀ c ∈ acc, (c.2.map (fun p => p.1)).Nodup ∧
      (lsEntries c.2).Perm c.1) →
    ∀ c ∈ (treeCompsGo rows roots vis acc).1,
      (c.2.map (fun p => p.1)).Nodup ∧ (lsEntries c.2).Perm c.1 := by
  intro roots
  induction roots with
  | nil => intro vis acc h c hc; exact h c hc
  | cons r0 rest ih =>
    intro vis acc h c hc
    by_cases h0 : r0 ∈ vis
    · rw [treeCompsGo_skip h0] at hc
      exact ih vis acc h c hc
    · rw [treeCompsGo_seed h0] at hc
      refine ih _ _ ?_ c hc
      intro d hd
      rcases List.mem_append.mp hd with hd | hd
      · exact h d hd
      · rw [List.mem_singleton] at hd
        subst hd
        exact treeBfs_ls rows vis r0

theorem npcIndices_sub (rows : List DlgRow) :
    ∀ i ∈ npcIndices rows, i ∈ rows.map (fun r => r.index) := by
  intro i hi
  unfold npcIndices at hi
  rw [List.mem_dedup] at hi
  obtain ⟨r, hr, rfl⟩ := List.mem_map.mp hi
  exact List.mem_map_of_mem _ (List.mem_of_mem_filter hr)

theorem treeRoots_sub (rows : List DlgRow) :
    ∀ i ∈ treeRoots rows, i ∈ idxUniverse rows := by
  intro i hi
  rw [idxUniverse, List.mem_dedup]
  simp only [treeRoots] at hi
  by_cases hr : (npcIndices rows).filter
      (fun i => incomingCount rows i = 0) = []
  · rw [if_pos hr] at hi
    rcases hfm : rows.find? (fun r => ¬ r.is_pc_reply) with _ | r
    · rw [hfm] at hi
      simp at hi
    · rw [hfm] at hi
      rw [List.mem_singleton] at hi
      subst hi
      exact List.mem_map_of_mem _ (List.mem_of_find?_eq_some hfm)
  · rw [if_neg hr] at hi
    exact npcIndices_sub rows i (List.mem_of_mem_filter hi)

/-- The two passes of `calculate_tree_layout`'s component collection:
everything visited is a component member and conversely. -/
theorem treeComponents_flatten (rows : List DlgRow) :
    (treeComponents rows).2 =
      ((treeComponents rows).1.map (fun c => c.1)).flatten := by
  unfold treeComponents
  exact treeCompsGo_flatten rows (rows.map (fun r => r.index)) _ _
    (treeCompsGo_flatten rows (treeRoots rows) [] [] rfl)

theorem treeComponents_nodup (rows : List DlgRow) :
    (treeComponents rows).2.Nodup := by
  unfold treeComponents
  exact treeCompsGo_nodup rows (rows.map (fun r => r.index)) _ _
    (treeCompsGo_nodup rows (treeRoots rows) [] [] List.nodup_nil)

theorem treeComponents_covers (rows : List DlgRow) :
    ∀ i ∈ rows.map (fun r => r.index), i ∈ (treeComponents rows).2 := by
  intro i hi
  unfold treeComponents
  exact treeCompsGo_covers rows (rows.map (fun r => r.index)) _ _ i hi

theorem treeComponents_sub (rows : List DlgRow) :
    ∀ i ∈ (treeComponents rows).2, i ∈ idxUniverse rows := by
  unfold treeComponents
  refine treeCompsGo_sub rows (rows.map (fun r => r.index)) _ _ ?_ ?_
  · intro r hr
    rw [idxUniverse, List.mem_dedup]
    exact hr
  · exact treeCompsGo_sub rows (treeRoots rows) [] [] (treeRoots_sub rows)
      (fun j hj => absurd hj (List.not_mem_nil j))

theorem treeComponents_ls (rows : List DlgRow) :
    ∀ c ∈ (treeComponents rows).1,
      (c.2.map (fun p => p.1)).Nodup ∧ (lsEntries c.2).Perm c.1 := by
  unfold treeComponents
  exact treeCompsGo_ls rows (rows.map (fun r => r.index)) _ _
    (treeCompsGo_ls rows (treeRoots rows) [] []
      (fun c hc => absurd hc (List.not_mem_nil c)))

/-- C5, counterexample. The layering loop does terminate, but not every
node is assigned a layer: a reply row whose `next` points at itself (a
cycle) is no seed — seeds are parentless NPC lines only — so the queue
starts empty and `node_to_layer` stays empty although index 1 exists. -/
theorem C5_counterexample :
    hasIndex [mkRow 1 (some 1)] 1 = true ∧
    nodeToLayer [mkRow 1 (some 1)] = [] := by
  constructor
  · decide
  · decide

/-- C5, amended. Both loops terminate in a bounded number of steps: the
layering loop of `calculate_layout` is exhausted at fuel
`layerFuel` (any extra fuel returns the identical `node_to_layer`), and
an already-assigned node is never reassigned (the keys are pairwise
distinct); the per-root BFS of `calculate_tree_layout` is exhausted at
fuel `rows.length + 1`, and there every node ends in exactly one
component (whose layer buckets hold exactly its nodes) — but in the
*layered* loop nodes unreachable from the seeds get no layer at all
(see the counterexample). -/
theorem C5_amended_termination (rows : List DlgRow) :
    (∀ extra : Nat,
        layerGo (ensureParents rows)
          (layerFuel (ensureParents rows) + extra)
          (layerSeeds (ensureParents rows)) [] = nodeToLayer rows) ∧
    ((nodeToLayer rows).map (fun p => p.1)).Nodup ∧
    (∀ extra : Nat, ∀ vis : List Int, ∀ root : Int,
        treeBfsGo rows (rows.length + 1 + extra) [(root, 0)] (vis ++ [root])
          [] [] = treeBfs rows vis root) ∧
    (∀ i : Int, i ∈ ((treeComponents rows).1.map (fun c => c.1)).flatten ↔
        i ∈ rows.map (fun r => r.index)) ∧
    (((treeComponents rows).1.map (fun c => c.1)).flatten).Nodup ∧
    (∀ c ∈ (treeComponents rows).1, (lsEntries c.2).Perm c.1) := by
  have hntl : nodeToLayer rows =
      layerGo (ensureParents rows) (layerFuel (ensureParents rows))
        (layerSeeds (ensureParents rows)) [] := rfl
  have hq : ∀ p ∈ layerSeeds (ensureParents rows),
      p.1 ∈ idxUniverse (ensureParents rows) := by
    intro p hp
    simp only [layerSeeds] at hp
    obtain ⟨r, hr, rfl⟩ := List.mem_map.mp hp
    rw [idxUniverse, List.mem_dedup]
    exact List.mem_map_of_mem _ (List.mem_of_mem_filter hr)
  have hm : layerMeasure (ensureParents rows)
      (layerSeeds (ensureParents rows)) [] ≤
      layerFuel (ensureParents rows) := by
    unfold layerMeasure layerFuel
    have hs : (layerSeeds (ensureParents rows)).length ≤
        (ensureParents rows).length := by
      simp only [layerSeeds, List.length_map]
      exact List.length_filter_le _ _
    have hc : (idxUniverse (ensureParents rows)).countP
        (fun i => !(([] : List (Int × Int)).any (fun p => p.1 = i))) ≤
        (idxUniverse (ensureParents rows)).length :=
      List.countP_le_length _
    have hu : (idxUniverse (ensureParents rows)).length ≤
        (ensureParents rows).length := by
      have h3 := (List.dedup_sublist
        ((ensureParents rows).map (fun r => r.index))).length_le
      simpa using h3
    have hA := Nat.mul_le_mul_right ((ensureParents rows).length + 1)
      (le_trans hc hu)
    rw [Nat.mul_comm (ensureParents rows).length
      ((ensureParents rows).length + 1)] at hA
    linarith [hs, hA]
  refine ⟨?_, ?_, ?_, ?_, ?_, ?_⟩
  · intro extra
    rw [hntl]
    exact layerGo_stab (ensureParents rows) (layerFuel (ensureParents rows))
      extra (layerSeeds (ensureParents rows)) [] hq hm
  · rw [hntl]
    exact layerGo_keys_nodup (ensureParents rows)
      (layerFuel (ensureParents rows)) (layerSeeds (ensureParents rows)) []
      List.nodup_nil
  · intro extra vis root
    unfold treeBfs
    refine treeBfsGo_stab rows (rows.length + 1) extra [(root, 0)]
      (vis ++ [root]) [] [] ?_
    unfold treeMeasure
    have h1 : (idxUniverse rows).countP
        (fun i => decide (i ∉ vis ++ [root])) ≤ (idxUniverse rows).length :=
      List.countP_le_length _
    have h2 : (idxUniverse rows).length ≤ rows.length := by
      have h3 := (List.dedup_sublist (rows.map (fun r => r.index))).length_le
      simpa using h3
    simp only [List.length_cons, List.length_nil]
    omega
  · intro i
    rw [← treeComponents_flatten]
    constructor
    · intro hi
      have := treeComponents_sub rows i hi
      rw [idxUniverse, List.mem_dedup] at this
      exact this
    · exact treeComponents_covers rows i
  · rw [← treeComponents_flatten]
    exact treeComponents_nodup rows
  · exact fun c hc => (treeComponents_ls rows c hc).2

/-! ## C3 — layout totality

The forest layout emits exactly one position per input index. The chain:
each BFS component's layer buckets hold exactly its nodes (proved above);
the barycenter passes only permute bucket contents; `placeTreeComp`
emits one entry per bucket element; and the grid packer concatenates the
components. -/

theorem insertStable_perm (key : Int → ℚ) (x : Int) : ∀ l : List Int,
    (insertStable key x l).Perm (x :: l) := by
  intro l
  induction l with
  | nil => exact List.Perm.refl _
  | cons y ys ih =>
    by_cases h : key x ≤ key y
    · simp only [insertStable, if_pos h]
      exact List.Perm.refl _
    · simp only [insertStable, if_neg h]
      exact (List.Perm.cons y ih).trans (List.Perm.swap x y ys)

theorem stableSortBy_perm (key : Int → ℚ) : ∀ l : List Int,
    (stableSortBy key l).Perm l := by
  intro l
  induction l with
  | nil => exact List.Perm.refl _
  | cons x xs ih =>
    exact (insertStable_perm key x (stableSortBy key xs)).trans
      (List.Perm.cons x ih)

theorem insertAsc_perm (x : Int) : ∀ l : List Int,
    (insertAsc x l).Perm (x :: l) := by
  intro l
  induction l with
  | nil => exact List.Perm.refl _
  | cons y ys ih =>
    by_cases h : x ≤ y
    · simp only [insertAsc, if_pos h]
      exact List.Perm.refl _
    · simp only [insertAsc, if_neg h]
      exact (List.Perm.cons y ih).trans (List.Perm.swap x y ys)

theorem sortAsc_perm : ∀ l : List Int, (sortAsc l).Perm l := by
  intro l
  induction l with
  | nil => exact List.Perm.refl _
  | cons x xs ih =>
    exact (insertAsc_perm x (sortAsc xs)).trans (List.Perm.cons x ih)

theorem perm_flatten {L1 L2 : List (List Int)} (h : L1.Perm L2) :
    L1.flatten.Perm L2.flatten := by
  induction h with
  | nil => exact List.Perm.refl _
  | cons x h ih => exact List.Perm.append_left x ih
  | swap x y L =>
    show (y ++ (x ++ L.flatten)).Perm (x ++ (y ++ L.flatten))
    rw [← List.append_assoc, ← List.append_assoc]
    exact List.Perm.append_right L.flatten List.perm_append_comm
  | trans h1 h2 ih1 ih2 => exact ih1.trans ih2

theorem flatten_perm_of_forall {L1 L2 : List (List Int)}
    (h : List.Forall₂ List.Perm L1 L2) : L1.flatten.Perm L2.flatten := by
  induction h with
  | nil => exact List.Perm.refl _
  | cons h1 h2 ih => exact h1.append ih

theorem layersGet_cons_pos {p : Int × List Int} {ps : List (Int × List Int)}
    {lvl : Int} (h : p.1 = lvl) : layersGet (p :: ps) lvl = p.2 := by
  unfold layersGet
  rw [List.find?_cons_of_pos ps (by simp [h])]

theorem layersGet_cons_neg {p : Int × List Int} {ps : List (Int × List Int)}
    {lvl : Int} (h : ¬ p.1 = lvl) :
    layersGet (p :: ps) lvl = layersGet ps lvl := by
  unfold layersGet
  rw [List.find?_cons_of_neg ps (by simp [h])]

theorem layersGet_of_keys : ∀ ls : List (Int × List Int),
    (ls.map (fun p => p.1)).Nodup →
    (ls.map (fun p => p.1)).map (fun k => layersGet ls k) =
      ls.map (fun p => p.2) := by
  intro ls
  induction ls with
  | nil => intro _; rfl
  | cons p ps ih =>
    intro h
    have hh : p.1 ∉ ps.map (fun q => q.1) ∧
        (ps.map (fun q => q.1)).Nodup := by
      rw [List.map_cons] at h
      exact List.nodup_cons.mp h
    rw [List.map_cons, List.map_cons, List.map_cons]
    congr 1
    · exact layersGet_cons_pos rfl
    · have hcong : (ps.map (fun q => q.1)).map
          (fun k => layersGet (p :: ps) k) =
          (ps.map (fun q => q.1)).map (fun k => layersGet ps k) := by
        refine List.map_congr_left ?_
        intro k hk
        refine layersGet_cons_neg ?_
        intro hc
        rw [hc] at hh
        exact hh.1 hk
      rw [hcong, ih hh.2]

theorem layersSet_keys (ls : List (Int × List Int)) (lvl : Int)
    (v : List Int) :
    (layersSet ls lvl v).map (fun p => p.1) = ls.map (fun p => p.1) := by
  unfold layersSet
  induction ls with
  | nil => rfl
  | cons p ps ih =>
    by_cases hp : p.1 = lvl
    · simp only [List.map_cons, if_pos hp, ih]
    · simp only [List.map_cons, if_neg hp, ih]

theorem layersSet_id (lvl : Int) (v : List Int) :
    ∀ ps : List (Int × List Int), (∀ q ∈ ps, ¬ q.1 = lvl) →
    layersSet ps lvl v = ps := by
  intro ps
  induction ps with
  | nil => intro _; rfl
  | cons q qs ih =>
    intro h
    show (if q.1 = lvl then (q.1, v) else q) :: layersSet qs lvl v = q :: qs
    rw [if_neg (h q (List.mem_cons_self q qs)),
      ih (fun x hx => h x (List.mem_cons_of_mem q hx))]

theorem lsEntries_layersSet : ∀ ls : List (Int × List Int), ∀ lvl : Int,
    ∀ v : List Int, (ls.map (fun p => p.1)).Nodup →
    v.Perm (layersGet ls lvl) →
    (lsEntries (layersSet ls lvl v)).Perm (lsEntries ls) := by
  intro ls
  induction ls with
  | nil => intro lvl v _ _; exact List.Perm.refl _
  | cons p ps ih =>
    intro lvl v h hv
    have hh : p.1 ∉ ps.map (fun q => q.1) ∧
        (ps.map (fun q => q.1)).Nodup := by
      rw [List.map_cons] at h
      exact List.nodup_cons.mp h
    by_cases hp : p.1 = lvl
    · have htail : layersSet ps lvl v = ps := by
        refine layersSet_id lvl v ps ?_
        intro q hq hql
        refine hh.1 ?_
        rw [hp, ← hql]
        exact List.mem_map_of_mem _ hq
      show lsEntries ((if p.1 = lvl then (p.1, v) else p) :: layersSet ps lvl v)
        |>.Perm (lsEntries (p :: ps))
      rw [if_pos hp, htail]
      show (v ++ lsEntries ps).Perm (p.2 ++ lsEntries ps)
      refine List.Perm.append_right (lsEntries ps) ?_
      rw [layersGet_cons_pos hp] at hv
      exact hv
    · show lsEntries ((if p.1 = lvl then (p.1, v) else p) :: layersSet ps lvl v)
        |>.Perm (lsEntries (p :: ps))
      rw [if_neg hp]
      show (p.2 ++ lsEntries (layersSet ps lvl v)).Perm
        (p.2 ++ lsEntries ps)
      refine List.Perm.append_left p.2 ?_
      refine ih lvl v hh.2 ?_
      rw [layersGet_cons_neg hp] at hv
      exact hv

theorem treeBaryLevelPass_keys (rows : List DlgRow)
    (ls : List (Int × List Int)) (lvl : Int) :
    (treeBaryLevelPass rows ls lvl).map (fun p => p.1) =
      ls.map (fun p => p.1) := by
  unfold treeBaryLevelPass
  exact layersSet_keys ls lvl _

theorem treeBaryLevelPass_entries (rows : List DlgRow)
    (ls : List (Int × List Int)) (lvl : Int)
    (h : (ls.map (fun p => p.1)).Nodup) :
    (lsEntries (treeBaryLevelPass rows ls lvl)).Perm (lsEntries ls) := by
  unfold treeBaryLevelPass
  exact lsEntries_layersSet ls lvl _ h (stableSortBy_perm _ _)

theorem baryLevelFold (rows : List DlgRow) : ∀ (levels : List Int)
    (ls : List (Int × List Int)), (ls.map (fun p => p.1)).Nodup →
    ((levels.foldl (treeBaryLevelPass rows) ls).map (fun p => p.1) =
      ls.map (fun p => p.1)) ∧
    (lsEntries (levels.foldl (treeBaryLevelPass rows) ls)).Perm
      (lsEntries ls) := by
  intro levels
  induction levels with
  | nil => intro ls h; exact ⟨rfl, List.Perm.refl _⟩
  | cons lvl rest ih =>
    intro ls h
    have hk := treeBaryLevelPass_keys rows ls lvl
    have hstep := ih (treeBaryLevelPass rows ls lvl) (by rw [hk]; exact h)
    refine ⟨hstep.1.trans hk, hstep.2.trans ?_⟩
    exact treeBaryLevelPass_entries rows ls lvl h

theorem baryIterFold (rows : List DlgRow) : ∀ (its : List Nat)
    (ls : List (Int × List Int)), (ls.map (fun p => p.1)).Nodup →
    ((its.foldl (fun acc _ =>
        (sortAsc (acc.map (fun p => p.1))).foldl
          (treeBaryLevelPass rows) acc) ls).map (fun p => p.1) =
      ls.map (fun p => p.1)) ∧
    (lsEntries (its.foldl (fun acc _ =>
        (sortAsc (acc.map (fun p => p.1))).foldl
          (treeBaryLevelPass rows) acc) ls)).Perm (lsEntries ls) := by
  intro its
  induction its with
  | nil => intro ls h; exact ⟨rfl, List.Perm.refl _⟩
  | cons it rest ih =>
    intro ls h
    have hone := baryLevelFold rows (sortAsc (ls.map (fun p => p.1))) ls h
    have hstep := ih _ (by rw [hone.1]; exact h)
    exact ⟨hstep.1.trans hone.1, hstep.2.trans hone.2⟩

theorem treeBaryPhase_keys (rows : List DlgRow)
    (ls : List (Int × List Int)) (h : (ls.map (fun p => p.1)).Nodup) :
    (treeBaryPhase rows ls).map (fun p => p.1) = ls.map (fun p => p.1) :=
  (baryIterFold rows (List.range baryIterationCount) ls h).1

theorem treeBaryPhase_entries (rows : List DlgRow)
    (ls : List (Int × List Int)) (h : (ls.map (fun p => p.1)).Nodup) :
    (lsEntries (treeBaryPhase rows ls)).Perm (lsEntries ls) :=
  (baryIterFold rows (List.range baryIterationCount) ls h).2

theorem foldl_keys_aux2 (c : Prop) [Decidable c]
    (q1 q2 : Int → Nat × Int → ℚ × ℚ) (B : Int → List Int) :
    ∀ (levels : List Int) (acc : List (Int × ℚ × ℚ)),
      ((levels.foldl (fun acc lvl =>
          acc ++ (B lvl).enum.map (fun p =>
            if c then (p.2, q1 lvl p) else (p.2, q2 lvl p))) acc).map
        (fun p => p.1)) =
      acc.map (fun p => p.1) ++ (levels.map B).flatten := by
  intro levels
  induction levels with
  | nil => intro acc; simp
  | cons lvl rest ih =>
    intro acc
    rw [List.foldl_cons, ih, List.map_append, List.map_cons,
      List.flatten_cons]
    have hkeys : ((B lvl).enum.map (fun p =>
        if c then (p.2, q1 lvl p) else (p.2, q2 lvl p))).map
        (fun p => p.1) = B lvl := by
      rw [List.map_map]
      have h2 : ∀ p : Nat × Int,
          ((fun p : Int × ℚ × ℚ => p.1) ∘ (fun p : Nat × Int =>
            if c then (p.2, q1 lvl p) else (p.2, q2 lvl p))) p =
          Prod.snd p := by
        intro p
        simp only [Function.comp]
        rw [apply_ite (fun x : Int × ℚ × ℚ => x.1)]
        simp
      rw [List.map_congr_left (fun p _ => h2 p), List.enum_map_snd]
    rw [hkeys, List.append_assoc]

theorem placeTreeComp_keys (cfg : LayoutCfg) (orientation : String)
    (off cur : ℚ) (info : CompInfo)
    (h : (info.layersA.map (fun p => p.1)).Nodup) :
    ((placeTreeComp cfg orientation off cur info).map (fun p => p.1)).Perm
      (lsEntries info.layersA) := by
  have hfold : ((placeTreeComp cfg orientation off cur info).map
      (fun p => p.1)) =
      ([] : List (Int × ℚ × ℚ)).map (fun p => p.1) ++
      ((sortAsc (info.layersA.map (fun p => p.1))).map
        (fun lvl => layersGet info.layersA lvl)).flatten :=
    foldl_keys_aux2 _ _ _ _ _ _
  rw [hfold]
  simp only [List.map_nil, List.nil_append]
  refine (perm_flatten ((sortAsc_perm _).map
    (fun lvl => layersGet info.layersA lvl))).trans ?_
  rw [layersGet_of_keys info.layersA h]
  exact List.Perm.refl _

theorem packGo_nil {cfg : LayoutCfg} {orientation : String}
    {cols fuel : Nat} {off : ℚ} {pos : List (Int × ℚ × ℚ)} :
    packGo cfg orientation cols fuel [] off pos = pos := by
  cases fuel with
  | zero => rfl
  | succ f => rfl

theorem packGo_step {cfg : LayoutCfg} {orientation : String}
    {cols fuel : Nat} {i0 : CompInfo} {l2 : List CompInfo} {off : ℚ}
    {pos : List (Int × ℚ × ℚ)} :
    packGo cfg orientation cols (fuel + 1) (i0 :: l2) off pos =
      packGo cfg orientation cols fuel ((i0 :: l2).drop cols)
        (off + ((maxList (((i0 :: l2).take cols).map (fun i => i.h))
            (cfg.node_h + cfg.v_gap) + cfg.v_gap * 3 : Int) : ℚ))
        (((i0 :: l2).take cols).foldl
          (fun acc info =>
            (acc.1 + ((info.w + cfg.h_gap * 4 : Int) : ℚ),
             acc.2 ++ placeTreeComp cfg orientation off acc.1 info))
          ((0 : ℚ), pos)).2 := rfl

theorem packRow_keys (cfg : LayoutCfg) (orientation : String) (off : ℚ) :
    ∀ (row : List CompInfo) (acc : ℚ × List (Int × ℚ × ℚ)),
      (∀ info ∈ row, (info.layersA.map (fun p => p.1)).Nodup) →
      (((row.foldl (fun acc info =>
          (acc.1 + ((info.w + cfg.h_gap * 4 : Int) : ℚ),
           acc.2 ++ placeTreeComp cfg orientation off acc.1 info))
          acc).2).map (fun p => p.1)).Perm
      (acc.2.map (fun p => p.1) ++
        (row.map (fun info => lsEntries info.layersA)).flatten) := by
  intro row
  induction row with
  | nil =>
    intro acc _
    simp only [List.foldl_nil, List.map_nil, List.flatten_nil,
      List.append_nil]
    exact List.Perm.refl _
  | cons info row ih =>
    intro acc hN
    rw [List.foldl_cons]
    refine (ih _ (fun i hi => hN i (List.mem_cons_of_mem info hi))).trans ?_
    rw [List.map_cons, List.flatten_cons, List.map_append,
      List.append_assoc]
    refine List.Perm.append_left _ ?_
    refine List.Perm.append ?_ (List.Perm.refl _)
    exact placeTreeComp_keys cfg orientation off acc.1 info
      (hN info (List.mem_cons_self info row))

theorem packGo_keys (cfg : LayoutCfg) (orientation : String) (cols : Nat)
    (hcols : 1 ≤ cols) : ∀ (fuel : Nat) (l : List CompInfo) (off : ℚ)
      (pos : List (Int × ℚ × ℚ)),
    l.length ≤ fuel →
    (∀ info ∈ l, (info.layersA.map (fun p => p.1)).Nodup) →
    ((packGo cfg orientation cols fuel l off pos).map (fun p => p.1)).Perm
      (pos.map (fun p => p.1) ++
        (l.map (fun info => lsEntries info.layersA)).flatten) := by
  intro fuel
  induction fuel with
  | zero =>
    intro l off pos hl _
    have hnil : l = [] := List.length_eq_zero.mp (Nat.le_zero.mp hl)
    subst hnil
    rw [packGo_nil]
    simp only [List.map_nil, List.flatten_nil, List.append_nil]
    exact List.Perm.refl _
  | succ fuel ih =>
    intro l off pos hl hN
    cases l with
    | nil =>
      rw [packGo_nil]
      simp only [List.map_nil, List.flatten_nil, List.append_nil]
      exact List.Perm.refl _
    | cons i0 l2 =>
      rw [packGo_step]
      have hlen : ((i0 :: l2).drop cols).length ≤ fuel := by
        rw [List.length_drop]
        simp only [List.length_cons] at hl ⊢
        omega
      refine (ih _ _ _ hlen
        (fun i hi => hN i (List.mem_of_mem_drop hi))).trans ?_
      have hrow := packRow_keys cfg orientation off ((i0 :: l2).take cols)
        ((0 : ℚ), pos) (fun i hi => hN i (List.mem_of_mem_take hi))
      refine (List.Perm.append_right _ hrow).trans ?_
      rw [List.append_assoc, ← List.flatten_append, ← List.map_append,
        List.take_append_drop]

theorem calcCompInfo_layersA (cfg : LayoutCfg)
    (ls : List (Int × List Int)) : (calcCompInfo cfg ls).layersA = ls := by
  unfold calcCompInfo
  by_cases h : ls = []
  · rw [if_pos h]
  · rw [if_neg h]

/-- C3, counterexample. The layered layout is not total: a reply row
whose `next` points at itself exists in the input but receives no
position (the layering seeds only parentless NPC lines, so the position
dict stays empty). -/
theorem C3_counterexample :
    hasIndex [mkRow 1 (some 1)] 1 = true ∧
    calculateLayout {} [mkRow 1 (some 1)] = [] := by
  constructor
  · decide
  · decide

/-- C3, amended. `calculate_tree_layout` *is* total for every
configuration, both orientations and every row list: its output contains
exactly one position entry for every input node index. `calculate_layout`
is not (see the counterexample): nodes unreachable from the parentless
NPC seeds are missing from its output. -/
theorem C3_amended_totality (cfg : LayoutCfg) (orientation : String)
    (rows : List DlgRow) :
    (∀ i : Int,
        i ∈ (calculateTreeLayout cfg orientation rows).map (fun p => p.1) ↔
          i ∈ rows.map (fun r => r.index)) ∧
    ((calculateTreeLayout cfg orientation rows).map (fun p => p.1)).Nodup := by
  by_cases hrows : rows = []
  · subst hrows
    constructor
    · intro i
      constructor
      · intro hi; simp [calculateTreeLayout] at hi
      · intro hi; simp at hi
    · simp [calculateTreeLayout]
  · have hval : calculateTreeLayout cfg orientation rows =
        packGo cfg orientation
          (max 1 (roundSqrt ((((treeComponents rows).1.map
            (fun c => treeBaryPhase rows c.2)).map
              (fun ls => calcCompInfo cfg ls)).length)))
          ((((treeComponents rows).1.map
            (fun c => treeBaryPhase rows c.2)).map
              (fun ls => calcCompInfo cfg ls)).length + 1)
          (((treeComponents rows).1.map
            (fun c => treeBaryPhase rows c.2)).map
              (fun ls => calcCompInfo cfg ls))
          0 [] := by
      unfold calculateTreeLayout
      rw [if_neg hrows]
    have hNinfo : ∀ info ∈ ((treeComponents rows).1.map
        (fun c => treeBaryPhase rows c.2)).map
          (fun ls => calcCompInfo cfg ls),
        (info.layersA.map (fun p => p.1)).Nodup := by
      intro info hinfo
      obtain ⟨ls, hls, rfl⟩ := List.mem_map.mp hinfo
      obtain ⟨c, hc, rfl⟩ := List.mem_map.mp hls
      rw [calcCompInfo_layersA,
        treeBaryPhase_keys rows c.2 (treeComponents_ls rows c hc).1]
      exact (treeComponents_ls rows c hc).1
    have hperm : ((calculateTreeLayout cfg orientation rows).map
        (fun p => p.1)).Perm (treeComponents rows).2 := by
      rw [hval]
      refine (packGo_keys cfg orientation _ (le_max_left 1 _) _ _ 0 []
        (by omega) hNinfo).trans ?_
      simp only [List.map_nil, List.nil_append, List.map_map]
      have hpt : List.Forall₂ List.Perm
          ((treeComponents rows).1.map ((fun info => lsEntries info.layersA) ∘
            (fun ls => calcCompInfo cfg ls) ∘ (fun c => treeBaryPhase rows c.2)))
          ((treeComponents rows).1.map (fun c => c.1)) := by
        rw [List.forall₂_map_left_iff, List.forall₂_map_right_iff]
        refine List.forall₂_same.mpr ?_
        intro c hc
        simp only [Function.comp_apply]
        rw [calcCompInfo_layersA]
        exact (treeBaryPhase_entries rows c.2
          (treeComponents_ls rows c hc).1).trans
          (treeComponents_ls rows c hc).2
      refine (flatten_perm_of_forall hpt).trans ?_
      rw [← treeComponents_flatten]
    constructor
    · intro i
      rw [hperm.mem_iff]
      constructor
      · intro hi
        have := treeComponents_sub rows i hi
        rw [idxUniverse, List.mem_dedup] at this
        exact this
      · exact treeComponents_covers rows i
    · exact hperm.nodup_iff.mpr (treeComponents_nodup rows)

/-! ## C4 — overlap of the computed positions -/

theorem foldl_mem_aux (g : Int → List (Int × ℚ × ℚ)) (w : Int → Int) :
    ∀ (levels : List Int) (acc : List (Int × ℚ × ℚ) × Int)
      (p : Int × ℚ × ℚ),
      (p ∈ (levels.foldl
          (fun acc lvl => (acc.1 ++ g lvl, max acc.2 (w lvl))) acc).1 ↔
        p ∈ acc.1 ∨ ∃ lvl ∈ levels, p ∈ g lvl) := by
  intro levels
  induction levels with
  | nil =>
    intro acc p
    simp
  | cons lvl rest ih =>
    intro acc p
    rw [List.foldl_cons, ih]
    constructor
    · rintro (hp | ⟨l2, hl2, hp⟩)
      · rcases List.mem_append.mp hp with hp | hp
        · exact Or.inl hp
        · exact Or.inr ⟨lvl, List.mem_cons_self _ _, hp⟩
      · exact Or.inr ⟨l2, List.mem_cons_of_mem lvl hl2, hp⟩
    · rintro (hp | ⟨l2, hl2, hp⟩)
      · exact Or.inl (List.mem_append.mpr (Or.inl hp))
      · rcases List.mem_cons.mp hl2 with rfl | hl2
        · exact Or.inl (List.mem_append.mpr (Or.inr hp))
        · exact Or.inr ⟨l2, hl2, hp⟩

/-- Within one component of the layered layout the positions never
overlap: two entries of one `placeComp` call with distinct indices on
the same layer have x-coordinates at least `node_w + h_gap` apart, and
on different layers y-coordinates at least `node_h + v_gap` apart. -/
theorem placeComp_sep (cfg : LayoutCfg)
    (fl : List (Int × List Int)) (ntl : List (Int × Int)) (off : ℚ)
    (comp : List Int) (p q : Int × ℚ × ℚ)
    (hp : p ∈ (placeComp cfg fl ntl off comp).1)
    (hq : q ∈ (placeComp cfg fl ntl off comp).1)
    (hne : p.1 ≠ q.1) :
    ((cfg.node_w + cfg.h_gap : Int) : ℚ) ≤ |p.2.1 - q.2.1| ∨
    ((cfg.node_h + cfg.v_gap : Int) : ℚ) ≤ |p.2.2 - q.2.2| := by
  have hmem : ∀ r : Int × ℚ × ℚ,
      r ∈ (placeComp cfg fl ntl off comp).1 ↔
      r ∈ ([] : List (Int × ℚ × ℚ)) ∨
      ∃ lvl ∈ compLevels ntl comp,
        r ∈ ((layersGet fl lvl).filter
            (fun n => n ∈ compLayerNodes ntl comp lvl)).enum.map
          (fun e => (e.2,
            off - (((((layersGet fl lvl).filter
              (fun n => n ∈ compLayerNodes ntl comp lvl)).length : Int) *
              (cfg.node_w + cfg.h_gap) : Int) : ℚ) / 2 +
              (e.1 : ℚ) * ((cfg.node_w + cfg.h_gap : Int) : ℚ),
            (((lvl - compMinLevel ntl comp) * (cfg.node_h + cfg.v_gap) :
              Int) : ℚ))) :=
    fun r => foldl_mem_aux _ _ _ _ r
  rw [hmem] at hp hq
  rcases hp with hp | ⟨lvl1, hl1, hp⟩
  · exact absurd hp (List.not_mem_nil p)
  rcases hq with hq | ⟨lvl2, hl2, hq⟩
  · exact absurd hq (List.not_mem_nil q)
  obtain ⟨e1, he1, hpe⟩ := List.mem_map.mp hp
  obtain ⟨e2, he2, hqe⟩ := List.mem_map.mp hq
  have hp1 : p.1 = e1.2 := by rw [← hpe]
  have hq1 : q.1 = e2.2 := by rw [← hqe]
  have hpx : p.2.1 = off - (((((layersGet fl lvl1).filter
      (fun n => n ∈ compLayerNodes ntl comp lvl1)).length : Int) *
      (cfg.node_w + cfg.h_gap) : Int) : ℚ) / 2 +
      (e1.1 : ℚ) * ((cfg.node_w + cfg.h_gap : Int) : ℚ) := by rw [← hpe]
  have hqx : q.2.1 = off - (((((layersGet fl lvl2).filter
      (fun n => n ∈ compLayerNodes ntl comp lvl2)).length : Int) *
      (cfg.node_w + cfg.h_gap) : Int) : ℚ) / 2 +
      (e2.1 : ℚ) * ((cfg.node_w + cfg.h_gap : Int) : ℚ) := by rw [← hqe]
  have hpy : p.2.2 = (((lvl1 - compMinLevel ntl comp) *
      (cfg.node_h + cfg.v_gap) : Int) : ℚ) := by rw [← hpe]
  have hqy : q.2.2 = (((lvl2 - compMinLevel ntl comp) *
      (cfg.node_h + cfg.v_gap) : Int) : ℚ) := by rw [← hqe]
  by_cases hlv : lvl1 = lvl2
  · subst hlv
    left
    have hne2 : e1.2 ≠ e2.2 := by rw [← hp1, ← hq1]; exact hne
    have hij : e1.1 ≠ e2.1 := by
      intro hc
      rw [List.mem_enum_iff_getElem?] at he1 he2
      rw [← hc] at he2
      rw [he1] at he2
      exact hne2 (Option.some.inj he2)
    have hdiff : p.2.1 - q.2.1 =
        ((e1.1 : ℚ) - (e2.1 : ℚ)) *
          ((cfg.node_w + cfg.h_gap : Int) : ℚ) := by
      rw [hpx, hqx]; ring
    have h1 : (1 : ℚ) ≤ |(e1.1 : ℚ) - (e2.1 : ℚ)| := by
      have heq : (e1.1 : ℚ) - (e2.1 : ℚ) =
          (((e1.1 : Int) - (e2.1 : Int) : Int) : ℚ) := by push_cast; ring
      rw [heq, ← Int.cast_abs]
      have h2 : (1 : Int) ≤ |(e1.1 : Int) - (e2.1 : Int)| := by
        refine Int.one_le_abs (sub_ne_zero.mpr ?_)
        exact_mod_cast hij
      exact_mod_cast h2
    calc ((cfg.node_w + cfg.h_gap : Int) : ℚ)
        ≤ |((cfg.node_w + cfg.h_gap : Int) : ℚ)| := le_abs_self _
      _ ≤ |(e1.1 : ℚ) - (e2.1 : ℚ)| *
            |((cfg.node_w + cfg.h_gap : Int) : ℚ)| :=
          le_mul_of_one_le_left (abs_nonneg _) h1
      _ = |((e1.1 : ℚ) - (e2.1 : ℚ)) *
            ((cfg.node_w + cfg.h_gap : Int) : ℚ)| := (abs_mul _ _).symm
      _ = |p.2.1 - q.2.1| := by rw [hdiff]
  · right
    have hdiff : p.2.2 - q.2.2 =
        ((lvl1 - lvl2 : Int) : ℚ) *
          ((cfg.node_h + cfg.v_gap : Int) : ℚ) := by
      rw [hpy, hqy]; push_cast; ring
    have h1 : (1 : ℚ) ≤ |((lvl1 - lvl2 : Int) : ℚ)| := by
      rw [← Int.cast_abs]
      have h2 : (1 : Int) ≤ |lvl1 - lvl2| :=
        Int.one_le_abs (sub_ne_zero.mpr hlv)
      exact_mod_cast h2
    calc ((cfg.node_h + cfg.v_gap : Int) : ℚ)
        ≤ |((cfg.node_h + cfg.v_gap : Int) : ℚ)| := le_abs_self _
      _ ≤ |((lvl1 - lvl2 : Int) : ℚ)| *
            |((cfg.node_h + cfg.v_gap : Int) : ℚ)| :=
          le_mul_of_one_le_left (abs_nonneg _) h1
      _ = |((lvl1 - lvl2 : Int) : ℚ) *
            ((cfg.node_h + cfg.v_gap : Int) : ℚ)| := (abs_mul _ _).symm
      _ = |p.2.2 - q.2.2| := by rw [hdiff]

/-! The vertical forest layout is globally non-overlapping: inside one
component the per-layer spacing separates entries; inside one grid row
the `comp_w + h_gap*4` advance separates components along x; between
grid rows the `row_height + v_gap*3` advance separates them along y. -/

theorem foldl_max_le_base : ∀ (ys : List Int) (a : Int),
    a ≤ ys.foldl max a := by
  intro ys
  induction ys with
  | nil => intro a; exact le_rfl
  | cons y ys ih => intro a; exact le_trans (le_max_left a y) (ih (max a y))

theorem foldl_max_mem : ∀ (ys : List Int) (a x : Int), x ∈ ys →
    x ≤ ys.foldl max a := by
  intro ys
  induction ys with
  | nil => intro a x hx; exact absurd hx (List.not_mem_nil x)
  | cons y ys ih =>
    intro a x hx
    rcases List.mem_cons.mp hx with rfl | hx
    · exact le_trans (le_max_right a x) (foldl_max_le_base ys (max a x))
    · exact ih (max a y) x hx

theorem maxList_mem_le {l : List Int} {x : Int} (d : Int) (hx : x ∈ l) :
    x ≤ maxList l d := by
  cases l with
  | nil => exact absurd hx (List.not_mem_nil x)
  | cons y ys =>
    rcases List.mem_cons.mp hx with rfl | hx
    · exact foldl_max_le_base ys x
    · exact foldl_max_mem ys y x hx

theorem foldl_min_le_base : ∀ (ys : List Int) (a : Int),
    ys.foldl min a ≤ a := by
  intro ys
  induction ys with
  | nil => intro a; exact le_rfl
  | cons y ys ih => intro a; exact le_trans (ih (min a y)) (min_le_left a y)

theorem foldl_min_mem : ∀ (ys : List Int) (a x : Int), x ∈ ys →
    ys.foldl min a ≤ x := by
  intro ys
  induction ys with
  | nil => intro a x hx; exact absurd hx (List.not_mem_nil x)
  | cons y ys ih =>
    intro a x hx
    rcases List.mem_cons.mp hx with rfl | hx
    · exact le_trans (foldl_min_le_base ys (min a x)) (min_le_right a x)
    · exact ih (min a y) x hx

theorem minList_le_mem {l : List Int} {x : Int} (d : Int) (hx : x ∈ l) :
    minList l d ≤ x := by
  cases l with
  | nil => exact absurd hx (List.not_mem_nil x)
  | cons y ys =>
    rcases List.mem_cons.mp hx with rfl | hx
    · exact foldl_min_le_base ys x
    · exact foldl_min_mem ys y x hx

theorem maxList_nonneg {l : List Int} (d : Int) (hd : 0 ≤ d)
    (h : ∀ x ∈ l, 0 ≤ x) : 0 ≤ maxList l d := by
  cases l with
  | nil => exact hd
  | cons y ys =>
    exact le_trans (h y (List.mem_cons_self y ys)) (foldl_max_le_base ys y)

theorem calcCompInfo_w_of_ne (cfg : LayoutCfg)
    {ls : List (Int × List Int)} (h : ¬ ls = []) :
    (calcCompInfo cfg ls).w =
      maxList (ls.map (fun p => (p.2.length : Int))) 0 *
        (cfg.node_w + cfg.h_gap) := by
  unfold calcCompInfo
  rw [if_neg h]

theorem calcCompInfo_h_of_ne (cfg : LayoutCfg)
    {ls : List (Int × List Int)} (h : ¬ ls = []) :
    (calcCompInfo cfg ls).h =
      (maxList (ls.map (fun p => p.1)) 0 -
        minList (ls.map (fun p => p.1)) 0 + 1) *
        (cfg.node_h + cfg.v_gap) := by
  unfold calcCompInfo
  rw [if_neg h]

theorem calcCompInfo_w_nonneg (cfg : LayoutCfg)
    (hwg : 0 ≤ cfg.node_w + cfg.h_gap) (ls : List (Int × List Int)) :
    0 ≤ (calcCompInfo cfg ls).w := by
  by_cases h : ls = []
  · subst h; exact hwg
  · rw [calcCompInfo_w_of_ne cfg h]
    refine mul_nonneg (maxList_nonneg 0 le_rfl ?_) hwg
    intro x hx
    obtain ⟨p, hp, rfl⟩ := List.mem_map.mp hx
    exact Int.natCast_nonneg _

theorem calcCompInfo_h_nonneg (cfg : LayoutCfg)
    (hvg : 0 ≤ cfg.node_h + cfg.v_gap) (ls : List (Int × List Int)) :
    0 ≤ (calcCompInfo cfg ls).h := by
  by_cases h : ls = []
  · subst h; exact hvg
  · rw [calcCompInfo_h_of_ne cfg h]
    refine mul_nonneg ?_ hvg
    obtain ⟨k, hk⟩ : ∃ k, k ∈ ls.map (fun p => p.1) := by
      cases hm : ls with
      | nil => exact absurd hm h
      | cons p ps =>
        refine ⟨p.1, ?_⟩
        exact List.mem_map_of_mem _ (List.mem_cons_self p ps)
    have h1 := minList_le_mem 0 hk
    have h2 := maxList_mem_le 0 hk
    omega

theorem layersGet_len_le {ls : List (Int × List Int)} (h : ¬ ls = [])
    (lvl : Int) :
    ((layersGet ls lvl).length : Int) ≤
      maxList (ls.map (fun p => (p.2.length : Int))) 0 := by
  have hnn : (0 : Int) ≤ maxList (ls.map (fun p => (p.2.length : Int))) 0 := by
    refine maxList_nonneg 0 le_rfl ?_
    intro x hx
    obtain ⟨p, hp, rfl⟩ := List.mem_map.mp hx
    exact Int.natCast_nonneg _
  unfold layersGet
  cases hf : ls.find? (fun p => decide (p.1 = lvl)) with
  | none => simpa using hnn
  | some p =>
    exact maxList_mem_le 0
      (List.mem_map_of_mem _ (List.mem_of_find?_eq_some hf))

theorem foldl_mem_aux3 (g : Int → List (Int × ℚ × ℚ)) :
    ∀ (levels : List Int) (acc : List (Int × ℚ × ℚ)) (p : Int × ℚ × ℚ),
      (p ∈ levels.foldl (fun acc lvl => acc ++ g lvl) acc ↔
        p ∈ acc ∨ ∃ lvl ∈ levels, p ∈ g lvl) := by
  intro levels
  induction levels with
  | nil => intro acc p; simp
  | cons lvl rest ih =>
    intro acc p
    rw [List.foldl_cons, ih]
    constructor
    · rintro (hp | ⟨l2, hl2, hp⟩)
      · rcases List.mem_append.mp hp with hp | hp
        · exact Or.inl hp
        · exact Or.inr ⟨lvl, List.mem_cons_self _ _, hp⟩
      · exact Or.inr ⟨l2, List.mem_cons_of_mem lvl hl2, hp⟩
    · rintro (hp | ⟨l2, hl2, hp⟩)
      · exact Or.inl (List.mem_append.mpr (Or.inl hp))
      · rcases List.mem_cons.mp hl2 with rfl | hl2
        · exact Or.inl (List.mem_append.mpr (Or.inr hp))
        · exact Or.inr ⟨l2, hl2, hp⟩

theorem placeTreeComp_mem (cfg : LayoutCfg) (orientation : String)
    (off cur : ℚ) (info : CompInfo) (r : Int × ℚ × ℚ) :
    r ∈ placeTreeComp cfg orientation off cur info ↔
    r ∈ ([] : List (Int × ℚ × ℚ)) ∨
    ∃ lvl ∈ sortAsc (info.layersA.map (fun p => p.1)),
      r ∈ (layersGet info.layersA lvl).enum.map (fun e =>
        if orientation = "vertical"
        then (e.2,
          cur + (((info.w - ((layersGet info.layersA lvl).length : Int) *
            (cfg.node_w + cfg.h_gap) : Int) : ℚ)) / 2 +
            (e.1 : ℚ) * ((cfg.node_w + cfg.h_gap : Int) : ℚ),
          off + (((lvl - (if info.layersA = [] then 0
            else minList (info.layersA.map (fun p => p.1)) 0)) *
            (cfg.node_h + cfg.v_gap) : Int) : ℚ))
        else (e.2,
          off + (((lvl - (if info.layersA = [] then 0
            else minList (info.layersA.map (fun p => p.1)) 0)) *
            (cfg.node_h + cfg.v_gap) : Int) : ℚ),
          cur + (((info.w - ((layersGet info.layersA lvl).length : Int) *
            (cfg.node_w + cfg.h_gap) : Int) : ℚ)) / 2 +
            (e.1 : ℚ) * ((cfg.node_w + cfg.h_gap : Int) : ℚ))) :=
  foldl_mem_aux3 _ _ _ r

/-- Two entries of one vertical `placeTreeComp` call with distinct
indices are separated by a full slot along x or along y. -/
theorem placeTreeComp_sep (cfg : LayoutCfg) (off cur : ℚ)
    (info : CompInfo) (p q : Int × ℚ × ℚ)
    (hp : p ∈ placeTreeComp cfg "vertical" off cur info)
    (hq : q ∈ placeTreeComp cfg "vertical" off cur info)
    (hne : p.1 ≠ q.1) :
    ((cfg.node_w + cfg.h_gap : Int) : ℚ) ≤ |p.2.1 - q.2.1| ∨
    ((cfg.node_h + cfg.v_gap : Int) : ℚ) ≤ |p.2.2 - q.2.2| := by
  rw [placeTreeComp_mem] at hp hq
  rcases hp with hp | ⟨lvl1, hl1, hp⟩
  · exact absurd hp (List.not_mem_nil p)
  rcases hq with hq | ⟨lvl2, hl2, hq⟩
  · exact absurd hq (List.not_mem_nil q)
  obtain ⟨e1, he1, hpe⟩ := List.mem_map.mp hp
  obtain ⟨e2, he2, hqe⟩ := List.mem_map.mp hq
  rw [if_pos rfl] at hpe hqe
  have hp1 : p.1 = e1.2 := by rw [← hpe]
  have hq1 : q.1 = e2.2 := by rw [← hqe]
  have hpx : p.2.1 = cur + (((info.w -
      ((layersGet info.layersA lvl1).length : Int) *
      (cfg.node_w + cfg.h_gap) : Int) : ℚ)) / 2 +
      (e1.1 : ℚ) * ((cfg.node_w + cfg.h_gap : Int) : ℚ) := by rw [← hpe]
  have hqx : q.2.1 = cur + (((info.w -
      ((layersGet info.layersA lvl2).length : Int) *
      (cfg.node_w + cfg.h_gap) : Int) : ℚ)) / 2 +
      (e2.1 : ℚ) * ((cfg.node_w + cfg.h_gap : Int) : ℚ) := by rw [← hqe]
  have hpy : p.2.2 = off + (((lvl1 - (if info.layersA = [] then 0
      else minList (info.layersA.map (fun p => p.1)) 0)) *
      (cfg.node_h + cfg.v_gap) : Int) : ℚ) := by rw [← hpe]
  have hqy : q.2.2 = off + (((lvl2 - (if info.layersA = [] then 0
      else minList (info.layersA.map (fun p => p.1)) 0)) *
      (cfg.node_h + cfg.v_gap) : Int) : ℚ) := by rw [← hqe]
  by_cases hlv : lvl1 = lvl2
  · subst hlv
    left
    have hne2 : e1.2 ≠ e2.2 := by rw [← hp1, ← hq1]; exact hne
    have hij : e1.1 ≠ e2.1 := by
      intro hc
      rw [List.mem_enum_iff_getElem?] at he1 he2
      rw [← hc] at he2
      rw [he1] at he2
      exact hne2 (Option.some.inj he2)
    have hdiff : p.2.1 - q.2.1 =
        ((e1.1 : ℚ) - (e2.1 : ℚ)) *
          ((cfg.node_w + cfg.h_gap : Int) : ℚ) := by
      rw [hpx, hqx]; ring
    have h1 : (1 : ℚ) ≤ |(e1.1 : ℚ) - (e2.1 : ℚ)| := by
      have heq : (e1.1 : ℚ) - (e2.1 : ℚ) =
          (((e1.1 : Int) - (e2.1 : Int) : Int) : ℚ) := by push_cast; ring
      rw [heq, ← Int.cast_abs]
      have h2 : (1 : Int) ≤ |(e1.1 : Int) - (e2.1 : Int)| := by
        refine Int.one_le_abs (sub_ne_zero.mpr ?_)
        exact_mod_cast hij
      exact_mod_cast h2
    calc ((cfg.node_w + cfg.h_gap : Int) : ℚ)
        ≤ |((cfg.node_w + cfg.h_gap : Int) : ℚ)| := le_abs_self _
      _ ≤ |(e1.1 : ℚ) - (e2.1 : ℚ)| *
            |((cfg.node_w + cfg.h_gap : Int) : ℚ)| :=
          le_mul_of_one_le_left (abs_nonneg _) h1
      _ = |((e1.1 : ℚ) - (e2.1 : ℚ)) *
            ((cfg.node_w + cfg.h_gap : Int) : ℚ)| := (abs_mul _ _).symm
      _ = |p.2.1 - q.2.1| := by rw [hdiff]
  · right
    have hdiff : p.2.2 - q.2.2 =
        ((lvl1 - lvl2 : Int) : ℚ) *
          ((cfg.node_h + cfg.v_gap : Int) : ℚ) := by
      rw [hpy, hqy]; push_cast; ring
    have h1 : (1 : ℚ) ≤ |((lvl1 - lvl2 : Int) : ℚ)| := by
      rw [← Int.cast_abs]
      have h2 : (1 : Int) ≤ |lvl1 - lvl2| :=
        Int.one_le_abs (sub_ne_zero.mpr hlv)
      exact_mod_cast h2
    calc ((cfg.node_h + cfg.v_gap : Int) : ℚ)
        ≤ |((cfg.node_h + cfg.v_gap : Int) : ℚ)| := le_abs_self _
      _ ≤ |((lvl1 - lvl2 : Int) : ℚ)| *
            |((cfg.node_h + cfg.v_gap : Int) : ℚ)| :=
          le_mul_of_one_le_left (abs_nonneg _) h1
      _ = |((lvl1 - lvl2 : Int) : ℚ) *
            ((cfg.node_h + cfg.v_gap : Int) : ℚ)| := (abs_mul _ _).symm
      _ = |p.2.2 - q.2.2| := by rw [hdiff]

/-- Bounding box of one vertical `placeTreeComp` call on a
`calcCompInfo` component. -/
theorem placeTreeComp_bounds (cfg : LayoutCfg)
    (hwg : 0 ≤ cfg.node_w + cfg.h_gap) (hvg : 0 ≤ cfg.node_h + cfg.v_gap)
    (off cur : ℚ) (ls : List (Int × List Int)) (r : Int × ℚ × ℚ)
    (hr : r ∈ placeTreeComp cfg "vertical" off cur (calcCompInfo cfg ls)) :
    cur ≤ r.2.1 ∧
    r.2.1 ≤ cur +
      (((calcCompInfo cfg ls).w - (cfg.node_w + cfg.h_gap) : Int) : ℚ) ∧
    off ≤ r.2.2 ∧
    r.2.2 ≤ off +
      (((calcCompInfo cfg ls).h - (cfg.node_h + cfg.v_gap) : Int) : ℚ) := by
  rw [placeTreeComp_mem] at hr
  rcases hr with hr | ⟨lvl, hlvl, hr⟩
  · exact absurd hr (List.not_mem_nil r)
  obtain ⟨e, he, hre⟩ := List.mem_map.mp hr
  rw [if_pos rfl] at hre
  rw [calcCompInfo_layersA] at hlvl he hre
  by_cases hls : ls = []
  · subst hls
    simp [sortAsc] at hlvl
  have hkey : lvl ∈ ls.map (fun p => p.1) := (sortAsc_perm _).mem_iff.mp hlvl
  have hx : r.2.1 = cur + (((calcCompInfo cfg ls).w -
      ((layersGet ls lvl).length : Int) *
      (cfg.node_w + cfg.h_gap) : Int) : ℚ) / 2 +
      (e.1 : ℚ) * ((cfg.node_w + cfg.h_gap : Int) : ℚ) := by
    rw [← hre]
  have hy0 : r.2.2 = off + (((lvl - (if ls = [] then 0
      else minList (ls.map (fun p => p.1)) 0)) *
      (cfg.node_h + cfg.v_gap) : Int) : ℚ) := by rw [← hre]
  rw [if_neg hls] at hy0
  have hlen := layersGet_len_le hls lvl
  have hmin := minList_le_mem 0 hkey
  have hmax := maxList_mem_le 0 hkey
  have hspan : ((layersGet ls lvl).length : Int) *
      (cfg.node_w + cfg.h_gap) ≤ (calcCompInfo cfg ls).w := by
    rw [calcCompInfo_w_of_ne cfg hls]
    exact mul_le_mul_of_nonneg_right hlen hwg
  have hspanQ : ((layersGet ls lvl).length : ℚ) *
      ((cfg.node_w + cfg.h_gap : Int) : ℚ) ≤
      ((calcCompInfo cfg ls).w : ℚ) := by
    exact_mod_cast hspan
  have hSQ : (0 : ℚ) ≤ ((cfg.node_w + cfg.h_gap : Int) : ℚ) := by
    exact_mod_cast hwg
  have hj : e.1 < (layersGet ls lvl).length := by
    rw [List.mem_enum_iff_getElem?] at he
    obtain ⟨hj2, h2⟩ := List.getElem?_eq_some.mp he
    exact hj2
  have hjQ : (e.1 : ℚ) + 1 ≤ ((layersGet ls lvl).length : ℚ) := by
    exact_mod_cast Nat.succ_le_of_lt hj
  have hxcast : (((calcCompInfo cfg ls).w -
      ((layersGet ls lvl).length : Int) *
      (cfg.node_w + cfg.h_gap) : Int) : ℚ) =
      ((calcCompInfo cfg ls).w : ℚ) -
        ((layersGet ls lvl).length : ℚ) *
          ((cfg.node_w + cfg.h_gap : Int) : ℚ) := by push_cast; ring
  refine ⟨?_, ?_, ?_, ?_⟩
  · rw [hx, hxcast]
    have t2 : (0 : ℚ) ≤ (e.1 : ℚ) * ((cfg.node_w + cfg.h_gap : Int) : ℚ) :=
      mul_nonneg (Nat.cast_nonneg _) hSQ
    linarith
  · rw [hx, hxcast]
    have hmul : (e.1 : ℚ) * ((cfg.node_w + cfg.h_gap : Int) : ℚ) ≤
        (((layersGet ls lvl).length : ℚ) - 1) *
          ((cfg.node_w + cfg.h_gap : Int) : ℚ) :=
      mul_le_mul_of_nonneg_right (by linarith) hSQ
    have hexp : (((layersGet ls lvl).length : ℚ) - 1) *
        ((cfg.node_w + cfg.h_gap : Int) : ℚ) =
        ((layersGet ls lvl).length : ℚ) *
          ((cfg.node_w + cfg.h_gap : Int) : ℚ) -
          ((cfg.node_w + cfg.h_gap : Int) : ℚ) := by ring
    have hgoalcast : (((calcCompInfo cfg ls).w -
        (cfg.node_w + cfg.h_gap) : Int) : ℚ) =
        ((calcCompInfo cfg ls).w : ℚ) -
          ((cfg.node_w + cfg.h_gap : Int) : ℚ) := by push_cast; ring
    rw [hgoalcast]
    linarith
  · rw [hy0]
    have hP : (0 : Int) ≤ (lvl - minList (ls.map (fun p => p.1)) 0) *
        (cfg.node_h + cfg.v_gap) :=
      mul_nonneg (by omega) hvg
    have hPQ : (0 : ℚ) ≤ (((lvl - minList (ls.map (fun p => p.1)) 0) *
        (cfg.node_h + cfg.v_gap) : Int) : ℚ) := by exact_mod_cast hP
    linarith
  · rw [hy0]
    have hI : (lvl - minList (ls.map (fun p => p.1)) 0) *
        (cfg.node_h + cfg.v_gap) ≤
        (calcCompInfo cfg ls).h - (cfg.node_h + cfg.v_gap) := by
      rw [calcCompInfo_h_of_ne cfg hls]
      have hd : lvl - minList (ls.map (fun p => p.1)) 0 ≤
          maxList (ls.map (fun p => p.1)) 0 -
            minList (ls.map (fun p => p.1)) 0 := by omega
      have hmul := mul_le_mul_of_nonneg_right hd hvg
      have hexp : (maxList (ls.map (fun p => p.1)) 0 -
          minList (ls.map (fun p => p.1)) 0 + 1) *
          (cfg.node_h + cfg.v_gap) - (cfg.node_h + cfg.v_gap) =
          (maxList (ls.map (fun p => p.1)) 0 -
            minList (ls.map (fun p => p.1)) 0) *
            (cfg.node_h + cfg.v_gap) := by ring
      linarith
    have hIQ : (((lvl - minList (ls.map (fun p => p.1)) 0) *
        (cfg.node_h + cfg.v_gap) : Int) : ℚ) ≤
        (((calcCompInfo cfg ls).h - (cfg.node_h + cfg.v_gap) : Int) : ℚ) := by
      exact_mod_cast hI
    linarith

/-- One grid row of the packer: separation and the bounding invariants
survive each component placement. -/
theorem packRow_sep (cfg : LayoutCfg)
    (hwg : 0 ≤ cfg.node_w + cfg.h_gap) (hvg : 0 ≤ cfg.node_h + cfg.v_gap)
    (hg : 0 ≤ cfg.h_gap) (off : ℚ) (H : Int) :
    ∀ (row : List CompInfo) (acc : ℚ × List (Int × ℚ × ℚ)),
    (∀ info ∈ row, ∃ ls, info = calcCompInfo cfg ls) →
    (∀ info ∈ row, info.h ≤ H) →
    (∀ p ∈ acc.2, ∀ q ∈ acc.2, p.1 ≠ q.1 →
      ((cfg.node_w + cfg.h_gap : Int) : ℚ) ≤ |p.2.1 - q.2.1| ∨
      ((cfg.node_h + cfg.v_gap : Int) : ℚ) ≤ |p.2.2 - q.2.2|) →
    (∀ r ∈ acc.2,
      r.2.2 ≤ off - ((cfg.node_h + cfg.v_gap : Int) : ℚ) ∨
      (r.2.1 ≤ acc.1 - ((cfg.node_w + cfg.h_gap : Int) : ℚ) ∧
       r.2.2 ≤ off + ((H - (cfg.node_h + cfg.v_gap) : Int) : ℚ))) →
    (∀ p ∈ (row.foldl (fun acc info =>
        (acc.1 + ((info.w + cfg.h_gap * 4 : Int) : ℚ),
         acc.2 ++ placeTreeComp cfg "vertical" off acc.1 info)) acc).2,
      ∀ q ∈ (row.foldl (fun acc info =>
        (acc.1 + ((info.w + cfg.h_gap * 4 : Int) : ℚ),
         acc.2 ++ placeTreeComp cfg "vertical" off acc.1 info)) acc).2,
      p.1 ≠ q.1 →
      ((cfg.node_w + cfg.h_gap : Int) : ℚ) ≤ |p.2.1 - q.2.1| ∨
      ((cfg.node_h + cfg.v_gap : Int) : ℚ) ≤ |p.2.2 - q.2.2|) ∧
    (∀ r ∈ (row.foldl (fun acc info =>
        (acc.1 + ((info.w + cfg.h_gap * 4 : Int) : ℚ),
         acc.2 ++ placeTreeComp cfg "vertical" off acc.1 info)) acc).2,
      r.2.2 ≤ off - ((cfg.node_h + cfg.v_gap : Int) : ℚ) ∨
      (r.2.1 ≤ (row.foldl (fun acc info =>
          (acc.1 + ((info.w + cfg.h_gap * 4 : Int) : ℚ),
           acc.2 ++ placeTreeComp cfg "vertical" off acc.1 info)) acc).1 -
          ((cfg.node_w + cfg.h_gap : Int) : ℚ) ∧
       r.2.2 ≤ off + ((H - (cfg.node_h + cfg.v_gap) : Int) : ℚ))) := by
  intro row
  induction row with
  | nil => intro acc _ _ hsep hinv; exact ⟨hsep, hinv⟩
  | cons info row ih =>
    intro acc hshape hH hsep hinv
    rw [List.foldl_cons]
    obtain ⟨ls, hinfo⟩ := hshape info (List.mem_cons_self info row)
    subst hinfo
    have hHls : (calcCompInfo cfg ls).h ≤ H :=
      hH _ (List.mem_cons_self _ row)
    have hWnn : 0 ≤ (calcCompInfo cfg ls).w := calcCompInfo_w_nonneg cfg hwg ls
    have hWQ : (0 : ℚ) ≤ ((calcCompInfo cfg ls).w : ℚ) := by
      exact_mod_cast hWnn
    have hgQ : (0 : ℚ) ≤ (cfg.h_gap : ℚ) := by exact_mod_cast hg
    have hstep : (((calcCompInfo cfg ls).w + cfg.h_gap * 4 : Int) : ℚ) =
        ((calcCompInfo cfg ls).w : ℚ) + (cfg.h_gap : ℚ) * 4 := by
      push_cast; ring
    have hE : ∀ r ∈ placeTreeComp cfg "vertical" off acc.1
          (calcCompInfo cfg ls),
        acc.1 ≤ r.2.1 ∧
        r.2.1 ≤ acc.1 + (((calcCompInfo cfg ls).w -
          (cfg.node_w + cfg.h_gap) : Int) : ℚ) ∧
        off ≤ r.2.2 ∧
        r.2.2 ≤ off + (((calcCompInfo cfg ls).h -
          (cfg.node_h + cfg.v_gap) : Int) : ℚ) :=
      fun r hr => placeTreeComp_bounds cfg hwg hvg off acc.1 ls r hr
    have hsep2 : ∀ p ∈ acc.2 ++ placeTreeComp cfg "vertical" off acc.1
          (calcCompInfo cfg ls),
        ∀ q ∈ acc.2 ++ placeTreeComp cfg "vertical" off acc.1
          (calcCompInfo cfg ls), p.1 ≠ q.1 →
        ((cfg.node_w + cfg.h_gap : Int) : ℚ) ≤ |p.2.1 - q.2.1| ∨
        ((cfg.node_h + cfg.v_gap : Int) : ℚ) ≤ |p.2.2 - q.2.2| := by
      intro p hp q hq hne
      rcases List.mem_append.mp hp with hp2 | hp2 <;>
        rcases List.mem_append.mp hq with hq2 | hq2
      · exact hsep p hp2 q hq2 hne
      · rcases hinv p hp2 with hpo | ⟨hpx, hpyH⟩
        · right
          have hqy := (hE q hq2).2.2.1
          have hd : ((cfg.node_h + cfg.v_gap : Int) : ℚ) ≤
              q.2.2 - p.2.2 := by linarith
          refine le_trans hd ?_
          rw [abs_sub_comm]
          exact le_abs_self _
        · left
          have hqx := (hE q hq2).1
          have hd : ((cfg.node_w + cfg.h_gap : Int) : ℚ) ≤
              q.2.1 - p.2.1 := by linarith
          refine le_trans hd ?_
          rw [abs_sub_comm]
          exact le_abs_self _
      · rcases hinv q hq2 with hqo | ⟨hqx, hqyH⟩
        · right
          have hpy := (hE p hp2).2.2.1
          have hd : ((cfg.node_h + cfg.v_gap : Int) : ℚ) ≤
              p.2.2 - q.2.2 := by linarith
          exact le_trans hd (le_abs_self _)
        · left
          have hpx := (hE p hp2).1
          have hd : ((cfg.node_w + cfg.h_gap : Int) : ℚ) ≤
              p.2.1 - q.2.1 := by linarith
          exact le_trans hd (le_abs_self _)
      · exact placeTreeComp_sep cfg off acc.1 _ p q hp2 hq2 hne
    have hinv2 : ∀ r ∈ acc.2 ++ placeTreeComp cfg "vertical" off acc.1
          (calcCompInfo cfg ls),
        r.2.2 ≤ off - ((cfg.node_h + cfg.v_gap : Int) : ℚ) ∨
        (r.2.1 ≤ acc.1 + (((calcCompInfo cfg ls).w +
            cfg.h_gap * 4 : Int) : ℚ) -
            ((cfg.node_w + cfg.h_gap : Int) : ℚ) ∧
         r.2.2 ≤ off + ((H - (cfg.node_h + cfg.v_gap) : Int) : ℚ)) := by
      intro r hr
      rcases List.mem_append.mp hr with hr2 | hr2
      · rcases hinv r hr2 with hro | ⟨hrx, hry⟩
        · exact Or.inl hro
        · refine Or.inr ⟨?_, hry⟩
          rw [hstep]
          linarith
      · right
        have hb := hE r hr2
        constructor
        · rw [hstep]
          have h2 := hb.2.1
          have hcast2 : (((calcCompInfo cfg ls).w -
              (cfg.node_w + cfg.h_gap) : Int) : ℚ) =
              ((calcCompInfo cfg ls).w : ℚ) -
                ((cfg.node_w + cfg.h_gap : Int) : ℚ) := by push_cast; ring
          rw [hcast2] at h2
          linarith
        · have h3 := hb.2.2.2
          have hmono : (((calcCompInfo cfg ls).h -
              (cfg.node_h + cfg.v_gap) : Int) : ℚ) ≤
              ((H - (cfg.node_h + cfg.v_gap) : Int) : ℚ) := by
            exact_mod_cast sub_le_sub_right hHls _
          linarith
    exact ih (acc.1 + (((calcCompInfo cfg ls).w + cfg.h_gap * 4 : Int) : ℚ),
        acc.2 ++ placeTreeComp cfg "vertical" off acc.1 (calcCompInfo cfg ls))
      (fun i hi => hshape i (List.mem_cons_of_mem _ hi))
      (fun i hi => hH i (List.mem_cons_of_mem _ hi)) hsep2 hinv2

theorem packGo_zero {cfg : LayoutCfg} {orientation : String} {cols : Nat}
    {i0 : CompInfo} {l2 : List CompInfo} {off : ℚ}
    {pos : List (Int × ℚ × ℚ)} :
    packGo cfg orientation cols 0 (i0 :: l2) off pos = pos := rfl

/-- Separation is preserved by the whole grid-packing loop. -/
theorem packGo_sep (cfg : LayoutCfg)
    (hwg : 0 ≤ cfg.node_w + cfg.h_gap) (hvg : 0 ≤ cfg.node_h + cfg.v_gap)
    (hg : 0 ≤ cfg.h_gap) (hv : 0 ≤ cfg.v_gap) (cols : Nat) :
    ∀ (fuel : Nat) (l : List CompInfo) (off : ℚ)
      (pos : List (Int × ℚ × ℚ)),
    (∀ info ∈ l, ∃ ls, info = calcCompInfo cfg ls) →
    (∀ p ∈ pos, ∀ q ∈ pos, p.1 ≠ q.1 →
      ((cfg.node_w + cfg.h_gap : Int) : ℚ) ≤ |p.2.1 - q.2.1| ∨
      ((cfg.node_h + cfg.v_gap : Int) : ℚ) ≤ |p.2.2 - q.2.2|) →
    (∀ r ∈ pos, r.2.2 ≤ off - ((cfg.node_h + cfg.v_gap : Int) : ℚ)) →
    ∀ p ∈ packGo cfg "vertical" cols fuel l off pos,
    ∀ q ∈ packGo cfg "vertical" cols fuel l off pos, p.1 ≠ q.1 →
    ((cfg.node_w + cfg.h_gap : Int) : ℚ) ≤ |p.2.1 - q.2.1| ∨
    ((cfg.node_h + cfg.v_gap : Int) : ℚ) ≤ |p.2.2 - q.2.2| := by
  intro fuel
  induction fuel with
  | zero =>
    intro l off pos hshape hsep hbound
    cases l with
    | nil => rw [packGo_nil]; exact hsep
    | cons i0 l2 => rw [packGo_zero]; exact hsep
  | succ fuel ih =>
    intro l off pos hshape hsep hbound
    cases l with
    | nil => rw [packGo_nil]; exact hsep
    | cons i0 l2 =>
      rw [packGo_step]
      have hrowH : ∀ i ∈ (i0 :: l2).take cols,
          i.h ≤ maxList (((i0 :: l2).take cols).map (fun i => i.h))
            (cfg.node_h + cfg.v_gap) :=
        fun i hi => maxList_mem_le _ (List.mem_map_of_mem _ hi)
      have hrow := packRow_sep cfg hwg hvg hg off
        (maxList (((i0 :: l2).take cols).map (fun i => i.h))
          (cfg.node_h + cfg.v_gap))
        ((i0 :: l2).take cols) ((0 : ℚ), pos)
        (fun i hi => hshape i (List.mem_of_mem_take hi))
        hrowH hsep (fun r hr => Or.inl (hbound r hr))
      have hHnn : 0 ≤ maxList (((i0 :: l2).take cols).map (fun i => i.h))
          (cfg.node_h + cfg.v_gap) := by
        refine maxList_nonneg _ hvg ?_
        intro x hx
        obtain ⟨i, hi, rfl⟩ := List.mem_map.mp hx
        obtain ⟨ls, rfl⟩ := hshape i (List.mem_of_mem_take hi)
        exact calcCompInfo_h_nonneg cfg hvg ls
      refine ih ((i0 :: l2).drop cols) _ _
        (fun i hi => hshape i (List.mem_of_mem_drop hi)) hrow.1 ?_
      intro r hr
      have hoffQ : (((maxList (((i0 :: l2).take cols).map (fun i => i.h))
          (cfg.node_h + cfg.v_gap) + cfg.v_gap * 3 : Int)) : ℚ) =
          ((maxList (((i0 :: l2).take cols).map (fun i => i.h))
            (cfg.node_h + cfg.v_gap) : Int) : ℚ) + (cfg.v_gap : ℚ) * 3 := by
        push_cast; ring
      have hHQ : (0 : ℚ) ≤ ((maxList (((i0 :: l2).take cols).map
          (fun i => i.h)) (cfg.node_h + cfg.v_gap) : Int) : ℚ) := by
        exact_mod_cast hHnn
      have hvQ : (0 : ℚ) ≤ (cfg.v_gap : ℚ) := by exact_mod_cast hv
      rcases hrow.2 r hr with hro | ⟨hrx, hry⟩
      · rw [hoffQ]
        linarith
      · rw [hoffQ]
        have hrycast : ((maxList (((i0 :: l2).take cols).map (fun i => i.h))
            (cfg.node_h + cfg.v_gap) - (cfg.node_h + cfg.v_gap) : Int) : ℚ) =
            ((maxList (((i0 :: l2).take cols).map (fun i => i.h))
              (cfg.node_h + cfg.v_gap) : Int) : ℚ) -
              ((cfg.node_h + cfg.v_gap : Int) : ℚ) := by push_cast; ring
        rw [hrycast] at hry
        linarith

/-- C4, amended. Positions can overlap, but only in two specific ways
(see the counterexample): the layered layout across components, and the
forest layout in the *horizontal* orientation. Otherwise the layouts
separate nodes by a full slot: within one component of the layered
layout, two entries with distinct indices are at least
`node_w + h_gap` apart in x or `node_h + v_gap` apart in y; and the
forest layout in the default *vertical* orientation is globally
non-overlapping with the same separations, for every configuration with
nonnegative dimensions and gaps and every row list. -/
theorem C4_amended_no_overlap (cfg : LayoutCfg)
    (hw : 0 ≤ cfg.node_w) (hh : 0 ≤ cfg.node_h)
    (hg : 0 ≤ cfg.h_gap) (hv : 0 ≤ cfg.v_gap) :
    (∀ (fl : List (Int × List Int)) (ntl : List (Int × Int)) (off : ℚ)
        (comp : List Int) (p q : Int × ℚ × ℚ),
      p ∈ (placeComp cfg fl ntl off comp).1 →
      q ∈ (placeComp cfg fl ntl off comp).1 → p.1 ≠ q.1 →
      ((cfg.node_w + cfg.h_gap : Int) : ℚ) ≤ |p.2.1 - q.2.1| ∨
      ((cfg.node_h + cfg.v_gap : Int) : ℚ) ≤ |p.2.2 - q.2.2|) ∧
    (∀ (rows : List DlgRow) (p q : Int × ℚ × ℚ),
      p ∈ calculateTreeLayout cfg "vertical" rows →
      q ∈ calculateTreeLayout cfg "vertical" rows → p.1 ≠ q.1 →
      ((cfg.node_w + cfg.h_gap : Int) : ℚ) ≤ |p.2.1 - q.2.1| ∨
      ((cfg.node_h + cfg.v_gap : Int) : ℚ) ≤ |p.2.2 - q.2.2|) := by
  have hwg : 0 ≤ cfg.node_w + cfg.h_gap := by omega
  have hvg : 0 ≤ cfg.node_h + cfg.v_gap := by omega
  constructor
  · exact fun fl ntl off comp p q hp hq hne =>
      placeComp_sep cfg fl ntl off comp p q hp hq hne
  · intro rows p q hp hq hne
    by_cases hrows : rows = []
    · subst hrows
      simp [calculateTreeLayout] at hp
    · have hval : calculateTreeLayout cfg "vertical" rows =
          packGo cfg "vertical"
            (max 1 (roundSqrt ((((treeComponents rows).1.map
              (fun c => treeBaryPhase rows c.2)).map
                (fun ls => calcCompInfo cfg ls)).length)))
            ((((treeComponents rows).1.map
              (fun c => treeBaryPhase rows c.2)).map
                (fun ls => calcCompInfo cfg ls)).length + 1)
            (((treeComponents rows).1.map
              (fun c => treeBaryPhase rows c.2)).map
                (fun ls => calcCompInfo cfg ls))
            0 [] := by
        unfold calculateTreeLayout
        rw [if_neg hrows]
      rw [hval] at hp hq
      refine packGo_sep cfg hwg hvg hg hv _ _ _ 0 [] ?_ ?_ ?_ p hp q hq hne
      · intro info hinfo
        obtain ⟨ls, hls, hinfo2⟩ := List.mem_map.mp hinfo
        exact ⟨ls, hinfo2.symm⟩
      · intro p2 hp2
        exact absurd hp2 (List.not_mem_nil p2)
      · intro r hr
        exact absurd hr (List.not_mem_nil r)

/-- Witness for C4 on a two-layer single component: node 1 at layer 0
and node 2 at layer 1 of the same component are vertically a full
`node_h + v_gap` slot apart. -/
theorem C4_amended_witness :
    (((({} : LayoutCfg).node_w + ({} : LayoutCfg).h_gap : Int) : ℚ) ≤
        |(((1 : Int), (-180 : ℚ), (0 : ℚ)) : Int × ℚ × ℚ).2.1 -
          (((2 : Int), (-180 : ℚ), (200 : ℚ)) : Int × ℚ × ℚ).2.1| ∨
      ((({} : LayoutCfg).node_h + ({} : LayoutCfg).v_gap : Int) : ℚ) ≤
        |(((1 : Int), (-180 : ℚ), (0 : ℚ)) : Int × ℚ × ℚ).2.2 -
          (((2 : Int), (-180 : ℚ), (200 : ℚ)) : Int × ℚ × ℚ).2.2|) :=
  (C4_amended_no_overlap {} (by decide) (by decide) (by decide)
      (by decide)).1
    [(0, [1]), (1, [2])] [(1, 0), (2, 1)] 0 [1, 2]
    ((1 : Int), (-180 : ℚ), (0 : ℚ)) ((2 : Int), (-180 : ℚ), (200 : ℚ))
    (by norm_num [placeComp, compLevels, compMinLevel, compLayerNodes,
      layersGet, sortAsc, insertAsc, List.enum, List.enumFrom])
    (by norm_num [placeComp, compLevels, compMinLevel, compLayerNodes,
      layersGet, sortAsc, insertAsc, List.enum, List.enumFrom])
    (by decide)

/-- The 6-row layered counterexample: a narrow component `{1}` and a
wide one `{2, 5, 3, 6, 4}` whose layer 0 holds three NPC lines. -/
def C4rows : List DlgRow :=
  [mkRow 1 none, mkRow 2 none, mkRow 5 (some 3), mkRow 3 none,
   mkRow 6 (some 4), mkRow 4 none]

/-- The 3-row forest counterexample for the horizontal orientation. -/
def C4treeRows : List DlgRow :=
  [mkRow 1 none, { mkRow 2 (some 3) with parent_npc := some 1 },
   mkRow 3 none]

/-- C4, counterexample. At the default configuration the layered layout
centers each component at its running offset, so the narrow component
`{1}` (node 1 at x = −180) and the wide layer 0 of the next component
(node 2 at x = 60) overlap: 240 < 300 = `node_w` with equal y. In the
horizontal forest layout consecutive layers are only
`node_h + v_gap = 200 < 300` apart along x, so parent 1 and child 2
overlap as well. -/
theorem C4_counterexample :
    ({} : LayoutCfg).node_w = 300 ∧ ({} : LayoutCfg).node_h = 90 ∧
    posFind (calculateLayout {} C4rows) 1 = some (-180, 0) ∧
    posFind (calculateLayout {} C4rows) 2 = some (60, 0) ∧
    |(-180 : ℚ) - 60| < (300 : ℚ) ∧ |(0 : ℚ) - 0| < (90 : ℚ) ∧
    posFind (calculateTreeLayout {} "horizontal" C4treeRows) 1 =
      some (0, 0) ∧
    posFind (calculateTreeLayout {} "horizontal" C4treeRows) 2 =
      some (200, 0) ∧
    |(0 : ℚ) - 200| < (300 : ℚ) := by
  have hsv : ¬(("horizontal" : String) = "vertical") := by decide
  refine ⟨rfl, rfl, ?_, ?_, by norm_num, by norm_num, ?_, ?_, by norm_num⟩
  · norm_num [calculateLayout, C4rows, mkRow, ensureParents,
      ensureParentsGo, buildComponents, buildComponentsGo, bfsGo,
      enqueueAll, childIndices, lookupRow, hasIndex, nodeToLayer, layerGo,
      layerFuel, layerSeeds, layersInit, layersGet, layersSet, insertAsc,
      sortAsc, insertStable, stableSortBy, baryNeighbors, baryValue,
      lookupQ, baryLevelPass, baryIteration, baryPhase,
      baryIterationCount, compMinLevel, compLayerNodes, compLevels,
      placeComp, coordGo, posFind, List.range_succ, DlgRow.is_pc_reply]
  · norm_num [calculateLayout, C4rows, mkRow, ensureParents,
      ensureParentsGo, buildComponents, buildComponentsGo, bfsGo,
      enqueueAll, childIndices, lookupRow, hasIndex, nodeToLayer, layerGo,
      layerFuel, layerSeeds, layersInit, layersGet, layersSet, insertAsc,
      sortAsc, insertStable, stableSortBy, baryNeighbors, baryValue,
      lookupQ, baryLevelPass, baryIteration, baryPhase,
      baryIterationCount, compMinLevel, compLayerNodes, compLevels,
      placeComp, coordGo, posFind, List.range_succ, DlgRow.is_pc_reply]
  · norm_num [calculateTreeLayout, C4treeRows, mkRow, treeComponents,
      treeCompsGo, treeBfs, treeBfsGo, treeRoots, npcIndices,
      incomingCount, layersAdd, enqueueAllLvl, childIndices, lookupRow,
      hasIndex, treeBaryPhase, treeBaryLevelPass, treeBaryNeighbors,
      treeBaryValue, lookupQ, layersGet, layersSet, insertAsc, sortAsc,
      insertStable, stableSortBy, baryIterationCount, calcCompInfo,
      maxList, minList, roundSqrt, placeTreeComp, packGo, posFind,
      lsEntries, List.range_succ, List.cons_ne_nil, Nat.sqrt,
      Nat.sqrt.iter, eq_false hsv, DlgRow.is_pc_reply]
  · norm_num [calculateTreeLayout, C4treeRows, mkRow, treeComponents,
      treeCompsGo, treeBfs, treeBfsGo, treeRoots, npcIndices,
      incomingCount, layersAdd, enqueueAllLvl, childIndices, lookupRow,
      hasIndex, treeBaryPhase, treeBaryLevelPass, treeBaryNeighbors,
      treeBaryValue, lookupQ, layersGet, layersSet, insertAsc, sortAsc,
      insertStable, stableSortBy, baryIterationCount, calcCompInfo,
      maxList, minList, roundSqrt, placeTreeComp, packGo, posFind,
      lsEntries, List.range_succ, List.cons_ne_nil, Nat.sqrt,
      Nat.sqrt.iter, eq_false hsv, DlgRow.is_pc_reply]

/-! ## C9 — the layout/connectivity readers and the row state -/

/-- Field-wise relation between a row before and after a layout call:
every field except `parent_npc` is untouched, and `parent_npc` either is
untouched or was filled in on a reply that had none. -/
def preservesAllButParent (r r' : DlgRow) : Prop :=
  r'.index = r.index ∧ r'.male = r.male ∧ r'.female = r.female ∧
  r'.next = r.next ∧ r'.condition = r.condition ∧ r'.action = r.action ∧
  r'.unknown01 = r.unknown01 ∧ r'.unknown02 = r.unknown02 ∧
  r'.unknown03 = r.unknown03 ∧ r'.unknown04 = r.unknown04 ∧
  r'.unknown05 = r.unknown05 ∧ r'.unknown06 = r.unknown06 ∧
  r'.malkavian = r.malkavian ∧
  (r'.parent_npc = r.parent_npc ∨ (r.is_pc_reply = true ∧ r.parent_npc = none))

theorem preservesAllButParent_refl (r : DlgRow) : preservesAllButParent r r :=
  ⟨rfl, rfl, rfl, rfl, rfl, rfl, rfl, rfl, rfl, rfl, rfl, rfl, rfl, Or.inl rfl⟩

theorem ensureParentsGo_preserves (cur : Option Int) (rows : List DlgRow) :
    List.Forall₂ preservesAllButParent rows (ensureParentsGo cur rows) := by
  induction rows generalizing cur with
  | nil => exact List.Forall₂.nil
  | cons r rs ih =>
    by_cases hpc : r.is_pc_reply
    · by_cases hp : r.parent_npc = none
      · simp only [ensureParentsGo, hpc, hp, if_true]
        exact List.Forall₂.cons
          ⟨rfl, rfl, rfl, rfl, rfl, rfl, rfl, rfl, rfl, rfl, rfl, rfl, rfl,
            Or.inr ⟨hpc, hp⟩⟩ (ih cur)
      · simp only [ensureParentsGo, hpc, hp, if_true, if_false]
        exact List.Forall₂.cons (preservesAllButParent_refl r) (ih cur)
    · simp only [ensureParentsGo, hpc]
      simp only [Bool.false_eq_true, if_false]
      exact List.Forall₂.cons (preservesAllButParent_refl r) (ih (some r.index))

/-- C9, counterexample. `_build_components` (via the in-place
`_ensure_parents`) rewrites the second row's `parent_npc` from `None`
to `1`: the readers do mutate the node collection. -/
theorem C9_counterexample :
    ((buildComponentsPost [mkRow 1 none, mkRow 2 (some 1)]).map
        (fun r => r.parent_npc)) = [none, some 1] ∧
      ([mkRow 1 none, mkRow 2 (some 1)].map (fun r => r.parent_npc)) =
        [none, none] := by
  constructor
  · decide
  · decide

/-- C9, amended. After `_build_components` or `calculate_layout` every
field of every row except `parent_npc` is unchanged (same row count and
order); `parent_npc` itself changes only on reply rows that had none set,
which receive the inferred owning NPC. `calculate_tree_layout` leaves the
rows entirely unchanged (its nested `_ensure_parents` is a no-op). -/
theorem C9_amended_readers_preserve (rows : List DlgRow) :
    List.Forall₂ preservesAllButParent rows (buildComponentsPost rows) ∧
      List.Forall₂ preservesAllButParent rows (calculateLayoutPost rows) ∧
      calculateTreeLayoutPost rows = rows := by
  refine ⟨ensureParentsGo_preserves none rows, ?_, rfl⟩
  by_cases h : rows = []
  · subst h
    simp only [calculateLayoutPost, if_true]
    exact List.Forall₂.nil
  · simp only [calculateLayoutPost, h, if_false]
    exact ensureParentsGo_preserves none rows

/-! ## C6 — `AddNodesCommand` / `_add_rows_and_items` -/

theorem addRowsData_success_eq {data rows : List DlgRow}
    (h : (addRowsData data rows).2 = false) :
    (addRowsData data rows).1 = data ++ rows := by
  induction rows generalizing data with
  | nil => simp [addRowsData]
  | cons r rs ih =>
    by_cases hc : data.any (fun x => x.index = r.index)
    · simp [addRowsData, hc] at h
    · simp only [addRowsData, hc, Bool.false_eq_true, if_false] at h ⊢
      rw [ih h]
      simp

theorem addRowsData_fresh {data rows : List DlgRow}
    (hN : (rows.map (fun r => r.index)).Nodup)
    (hF : ∀ r ∈ rows, ∀ x ∈ data, x.index ≠ r.index) :
    addRowsData data rows = (data ++ rows, false) := by
  induction rows generalizing data with
  | nil => simp [addRowsData]
  | cons r rs ih =>
    have hc : data.any (fun x => x.index = r.index) = false := by
      simp only [List.any_eq_false, decide_eq_true_eq]
      intro x hx
      exact hF r (List.mem_cons_self r rs) x hx
    simp only [addRowsData, hc, Bool.false_eq_true, if_false]
    rw [List.map_cons, List.nodup_cons] at hN
    have := ih hN.2 (fun s hs x hx => by
      rcases List.mem_append.mp hx with hx | hx
      · exact hF s (List.mem_cons_of_mem r hs) x hx
      · rcases List.mem_singleton.mp hx with rfl
        intro hix
        exact hN.1 (by
          rw [hix]
          exact List.mem_map_of_mem (fun r => r.index) hs))
    rw [this]
    simp

theorem addRowsData_failure_split {data rows : List DlgRow}
    (h : (addRowsData data rows).2 = true) :
    ∃ pre r post, rows = pre ++ r :: post ∧
      (addRowsData data rows).1 = data ++ pre ∧
      (data ++ pre).any (fun x => x.index = r.index) = true ∧
      (addRowsData data pre).2 = false := by
  induction rows generalizing data with
  | nil => simp [addRowsData] at h
  | cons r rs ih =>
    by_cases hc : data.any (fun x => x.index = r.index)
    · refine ⟨[], r, rs, by simp, ?_, by simpa using hc, by simp [addRowsData]⟩
      simp [addRowsData, hc]
    · simp only [addRowsData, hc, Bool.false_eq_true, if_false] at h ⊢
      obtain ⟨pre, s, post, hsplit, hdata, hconf, hok⟩ := ih h
      refine ⟨r :: pre, s, post, by simp [hsplit], ?_, ?_, ?_⟩
      · rw [hdata]; simp
      · simpa using hconf
      · simp [addRowsData, hc, hok]

/-- The scene items appended on the success path of
`_add_rows_and_items`, given the visibility filter of the updated
state. -/
def newItems (rows : List DlgRow) (visibleIds : List Int)
    (positions : List (Int × ℚ × ℚ)) : List (Int × ℚ × ℚ) :=
  (rows.filter (fun r => r.index ∈ visibleIds)).map
    (fun r => (r.index, posGetD positions r.index))

theorem addItems_fold_eq {rows : List DlgRow} {visibleIds : List Int}
    {positions acc : List (Int × ℚ × ℚ)}
    (hN : (rows.map (fun r => r.index)).Nodup)
    (hK : ∀ r ∈ rows, ∀ p ∈ acc, p.1 ≠ r.index) :
    rows.foldl
      (fun acc r =>
        if r.index ∈ visibleIds then
          addOneNodeItem acc r.index (posGetD positions r.index)
        else acc) acc = acc ++ newItems rows visibleIds positions := by
  induction rows generalizing acc with
  | nil => simp [newItems]
  | cons r rs ih =>
    rw [List.map_cons, List.nodup_cons] at hN
    by_cases hv : r.index ∈ visibleIds
    · have hguard : acc.any (fun p => p.1 = r.index) = false := by
        simp only [List.any_eq_false, decide_eq_true_eq]
        intro p hp
        exact hK r (List.mem_cons_self r rs) p hp
      have step : addOneNodeItem acc r.index (posGetD positions r.index) =
          acc ++ [(r.index, posGetD positions r.index)] := by
        simp [addOneNodeItem, hguard]
      simp only [List.foldl_cons, hv, if_true, step]
      rw [ih hN.2 (fun s hs p hp => by
        rcases List.mem_append.mp hp with hp | hp
        · exact hK s (List.mem_cons_of_mem r hs) p hp
        · rcases List.mem_singleton.mp hp with rfl
          intro hix
          apply hN.1
          have hrs : r.index = s.index := hix
          rw [hrs]
          exact List.mem_map_of_mem (fun r => r.index) hs)]
      simp [newItems, hv]
  -- invisible head: nothing is added for it
    · simp only [List.foldl_cons, hv, if_false]
      rw [ih hN.2 (fun s hs p hp => hK s (List.mem_cons_of_mem r hs) p hp)]
      simp [newItems, hv]

/-- C6, counterexample. A two-row batch whose *second* row collides with
an existing index raises, yet its first row stays inserted: the rejection
is not free of partial mutation. -/
theorem C6_counterexample :
    (addRowsAndItems ⟨[mkRow 1 none], [], true⟩
        [mkRow 2 none, mkRow 1 none] []).2 = true ∧
      (addRowsAndItems ⟨[mkRow 1 none], [], true⟩
          [mkRow 2 none, mkRow 1 none] []).1.dlg_data =
        [mkRow 1 none, mkRow 2 none] := by
  constructor
  · decide
  · decide

/-- Success specification of `_add_rows_and_items` shared by the AddNodes
and undo/redo theorems: with pairwise-distinct fresh indices the call
succeeds, appends all rows and the visible items, and its reverse
restores the original state; the failure branch leaves the items alone
but keeps the already-appended prefix. -/
theorem addNodes_spec (st : EditorState) (rows : List DlgRow)
    (positions : List (Int × ℚ × ℚ))
    (hN : (rows.map (fun r => r.index)).Nodup)
    (hF : ∀ r ∈ rows, ∀ x ∈ st.dlg_data, x.index ≠ r.index)
    (hK : ∀ r ∈ rows, ∀ p ∈ st.nodes, p.1 ≠ r.index) :
    (∀ st' rows' positions',
        (addRowsAndItems st' rows' positions').2 = true →
        (addRowsAndItems st' rows' positions').1.nodes = st'.nodes ∧
        ∃ pre r post, rows' = pre ++ r :: post ∧
          (addRowsAndItems st' rows' positions').1.dlg_data =
            st'.dlg_data ++ pre ∧
          (st'.dlg_data ++ pre).any (fun x => x.index = r.index) = true) ∧
    addRowsAndItems st rows positions =
      ({ st with
          dlg_data := st.dlg_data ++ rows,
          nodes := st.nodes ++ newItems rows
            ((visibleRows { st with dlg_data := st.dlg_data ++ rows }).map
              (fun r => r.index)) positions }, false) ∧
    addNodesUndo (addRowsAndItems st rows positions).1 rows = st := by
  have hsucc : addRowsAndItems st rows positions =
      ({ st with
          dlg_data := st.dlg_data ++ rows,
          nodes := st.nodes ++ newItems rows
            ((visibleRows { st with dlg_data := st.dlg_data ++ rows }).map
              (fun r => r.index)) positions }, false) := by
    have hd := @addRowsData_fresh st.dlg_data rows hN hF
    simp only [addRowsAndItems, hd, Bool.false_eq_true, if_false]
    rw [addItems_fold_eq hN hK]
  refine ⟨?_, hsucc, ?_⟩
  · intro st' rows' positions' hfail
    have hd2 : (addRowsData st'.dlg_data rows').2 = true := by
      by_cases h2 : (addRowsData st'.dlg_data rows').2 = true
      · exact h2
      · exfalso
        simp only [addRowsAndItems, Bool.not_eq_true] at hfail h2
        rw [if_neg (by simp [h2])] at hfail
        simp at hfail
    obtain ⟨pre, r, post, hsplit, hdata, hconf, _⟩ :=
      addRowsData_failure_split hd2
    constructor
    · simp [addRowsAndItems, hd2]
    · exact ⟨pre, r, post, hsplit, by simp [addRowsAndItems, hd2, hdata], hconf⟩
  · rw [hsucc]
    have hdataf : (st.dlg_data ++ rows).filter
        (fun r => r.index ∉ rows.map (fun r => r.index)) = st.dlg_data := by
      rw [List.filter_append]
      have h1 : st.dlg_data.filter
          (fun r => r.index ∉ rows.map (fun r => r.index)) = st.dlg_data :=
        List.filter_eq_self.mpr (fun x hx => by
          simp only [decide_eq_true_eq, List.mem_map, not_exists, not_and]
          intro s hs h
          exact hF s hs x hx h.symm)
      have h2 : rows.filter
          (fun r => r.index ∉ rows.map (fun r => r.index)) = [] :=
        List.filter_eq_nil_iff.mpr (fun x hx => by
          simp only [decide_eq_true_eq, Decidable.not_not]
          exact List.mem_map_of_mem (fun r => r.index) hx)
      rw [h1, h2, List.append_nil]
    have hnodesf : (st.nodes ++ newItems rows
        ((visibleRows { st with dlg_data := st.dlg_data ++ rows }).map
          (fun r => r.index)) positions).filter
        (fun p => p.1 ∉ rows.map (fun r => r.index)) = st.nodes := by
      rw [List.filter_append]
      have h1 : st.nodes.filter
          (fun p => p.1 ∉ rows.map (fun r => r.index)) = st.nodes :=
        List.filter_eq_self.mpr (fun p hp => by
          simp only [decide_eq_true_eq, List.mem_map, not_exists, not_and]
          intro s hs h
          exact hK s hs p hp h.symm)
      have h2 : (newItems rows
          ((visibleRows { st with dlg_data := st.dlg_data ++ rows }).map
            (fun r => r.index)) positions).filter
          (fun p => p.1 ∉ rows.map (fun r => r.index)) = [] :=
        List.filter_eq_nil_iff.mpr (fun p hp => by
          simp only [newItems, List.mem_map, List.mem_filter] at hp
          obtain ⟨s, ⟨hs, _⟩, rfl⟩ := hp
          simp only [decide_eq_true_eq, Decidable.not_not]
          exact List.mem_map_of_mem (fun r => r.index) hs)
      rw [h1, h2, List.append_nil]
    simp only [addNodesUndo, removeRowsAndItems]
    obtain ⟨d, n, sflag⟩ := st
    simp only [EditorState.mk.injEq]
    exact ⟨hdataf, hnodesf, trivial⟩


/-- C6, amended. `_add_rows_and_items` checks each incoming row as it
appends it, so: (a) on rejection the scene items are untouched but the
batch rows *preceding* the first colliding row remain appended (the
collection is unchanged only when the very first batch row collides);
(b) when the incoming indices are pairwise distinct and all fresh, the
call succeeds, every batch row is appended in order, each visible one
gets a scene item at its given initial position (default `(0, 0)`), and
the reverse operation removes exactly those indices, restoring the
original state. -/
theorem C6_amended_addNodes (st : EditorState) (rows : List DlgRow)
    (positions : List (Int × ℚ × ℚ))
    (hN : (rows.map (fun r => r.index)).Nodup)
    (hF : ∀ r ∈ rows, ∀ x ∈ st.dlg_data, x.index ≠ r.index)
    (hK : ∀ r ∈ rows, ∀ p ∈ st.nodes, p.1 ≠ r.index) :
    (∀ st' rows' positions',
        (addRowsAndItems st' rows' positions').2 = true →
        (addRowsAndItems st' rows' positions').1.nodes = st'.nodes ∧
        ∃ pre r post, rows' = pre ++ r :: post ∧
          (addRowsAndItems st' rows' positions').1.dlg_data =
            st'.dlg_data ++ pre ∧
          (st'.dlg_data ++ pre).any (fun x => x.index = r.index) = true) ∧
    addRowsAndItems st rows positions =
      ({ st with
          dlg_data := st.dlg_data ++ rows,
          nodes := st.nodes ++ newItems rows
            ((visibleRows { st with dlg_data := st.dlg_data ++ rows }).map
              (fun r => r.index)) positions }, false) ∧
    addNodesUndo (addRowsAndItems st rows positions).1 rows = st :=
  ⟨(addNodes_spec st rows positions hN hF hK).1,
   (addNodes_spec st rows positions hN hF hK).2.1,
   (addNodes_spec st rows positions hN hF hK).2.2⟩

/-- Witness for C6: a fresh one-row batch on a one-row state succeeds,
stores the given initial position, and the reverse restores the state. -/
theorem C6_amended_addNodes_witness :
    addRowsAndItems ⟨[mkRow 1 none], [(1, 0, 0)], true⟩ [mkRow 2 none]
        [(2, 5, 7)] =
      (⟨[mkRow 1 none, mkRow 2 none], [(1, 0, 0), (2, 5, 7)], true⟩, false) ∧
    addNodesUndo
        (addRowsAndItems ⟨[mkRow 1 none], [(1, 0, 0)], true⟩ [mkRow 2 none]
          [(2, 5, 7)]).1 [mkRow 2 none] =
      ⟨[mkRow 1 none], [(1, 0, 0)], true⟩ := by
  have h := C6_amended_addNodes ⟨[mkRow 1 none], [(1, 0, 0)], true⟩
    [mkRow 2 none] [(2, 5, 7)] (by decide) (by decide) (by decide)
  refine ⟨?_, h.2.2⟩
  rw [h.2.1]
  decide

/-! ## C7 — `_shift_indices_from` and referential integrity -/

theorem shiftRow_fields (s d : Int) (r : DlgRow) :
    (shiftRow s d r).index = shiftVal s d r.index ∧
    (shiftRow s d r).next = r.next.map (shiftVal s d) ∧
    (shiftRow s d r).parent_npc = r.parent_npc.map (shiftVal s d) := by
  obtain ⟨i, ma, fe, nx, co, ac, u1, u2, u3, u4, u5, u6, mk, pa⟩ := r
  rcases nx with _ | n <;> rcases pa with _ | p <;>
    by_cases hi : s ≤ i <;>
    (try by_cases hn : s ≤ n) <;>
    (try by_cases hp : s ≤ p) <;>
    simp [shiftRow, shiftVal, *]

theorem shiftVal_one_inj {s a b : Int} (h : shiftVal s 1 a = shiftVal s 1 b) :
    a = b := by
  simp only [shiftVal] at h
  split_ifs at h <;> omega

theorem lookupRow_shift (s : Int) (rows : List DlgRow) (v : Int) :
    lookupRow (shiftIndicesFrom s 1 rows) (shiftVal s 1 v) =
      (lookupRow rows v).map (shiftRow s 1) := by
  induction rows with
  | nil => rfl
  | cons r rs ih =>
    simp only [shiftIndicesFrom, List.map_cons, lookupRow] at ih ⊢
    rw [ih]
    cases h : lookupRow rs v with
    | some x => rfl
    | none =>
      simp only [Option.map_none]
      have hidx : (shiftRow s 1 r).index = shiftVal s 1 r.index :=
        (shiftRow_fields s 1 r).1
      by_cases hv : r.index = v
      · rw [if_pos (by rw [hidx, hv]), if_pos hv]
        rfl
      · rw [if_neg (by
            rw [hidx]
            intro hc
            exact hv (shiftVal_one_inj hc)), if_neg hv]
        rfl

theorem hasIndex_shift {s : Int} {rows : List DlgRow} {v : Int}
    (h : hasIndex rows v = true) :
    hasIndex (shiftIndicesFrom s 1 rows) (shiftVal s 1 v) = true := by
  simp only [hasIndex, List.any_eq_true, decide_eq_true_eq] at h ⊢
  obtain ⟨x, hx, hxi⟩ := h
  exact ⟨shiftRow s 1 x, List.mem_map_of_mem _ hx,
    by rw [(shiftRow_fields s 1 x).1, hxi]⟩

/-- C7, confirmed. On any dataset where every `next` / `parentLine`
reference resolves, `_shift_indices_from(start, +1)` keeps every
reference resolving, and each reference denotes the same node: index
values and reference values are renamed by the same injective map
`shiftVal`, so the row a reference reaches after the shift is exactly the
shifted image of the row it reached before. -/
theorem C7_renumber_integrity (rows : List DlgRow) (start : Int)
    (hnext : ∀ r ∈ rows, ∀ v, r.next = some v → hasIndex rows v = true)
    (hpar : ∀ r ∈ rows, ∀ v, r.parent_npc = some v → hasIndex rows v = true) :
    (∀ r' ∈ shiftIndicesFrom start 1 rows, ∀ v,
        (r'.next = some v ∨ r'.parent_npc = some v) →
          hasIndex (shiftIndicesFrom start 1 rows) v = true) ∧
    (∀ v, lookupRow (shiftIndicesFrom start 1 rows) (shiftVal start 1 v) =
        (lookupRow rows v).map (shiftRow start 1)) ∧
    (∀ r ∈ rows,
        (shiftRow start 1 r).next = r.next.map (shiftVal start 1) ∧
        (shiftRow start 1 r).parent_npc =
          r.parent_npc.map (shiftVal start 1)) := by
  refine ⟨?_, fun v => lookupRow_shift start rows v,
    fun r _ => ⟨(shiftRow_fields start 1 r).2.1, (shiftRow_fields start 1 r).2.2⟩⟩
  intro r' hr' v hv
  obtain ⟨r, hr, rfl⟩ := List.mem_map.mp hr'
  rcases hv with hv | hv
  · rw [(shiftRow_fields start 1 r).2.1] at hv
    cases hn : r.next with
    | none => rw [hn] at hv; simp at hv
    | some v0 =>
      rw [hn] at hv
      simp at hv
      rw [← hv]
      exact hasIndex_shift (hnext r hr v0 hn)
  · rw [(shiftRow_fields start 1 r).2.2] at hv
    cases hn : r.parent_npc with
    | none => rw [hn] at hv; simp at hv
    | some v0 =>
      rw [hn] at hv
      simp at hv
      rw [← hv]
      exact hasIndex_shift (hpar r hr v0 hn)

/-- Witness for C7 on a concrete resolving dataset with `startIndex = 10`. -/
theorem C7_renumber_integrity_witness :
    lookupRow (shiftIndicesFrom 10 1
        [mkRow 10 none, { mkRow 11 (some 10) with parent_npc := some 10 }])
        (shiftVal 10 1 10) =
      (lookupRow
          [mkRow 10 none, { mkRow 11 (some 10) with parent_npc := some 10 }]
          10).map (shiftRow 10 1) := by
  exact (C7_renumber_integrity
    [mkRow 10 none, { mkRow 11 (some 10) with parent_npc := some 10 }] 10
    (by decide) (by decide)).2.1 10

/-! ## C8 — undo/redo exactness -/

theorem posFind_mem : ∀ {m : List (Int × ℚ × ℚ)} {k : Int} {v : ℚ × ℚ},
    posFind m k = some v → (k, v.1, v.2) ∈ m := by
  intro m
  induction m with
  | nil => intro k v h; simp [posFind] at h
  | cons p ps ih =>
    intro k v h
    simp only [posFind] at h
    cases hp : posFind ps k with
    | some w =>
      rw [hp] at h
      rw [Option.some.injEq] at h
      subst h
      exact List.mem_cons_of_mem p (ih hp)
    | none =>
      rw [hp] at h
      by_cases hk : p.1 = k
      · rw [if_pos hk] at h
        rw [Option.some.injEq] at h
        subst h
        subst hk
        exact List.mem_cons_self p ps
      · rw [if_neg hk] at h
        simp at h

theorem posFind_eq_none : ∀ {m : List (Int × ℚ × ℚ)} {k : Int},
    (∀ p ∈ m, p.1 ≠ k) → posFind m k = none := by
  intro m
  induction m with
  | nil => intro k _; rfl
  | cons p ps ih =>
    intro k h
    simp only [posFind]
    rw [ih (fun q hq => h q (List.mem_cons_of_mem p hq))]
    rw [if_neg (h p (List.mem_cons_self p ps))]

theorem posFind_append (a b : List (Int × ℚ × ℚ)) (k : Int) :
    posFind (a ++ b) k =
      match posFind b k with
      | some v => some v
      | none => posFind a k := by
  induction a with
  | nil =>
    simp only [List.nil_append]
    cases posFind b k <;> rfl
  | cons p ps ih =>
    show (match posFind (ps ++ b) k with
      | some v => some v
      | none => if p.1 = k then some p.2 else none) = _
    rw [ih]
    cases posFind b k <;> rfl

theorem capturePositions_key {nodes : List (Int × ℚ × ℚ)} {ids : List Int}
    {p : Int × ℚ × ℚ} (h : p ∈ capturePositions nodes ids) :
    p.1 ∈ ids ∧ posFind nodes p.1 = some (p.2.1, p.2.2) := by
  obtain ⟨i, hi, hp⟩ := List.mem_filterMap.mp h
  cases hf : posFind nodes i with
  | none => rw [hf] at hp; simp at hp
  | some v =>
    rw [hf] at hp
    simp only [Option.map_some', Option.some.injEq] at hp
    subst hp
    exact ⟨hi, hf⟩

theorem posFind_cons_none {ps : List (Int × ℚ × ℚ)} {k : Int}
    (h : posFind ps k = none) (p : Int × ℚ × ℚ) :
    posFind (p :: ps) k = if p.1 = k then some p.2 else none := by
  show (match posFind ps k with
    | some v => some v
    | none => if p.1 = k then some p.2 else none) = _
  rw [h]

theorem posFind_cons_some {ps : List (Int × ℚ × ℚ)} {k : Int} {v : ℚ × ℚ}
    (h : posFind ps k = some v) (p : Int × ℚ × ℚ) :
    posFind (p :: ps) k = some v := by
  show (match posFind ps k with
    | some v => some v
    | none => if p.1 = k then some p.2 else none) = _
  rw [h]

theorem capturePositions_cons_some (nodes : List (Int × ℚ × ℚ)) (j : Int)
    (ids : List Int) {v : ℚ × ℚ} (h : posFind nodes j = some v) :
    capturePositions nodes (j :: ids) =
      (j, v.1, v.2) :: capturePositions nodes ids := by
  simp only [capturePositions, List.filterMap_cons, h, Option.map_some']

theorem capturePositions_cons_none (nodes : List (Int × ℚ × ℚ)) (j : Int)
    (ids : List Int) (h : posFind nodes j = none) :
    capturePositions nodes (j :: ids) = capturePositions nodes ids := by
  simp only [capturePositions, List.filterMap_cons, h, Option.map_none']

theorem capturePositions_find {nodes : List (Int × ℚ × ℚ)} :
    ∀ {ids : List Int}, ids.Nodup → ∀ {i : Int}, i ∈ ids →
      posFind (capturePositions nodes ids) i = posFind nodes i := by
  intro ids
  induction ids with
  | nil => intro _ i hi; simp at hi
  | cons j ids ih =>
    intro hN i hi
    rw [List.nodup_cons] at hN
    have htail_none : ∀ {k : Int}, k ∉ ids →
        posFind (capturePositions nodes ids) k = none := by
      intro k hk
      exact posFind_eq_none (fun p hp => by
        intro hc
        exact hk (hc ▸ (capturePositions_key hp).1))
    rcases List.mem_cons.mp hi with rfl | hi2
    · cases hf : posFind nodes i with
      | none =>
        rw [capturePositions_cons_none nodes i ids hf]
        exact htail_none hN.1
      | some v =>
        rw [capturePositions_cons_some nodes i ids hf,
          posFind_cons_none (htail_none hN.1) _, if_pos rfl]
    · have hne : i ≠ j := by
        intro hc
        exact hN.1 (hc ▸ hi2)
      cases hf : posFind nodes j with
      | none =>
        rw [capturePositions_cons_none nodes j ids hf]
        exact ih hN.2 hi2
      | some v =>
        rw [capturePositions_cons_some nodes j ids hf]
        cases hres : posFind (capturePositions nodes ids) i with
        | some w =>
          rw [posFind_cons_some hres _, ← ih hN.2 hi2, hres]
        | none =>
          rw [posFind_cons_none hres _, if_neg (fun hc => hne hc.symm),
            ← ih hN.2 hi2, hres]

theorem captureRows_map_index {data : List DlgRow} :
    ∀ {ids : List Int}, (∀ i ∈ ids, hasIndex data i = true) →
      (captureRows data ids).map (fun r => r.index) = ids := by
  intro ids
  induction ids with
  | nil => intro _; rfl
  | cons i ids ih =>
    intro h
    have hsome : (data.find? (fun r => decide (r.index = i))).isSome := by
      rw [List.find?_isSome]
      have := h i (List.mem_cons_self i ids)
      simp only [hasIndex, List.any_eq_true] at this
      obtain ⟨r, hr, hri⟩ := this
      exact ⟨r, hr, hri⟩
    obtain ⟨r, hr⟩ := Option.isSome_iff_exists.mp hsome
    have hri : r.index = i := by
      have := List.find?_some hr
      simpa using this
    simp only [captureRows, List.filterMap_cons, hr]
    rw [show (ids.filterMap fun idx =>
        data.find? fun r => decide (r.index = idx)) =
      captureRows data ids from rfl]
    rw [List.map_cons, hri, ih (fun j hj => h j (List.mem_cons_of_mem i hj))]

theorem captureRows_mem {data : List DlgRow} {ids : List Int} {r : DlgRow}
    (h : r ∈ captureRows data ids) : r ∈ data ∧ r.index ∈ ids := by
  obtain ⟨i, hi, hf⟩ := List.mem_filterMap.mp h
  have hmem := List.mem_of_find?_eq_some hf
  have hri : r.index = i := by
    have := List.find?_some hf
    simpa using this
  exact ⟨hmem, hri ▸ hi⟩

theorem mem_captureRows {data : List DlgRow} {ids : List Int} {x : DlgRow}
    (hN : (data.map (fun r => r.index)).Nodup)
    (hx : x ∈ data) (hxi : x.index ∈ ids) : x ∈ captureRows data ids := by
  have hsome : (data.find? (fun r => decide (r.index = x.index))).isSome := by
    rw [List.find?_isSome]
    exact ⟨x, hx, by simp⟩
  obtain ⟨y, hy⟩ := Option.isSome_iff_exists.mp hsome
  have hyx : y = x := by
    have hym := List.mem_of_find?_eq_some hy
    have hyi : y.index = x.index := by
      have := List.find?_some hy
      simpa using this
    exact List.inj_on_of_nodup_map hN hym hx hyi
  exact List.mem_filterMap.mpr ⟨x.index, hxi, hyx ▸ hy⟩

theorem newItems_cons_pos {r : DlgRow} {visibleIds : List Int}
    (rs : List DlgRow) (positions : List (Int × ℚ × ℚ))
    (h : r.index ∈ visibleIds) :
    newItems (r :: rs) visibleIds positions =
      (r.index, posGetD positions r.index) ::
        newItems rs visibleIds positions := by
  unfold newItems
  rw [List.filter_cons_of_pos (by simpa using h), List.map_cons]

theorem newItems_cons_neg {r : DlgRow} {visibleIds : List Int}
    (rs : List DlgRow) (positions : List (Int × ℚ × ℚ))
    (h : r.index ∉ visibleIds) :
    newItems (r :: rs) visibleIds positions =
      newItems rs visibleIds positions := by
  unfold newItems
  rw [List.filter_cons_of_neg (by simpa using h)]

theorem posFind_newItems {rows : List DlgRow} {visibleIds : List Int}
    {positions : List (Int × ℚ × ℚ)} {i : Int}
    (hN : (rows.map (fun r => r.index)).Nodup)
    (hr : ∃ r ∈ rows, r.index = i ∧ i ∈ visibleIds) :
    posFind (newItems rows visibleIds positions) i =
      some (posGetD positions i) := by
  induction rows with
  | nil => simp at hr
  | cons r rs ih =>
    rw [List.map_cons, List.nodup_cons] at hN
    obtain ⟨s, hs, hsi, hvi⟩ := hr
    rcases List.mem_cons.mp hs with rfl | hs2
    · have htail : posFind (newItems rs visibleIds positions) i = none := by
        apply posFind_eq_none
        intro p hp
        simp only [newItems, List.mem_map, List.mem_filter] at hp
        obtain ⟨t, ⟨ht, _⟩, rfl⟩ := hp
        intro hc
        apply hN.1
        have hti : t.index = i := hc
        rw [hsi, ← hti]
        exact List.mem_map_of_mem (fun r => r.index) ht
      rw [newItems_cons_pos rs positions (hsi ▸ hvi),
        posFind_cons_none htail _, if_pos hsi, hsi]
    · have htail := ih hN.2 ⟨s, hs2, hsi, hvi⟩
      by_cases hv : r.index ∈ visibleIds
      · rw [newItems_cons_pos rs positions hv, posFind_cons_some htail _]
      · rw [newItems_cons_neg rs positions hv]
        exact htail

theorem visibleRows_subset (st : EditorState) : visibleRows st ⊆ st.dlg_data := by
  unfold visibleRows
  split
  · exact fun _ h => h
  · exact fun x hx => List.mem_of_mem_filter hx

/-- Visibility of a particular row only depends on the row itself and
the filter flag, so it transfers to any state with the same flag whose
data contains the row. -/
theorem visibleRows_transfer {st st' : EditorState} {y : DlgRow}
    (h : y ∈ visibleRows st) (hflag : st'.show_empty_nodes = st.show_empty_nodes)
    (hmem : y ∈ st'.dlg_data) : y ∈ visibleRows st' := by
  unfold visibleRows at h ⊢
  rw [hflag]
  by_cases hf : st.show_empty_nodes
  · rw [if_pos hf]
    exact hmem
  · rw [if_neg hf] at h ⊢
    rw [List.mem_filter] at h
    exact List.mem_filter.mpr ⟨hmem, h.2⟩

/-- C8, confirmed. Deleting the captured rows `X` and undoing restores
the exact prior node set (membership in `dlg_data` is unchanged) and the
scene position of every deleted index that had one; adding a fresh batch,
undoing and redoing reproduces exactly the state the first application
produced. Hypotheses are the editor invariants: distinct indices,
distinct selected ids that exist, scene items only for visible rows, and
a fresh, duplicate-free incoming batch. -/
theorem C8_undo_redo_exact (st : EditorState) (ids : List Int)
    (rows' : List DlgRow) (positions' : List (Int × ℚ × ℚ))
    (hN : (st.dlg_data.map (fun r => r.index)).Nodup)
    (hidsN : ids.Nodup)
    (hids : ∀ i ∈ ids, hasIndex st.dlg_data i = true)
    (hvis : ∀ p ∈ st.nodes, p.1 ∈ (visibleRows st).map (fun r => r.index))
    (hN' : (rows'.map (fun r => r.index)).Nodup)
    (hF' : ∀ r ∈ rows', ∀ x ∈ st.dlg_data, x.index ≠ r.index)
    (hK' : ∀ r ∈ rows', ∀ p ∈ st.nodes, p.1 ≠ r.index) :
    ((deleteNodesUndo (deleteNodesRedo st (captureRows st.dlg_data ids))
        (captureRows st.dlg_data ids) (capturePositions st.nodes ids)).2 =
          false ∧
      (∀ x, x ∈ (deleteNodesUndo
          (deleteNodesRedo st (captureRows st.dlg_data ids))
          (captureRows st.dlg_data ids)
          (capturePositions st.nodes ids)).1.dlg_data ↔ x ∈ st.dlg_data) ∧
      (∀ i ∈ ids, ∀ v : ℚ × ℚ, posFind st.nodes i = some v →
        posFind (deleteNodesUndo
          (deleteNodesRedo st (captureRows st.dlg_data ids))
          (captureRows st.dlg_data ids)
          (capturePositions st.nodes ids)).1.nodes i = some v)) ∧
    addNodesRedo (addNodesUndo (addNodesRedo st rows' positions').1 rows')
        rows' positions' = addNodesRedo st rows' positions' := by
  have hXidx : (captureRows st.dlg_data ids).map (fun r => r.index) = ids :=
    captureRows_map_index hids
  have hN2 : ((captureRows st.dlg_data ids).map (fun r => r.index)).Nodup := by
    rw [hXidx]; exact hidsN
  have hF2 : ∀ r ∈ captureRows st.dlg_data ids,
      ∀ x ∈ (deleteNodesRedo st (captureRows st.dlg_data ids)).dlg_data,
        x.index ≠ r.index := by
    intro r hr x hx
    have hxmem : x ∈ st.dlg_data.filter (fun y =>
        y.index ∉ (captureRows st.dlg_data ids).map (fun r => r.index)) := hx
    have hxnot := (List.mem_filter.mp hxmem).2
    simp only [decide_eq_true_eq] at hxnot
    intro hc
    exact hxnot (hc ▸ List.mem_map_of_mem (fun r => r.index) hr)
  have hK2 : ∀ r ∈ captureRows st.dlg_data ids,
      ∀ p ∈ (deleteNodesRedo st (captureRows st.dlg_data ids)).nodes,
        p.1 ≠ r.index := by
    intro r hr p hp
    have hpmem : p ∈ st.nodes.filter (fun q =>
        q.1 ∉ (captureRows st.dlg_data ids).map (fun r => r.index)) := hp
    have hpnot := (List.mem_filter.mp hpmem).2
    simp only [decide_eq_true_eq] at hpnot
    intro hc
    exact hpnot (hc ▸ List.mem_map_of_mem (fun r => r.index) hr)
  have spec := addNodes_spec (deleteNodesRedo st (captureRows st.dlg_data ids))
    (captureRows st.dlg_data ids) (capturePositions st.nodes ids) hN2 hF2 hK2
  have spec' := addNodes_spec st rows' positions' hN' hF' hK'
  refine ⟨⟨?_, ?_, ?_⟩, ?_⟩
  · show (addRowsAndItems _ _ _).2 = false
    rw [spec.2.1]
  · intro x
    show x ∈ (addRowsAndItems _ _ _).1.dlg_data ↔ _
    rw [spec.2.1]
    show x ∈ (deleteNodesRedo st _).dlg_data ++ captureRows st.dlg_data ids ↔ _
    constructor
    · intro hx
      rcases List.mem_append.mp hx with hx | hx
      · exact List.mem_of_mem_filter hx
      · exact (captureRows_mem hx).1
    · intro hx
      by_cases hxi : x.index ∈ ids
      · exact List.mem_append.mpr (Or.inr (mem_captureRows hN hx hxi))
      · refine List.mem_append.mpr (Or.inl ?_)
        refine List.mem_filter.mpr ⟨hx, ?_⟩
        simp only [decide_eq_true_eq, hXidx]
        exact hxi
  · intro i hi v hv
    have hentry : (i, v.1, v.2) ∈ st.nodes := posFind_mem hv
    have hivis := hvis _ hentry
    obtain ⟨y, hy, hyi⟩ := List.mem_map.mp hivis
    obtain ⟨r, hrX, hri⟩ : ∃ r ∈ captureRows st.dlg_data ids, r.index = i := by
      have : i ∈ (captureRows st.dlg_data ids).map (fun r => r.index) := by
        rw [hXidx]; exact hi
      obtain ⟨r, hr, hri⟩ := List.mem_map.mp this
      exact ⟨r, hr, hri⟩
    have hyr : y = r :=
      List.inj_on_of_nodup_map hN (visibleRows_subset st hy)
        (captureRows_mem hrX).1 (by rw [hyi, hri])
    have hcap : posFind (capturePositions st.nodes ids) i = some v := by
      rw [capturePositions_find hidsN hi]
      exact hv
    have hget : posGetD (capturePositions st.nodes ids) i = v := by
      unfold posGetD
      rw [hcap]
      rfl
    have hrvis : r ∈ visibleRows
        { deleteNodesRedo st (captureRows st.dlg_data ids) with
          dlg_data := (deleteNodesRedo st (captureRows st.dlg_data ids)).dlg_data
            ++ captureRows st.dlg_data ids } := by
      exact @visibleRows_transfer st _ r (hyr ▸ hy) rfl
        (List.mem_append.mpr (Or.inr hrX))
    have hnodes_eq : (addRowsAndItems
        (deleteNodesRedo st (captureRows st.dlg_data ids))
        (captureRows st.dlg_data ids)
        (capturePositions st.nodes ids)).1.nodes
      = (deleteNodesRedo st (captureRows st.dlg_data ids)).nodes ++
          newItems (captureRows st.dlg_data ids)
            ((visibleRows { deleteNodesRedo st (captureRows st.dlg_data ids) with
              dlg_data := (deleteNodesRedo st
                (captureRows st.dlg_data ids)).dlg_data ++
                captureRows st.dlg_data ids }).map (fun r => r.index))
            (capturePositions st.nodes ids) := by
      rw [spec.2.1]
    show posFind (addRowsAndItems
        (deleteNodesRedo st (captureRows st.dlg_data ids))
        (captureRows st.dlg_data ids)
        (capturePositions st.nodes ids)).1.nodes i = some v
    rw [hnodes_eq, posFind_append]
    rw [posFind_newItems hN2
      ⟨r, hrX, hri, hri ▸ List.mem_map_of_mem (fun r => r.index) hrvis⟩]
    rw [hget]
  · show addRowsAndItems (addNodesUndo (addRowsAndItems st rows' positions').1
      rows') rows' positions' = addRowsAndItems st rows' positions'
    rw [spec'.2.2]

def C8st : EditorState :=
  { dlg_data := [mkRow 1 none, mkRow 2 (some 1)],
    nodes := [(1, 0, 0), (2, 3, 4)],
    show_empty_nodes := true }

/-- Witness for C8 on a concrete two-row editor state: delete node 2
then undo, and add a fresh node 5, undo, redo. -/
theorem C8_undo_redo_exact_witness :
    ((deleteNodesUndo (deleteNodesRedo C8st (captureRows C8st.dlg_data [2]))
        (captureRows C8st.dlg_data [2]) (capturePositions C8st.nodes [2])).2 =
          false ∧
      (∀ x, x ∈ (deleteNodesUndo
          (deleteNodesRedo C8st (captureRows C8st.dlg_data [2]))
          (captureRows C8st.dlg_data [2])
          (capturePositions C8st.nodes [2])).1.dlg_data ↔
            x ∈ C8st.dlg_data) ∧
      (∀ i ∈ ([2] : List Int), ∀ v : ℚ × ℚ, posFind C8st.nodes i = some v →
        posFind (deleteNodesUndo
          (deleteNodesRedo C8st (captureRows C8st.dlg_data [2]))
          (captureRows C8st.dlg_data [2])
          (capturePositions C8st.nodes [2])).1.nodes i = some v)) ∧
    addNodesRedo (addNodesUndo
        (addNodesRedo C8st [mkRow 5 none] [(5, 1, 2)]).1 [mkRow 5 none])
        [mkRow 5 none] [(5, 1, 2)] =
      addNodesRedo C8st [mkRow 5 none] [(5, 1, 2)] :=
  C8_undo_redo_exact C8st [2] [mkRow 5 none] [(5, 1, 2)]
    (by decide) (by decide) (by decide) (by decide)
    (by decide) (by decide) (by decide)

/-- A state the editor reaches through `_apply_edit`, which re-creates
the scene item of an edited row unconditionally: row 2 is an empty
separator, hidden by the default `show_empty_nodes = False` filter, yet
it still has a scene item at `(3, 4)`. -/
def C8hiddenState : EditorState :=
  { dlg_data := [mkRow 1 none, { mkRow 2 none with male := "" }],
    nodes := [(1, 0, 0), (2, 3, 4)],
    show_empty_nodes := false }

/-- C8, counterexample. The undo of DeleteNodesCommand re-adds items via
`_add_rows_and_items`, which skips rows that are not visible: from a
reachable state where a hidden empty-separator row still has a scene
item (see `C8hiddenState`), `Delete({2}); Undo()` restores the row data
but loses the node's position — `posFind` drops from `some (3, 4)` to
`none`, so undo does not restore the exact prior positions of X. -/
theorem C8_counterexample :
    ({ mkRow 2 none with male := "" } : DlgRow).is_empty_separator = true ∧
    posFind C8hiddenState.nodes 2 = some (3, 4) ∧
    (deleteNodesUndo (deleteNodesRedo C8hiddenState
        (captureRows C8hiddenState.dlg_data [2]))
      (captureRows C8hiddenState.dlg_data [2])
      (capturePositions C8hiddenState.nodes [2])).1.dlg_data =
        C8hiddenState.dlg_data ∧
    posFind (deleteNodesUndo (deleteNodesRedo C8hiddenState
        (captureRows C8hiddenState.dlg_data [2]))
      (captureRows C8hiddenState.dlg_data [2])
      (capturePositions C8hiddenState.nodes [2])).1.nodes 2 = none := by
  refine ⟨rfl, rfl, by decide, by decide⟩

/-! ## C10 — serialization round-trips -/

/-- C10, counterexample. A `']'` in a text field is read back as
`'\x7d'` (the writer only protects `'\x7d'`), and `parent_npc` is not
written to `.dlg` at all, so the write/read round trip changes the row. -/
theorem C10_counterexample :
    readDlgLines (writeDlgLines
        [{ mkRow 1 none with male := "]", parent_npc := some 7 }]) =
      [{ mkRow 1 none with male := "\x7d" }] ∧
    readDlgLines (writeDlgLines
        [{ mkRow 1 none with male := "]", parent_npc := some 7 }]) ≠
      [{ mkRow 1 none with male := "]", parent_npc := some 7 }] := by
  constructor
  · decide
  · decide

/-- C10, amended. The `.dlg` round trip preserves ordering, `index`,
`next` and all text/variant fields for rows whose text fields contain no
`']'` and no line break, but it always resets `parentLine` to null
(`parent_npc` is never written); a `'\x7d'` survives via its `']'`
encoding. The JSON round trip (`to_json_data` / `from_json_data`) is
lossless for every row list, `parentLine` included. -/
theorem C10_amended_roundtrip (rows : List DlgRow)
    (h : ∀ r ∈ rows, dlgWritable r) :
    readDlgLines (writeDlgLines rows) =
      rows.map (fun r => { r with parent_npc := none }) ∧
    fromJsonData (toJsonData rows) = some rows := by
  constructor
  · unfold readDlgLines writeDlgLines
    induction rows with
    | nil => rfl
    | cons r rs ih =>
      simp only [List.map_cons, List.filterMap_cons,
        parseDlgLine_write (h r (List.mem_cons_self r rs))]
      rw [ih (fun s hs => h s (List.mem_cons_of_mem r hs))]
  · unfold fromJsonData toJsonData
    simp only [List.map_map, Option.some.injEq]
    calc rows.map (fromJsonNode ∘ toJsonNode)
        = rows.map id := List.map_congr_left
          (fun r _ => fromJson_toJson_node r)
      _ = rows := List.map_id rows

/-- Witness for C10 on a two-row list (an NPC line and a reply). -/
theorem C10_amended_roundtrip_witness :
    readDlgLines (writeDlgLines [mkRow 1 none, mkRow 2 (some 1)]) =
      [mkRow 1 none, mkRow 2 (some 1)] ∧
    fromJsonData (toJsonData [mkRow 1 none, mkRow 2 (some 1)]) =
      some [mkRow 1 none, mkRow 2 (some 1)] := by
  have h := C10_amended_roundtrip [mkRow 1 none, mkRow 2 (some 1)]
    (by
      intro r hr
      have h2 : r = mkRow 1 none ∨ r = mkRow 2 (some 1) := by simpa using hr
      rcases h2 with rfl | rfl
      · unfold dlgWritable
        decide
      · unfold dlgWritable
        decide)
  refine ⟨?_, h.2⟩
  rw [h.1]
  decide

end Dlg
